import Mathlib

/-!
Shallow embedding of the core IR of the yuzu shader recompiler:
the `IREmitter` opcode-dispatch methods (`ir_emitter.cpp`) and the
SSA construction pass (`ssa_rewrite_pass.cpp`, Braun et al. CC 2013).

Every definition is translated from the C++ source files of the repository.
The `Block`/`Inst`/`Value` member functions (`AddImmediatePredecessor`,
`PrependNewInst`, `ReplaceUsesWith`, `AddPhiOperand`, value equality) are
declared but not implemented in the given sources; those few operations are
modelled from the specification, as marked on each definition.
-/

namespace Yuzu

/-- `IR::Type` (value.h): closed enumeration of IR types.  The opaque types
`Label/Attribute/Reg/Pred/Patch` are rendered `Label/AttrTy/RegTy/PredTy/Patch`. -/
inductive IRType
  | Void | U1 | U8 | U16 | U32 | U64 | F16 | F32 | F64
  | U32x2 | U32x3 | U32x4
  | F16x2 | F16x3 | F16x4
  | F32x2 | F32x3 | F32x4
  | F64x2 | F64x3 | F64x4
  | Label | AttrTy | RegTy | PredTy | Patch
  deriving DecidableEq, Repr

/-- `IR::Opcode`: the opcodes appearing in the translated emitter methods and
in the SSA rewrite pass (subset of the full ~300-opcode table). -/
inductive Opcode
  | FPAdd16 | FPAdd32 | FPAdd64
  | CompositeExtractU32x2 | CompositeExtractU32x3 | CompositeExtractU32x4
  | CompositeExtractF16x2 | CompositeExtractF16x3 | CompositeExtractF16x4
  | CompositeExtractF32x2 | CompositeExtractF32x3 | CompositeExtractF32x4
  | CompositeExtractF64x2 | CompositeExtractF64x3 | CompositeExtractF64x4
  | ConvertU32U64 | ConvertU64U32
  | Branch | BranchConditional | LoopMerge | SelectionMerge | Ret
  | Phi | UndefU1 | UndefU32
  | SetRegister | SetPred | SetGotoVariable | SetIndirectBranchVariable
  | SetZFlag | SetSFlag | SetCFlag | SetOFlag
  | GetRegister | GetPred | GetGotoVariable | GetIndirectBranchVariable
  | GetZFlag | GetSFlag | GetCFlag | GetOFlag
  | IAdd32 | LogicalNot | Void
  deriving DecidableEq, Repr

/-- The error kinds thrown by the emitter (`shader_recompiler/exception.h`):
`InvalidArgument`, `NotImplemented`, `LogicError`. -/
inductive EmitErr
  | InvalidArgument
  | NotImplemented
  | LogicError
  deriving DecidableEq, Repr

/-! ### IREmitter type dispatch (src/unnamed/part_001, `ir_emitter.cpp`)

The claims about `FPAdd`, `CompositeExtract` and `ConvertU` concern only
which check is performed on the operand type tags and which opcode is
selected; the dispatch functions below take the operand `IR::Type` tags and
return either the emitted opcode or the thrown error. -/

/-- `IREmitter::FPAdd` (ir_emitter.cpp lines 264-278), dispatch on the operand
type tags.  NOTE: the guard is `a.Type() != a.Type()` in the source — the
left-hand side is compared against itself, exactly as written there. -/
def FPAdd (a b : IRType) : Except EmitErr Opcode :=
  if a ≠ a then
    .error .InvalidArgument
  else
    match a with
    | .F16 => .ok .FPAdd16
    | .F32 => .ok .FPAdd32
    | .F64 => .ok .FPAdd64
    | _ => .error .InvalidArgument

/-- `IREmitter::CompositeExtract` (ir_emitter.cpp lines 336-371): the local
lambda `read(opcode, limit)` bound by the outer switch on `vector.Type()`. -/
def CompositeExtract (vector : IRType) (element : Nat) : Except EmitErr Opcode :=
  let read := fun (opcode : Opcode) (limit : Nat) =>
    if element ≥ limit then Except.error EmitErr.InvalidArgument else Except.ok opcode
  match vector with
  | .U32x2 => read .CompositeExtractU32x2 2
  | .U32x3 => read .CompositeExtractU32x3 3
  | .U32x4 => read .CompositeExtractU32x4 4
  | .F16x2 => read .CompositeExtractF16x2 2
  | .F16x3 => read .CompositeExtractF16x3 3
  | .F16x4 => read .CompositeExtractF16x4 4
  | .F32x2 => read .CompositeExtractF32x2 2
  | .F32x3 => read .CompositeExtractF32x3 3
  | .F32x4 => read .CompositeExtractF32x4 4
  | .F64x2 => read .CompositeExtractF64x2 2
  | .F64x3 => read .CompositeExtractF64x3 3
  | .F64x4 => read .CompositeExtractF64x4 4
  | _ => .error .InvalidArgument

/-- Result of `IREmitter::ConvertU`: either the input value is returned
unchanged with no instruction emitted (`same`), or an instruction with the
given conversion opcode is emitted (`emit`). -/
inductive ConvertUResult
  | same
  | emit (op : Opcode)
  deriving DecidableEq, Repr

/-- `IREmitter::ConvertU` (ir_emitter.cpp lines 935-960): nested switch on
`result_bitsize` and `value.Type()`; every path that falls out of the
switches reaches the trailing `throw NotImplementedException`. -/
def ConvertU (result_bitsize : Nat) (valueType : IRType) : Except EmitErr ConvertUResult :=
  if result_bitsize = 32 then
    match valueType with
    | .U32 => .ok .same
    | .U64 => .ok (.emit .ConvertU32U64)
    | _ => .error .NotImplemented
  else if result_bitsize = 64 then
    match valueType with
    | .U32 => .ok (.emit .ConvertU64U32)
    | .U64 => .ok .same
    | _ => .error .NotImplemented
  else .error .NotImplemented

/-- Spec-side table: number of elements of each composite (vector) type;
`none` for non-composite types.  Used to state the C7 claim. -/
def vecElems : IRType → Option Nat
  | .U32x2 | .F16x2 | .F32x2 | .F64x2 => some 2
  | .U32x3 | .F16x3 | .F32x3 | .F64x3 => some 3
  | .U32x4 | .F16x4 | .F32x4 | .F64x4 => some 4
  | _ => none

/-- Spec-side table: the `CompositeExtract` opcode family member matching
each composite type; `none` for non-composite types. -/
def vecExtractOpcode : IRType → Option Opcode
  | .U32x2 => some .CompositeExtractU32x2
  | .U32x3 => some .CompositeExtractU32x3
  | .U32x4 => some .CompositeExtractU32x4
  | .F16x2 => some .CompositeExtractF16x2
  | .F16x3 => some .CompositeExtractF16x3
  | .F16x4 => some .CompositeExtractF16x4
  | .F32x2 => some .CompositeExtractF32x2
  | .F32x3 => some .CompositeExtractF32x3
  | .F32x4 => some .CompositeExtractF32x4
  | .F64x2 => some .CompositeExtractF64x2
  | .F64x3 => some .CompositeExtractF64x3
  | .F64x4 => some .CompositeExtractF64x4
  | _ => none

/-! ### IR values, instructions, blocks

`IR::Value` (value.h, modelled from the spec's data model): a tagged union of
immediates and instruction handles.  Equality on immediates is structural,
on instruction handles it is handle identity; handles are arena indices. -/

/-- `IR::Value`.  `empty` is the default-constructed value (`IsEmpty`);
`instRef` is a handle into the instruction arena; `label` is a block
operand; the rest are immediates.  `IR::Reg` and `IR::Pred` immediates carry
the register/predicate index (`RZ = 255`, `PT = 7`). -/
inductive Value
  | empty
  | instRef (id : Nat)
  | reg (r : Nat)
  | pred (p : Nat)
  | u1 (b : Bool)
  | u32 (v : Nat)
  | label (b : Nat)
  deriving DecidableEq, Repr

/-- `IR::Reg::RZ` — register index 255, the zero sink. -/
def RZ : Nat := 255

/-- `IR::Pred::PT` — predicate index 7, the true sink. -/
def PT : Nat := 7

/-- `Value::IsEmpty`. -/
def Value.isEmpty : Value → Bool
  | .empty => true
  | _ => false

/-- `inst.Arg(0).Reg()`: the register payload of a value.  The source asserts
the value is a register immediate; outside that domain we return `RZ`
(ill-typed instructions are outside the modelled programs). -/
def Value.regOf : Value → Nat
  | .reg r => r
  | _ => RZ

/-- `inst.Arg(0).Pred()`: the predicate payload of a value (default `PT`,
see `Value.regOf`). -/
def Value.predOf : Value → Nat
  | .pred p => p
  | _ => PT

/-- `inst.Arg(0).U32()`: the u32 payload of a value (default `0`). -/
def Value.u32Of : Value → Nat
  | .u32 v => v
  | _ => 0

/-- `IR::Inst`: opcode, ordinary operand list, and — for `Phi` — the list of
`(predecessor block, value)` operands appended by `AddPhiOperand`. -/
structure Inst where
  opcode : Opcode
  args : List Value := []
  phiArgs : List (Nat × Value) := []
  deriving DecidableEq, Repr

/-- The invalid/placeholder instruction used when reading out of range. -/
def emptyInst : Inst := { opcode := .Void }

/-- `IR::Block`: ordered instruction list (arena indices), immediate
predecessor list (stable insertion order), successor list. -/
structure Block where
  insts : List Nat := []
  preds : List Nat := []
  succs : List Nat := []
  deriving DecidableEq, Repr

/-- Placeholder block used when reading out of range. -/
def emptyBlock : Block := {}

/-! ### Association-list helpers

`boost::container::flat_map` lookups and `insert_or_assign`, modelled on
association lists.  Lookup returns the first binding; `insert_or_assign`
replaces the first binding in place or appends a new one.  Only the inner
`incomplete_phis` map (keyed by the variable variant) is ever iterated, so
only it is kept in key-sorted order (see `sortedInsertVar`). -/

/-- First binding of `k`, like `flat_map::find`. -/
def assocFind {α β : Type} [DecidableEq α] (k : α) : List (α × β) → Option β
  | [] => none
  | (k', v) :: t => if k' = k then some v else assocFind k t

/-- `flat_map::insert_or_assign`: replace the first binding of `k` in place,
or append `(k, v)`. -/
def assocInsert {α β : Type} [DecidableEq α] (k : α) (v : β) : List (α × β) → List (α × β)
  | [] => [(k, v)]
  | (k', v') :: t => if k' = k then (k, v) :: t else (k', v') :: assocInsert k v t

/-! ### SSA pass virtual variables (ssa_rewrite_pass.cpp lines 126-208) -/

/-- The `Variant` of virtual-variable kinds
(`IR::Reg, IR::Pred, ZeroFlagTag, SignFlagTag, CarryFlagTag, OverflowFlagTag,
GotoVariable, IndirectBranchVariable`), in declaration order. -/
inductive SsaVar
  | reg (r : Nat)
  | pred (p : Nat)
  | zeroFlag
  | signFlag
  | carryFlag
  | overflowFlag
  | gotoVar (index : Nat)
  | indirectBranchVar
  deriving DecidableEq, Repr

/-- `std::variant::index()` of a virtual variable. -/
def SsaVar.tag : SsaVar → Nat
  | .reg _ => 0
  | .pred _ => 1
  | .zeroFlag => 2
  | .signFlag => 3
  | .carryFlag => 4
  | .overflowFlag => 5
  | .gotoVar _ => 6
  | .indirectBranchVar => 7

/-- The payload compared by `operator<=>` within one alternative
(flag tags and `IndirectBranchVariable` are unit-like). -/
def SsaVar.payload : SsaVar → Nat
  | .reg r => r
  | .pred p => p
  | .gotoVar i => i
  | _ => 0

/-- `std::variant` strict ordering: lexicographic over `(index, payload)`. -/
def SsaVar.lt (a b : SsaVar) : Bool :=
  a.tag < b.tag ∨ (a.tag = b.tag ∧ a.payload < b.payload)

/-- `flat_map<Variant, Inst*>::insert_or_assign`: the inner `incomplete_phis`
map is iterated in key order by `SealBlock`, so it is kept sorted. -/
def sortedInsertVar (var : SsaVar) (phi : Nat) : List (SsaVar × Nat) → List (SsaVar × Nat)
  | [] => [(var, phi)]
  | (k, x) :: t =>
    if SsaVar.lt var k then (var, phi) :: (k, x) :: t
    else if k = var then (var, phi) :: t
    else (k, x) :: sortedInsertVar var phi t

/-- `UndefOpcode` overload set (ssa_rewrite_pass.cpp lines 194-208).
The overloads are `UndefOpcode(IR::Reg)`, `UndefOpcode(IR::Pred)`,
`UndefOpcode(const FlagTag&)` and `UndefOpcode(IndirectBranchVariable)`.
`ZeroFlagTag/SignFlagTag/CarryFlagTag/OverflowFlagTag` and also
`GotoVariable` publicly inherit `FlagTag` (lines 129-141), so for all of
them the only viable overload is `UndefOpcode(const FlagTag&)`, which
returns `UndefU1`. -/
def UndefOpcode : SsaVar → Opcode
  | .reg _ => .UndefU32
  | .pred _ => .UndefU1
  | .zeroFlag => .UndefU1
  | .signFlag => .UndefU1
  | .carryFlag => .UndefU1
  | .overflowFlag => .UndefU1
  | .gotoVar _ => .UndefU1
  | .indirectBranchVar => .UndefU32

/-! ### Program state

One state bundles the instruction arena, the blocks, and the `Pass` members
`current_def`, `sealed_blocks` and `incomplete_phis`
(ssa_rewrite_pass.cpp lines 366-369). -/

structure PassState where
  arena : List Inst := []
  blocks : List Block := []
  currentDef : List (SsaVar × List (Nat × Value)) := []
  sealedBlocks : List Nat := []
  incompletePhis : List (Nat × List (SsaVar × Nat)) := []
  deriving DecidableEq, Repr

/-- Fetch a block (placeholder when out of range). -/
def getBlock (st : PassState) (b : Nat) : Block :=
  st.blocks.getD b emptyBlock

/-- Fetch an instruction from the arena (placeholder when out of range). -/
def getInst (st : PassState) (i : Nat) : Inst :=
  st.arena.getD i emptyInst

/-- Apply `f` to block `b` (no-op when out of range, like `List.set`). -/
def modifyBlock (st : PassState) (b : Nat) (f : Block → Block) : PassState :=
  { st with blocks := st.blocks.set b (f (getBlock st b)) }

/-- Apply `f` to arena slot `i` (no-op when out of range). -/
def modifyInst (st : PassState) (i : Nat) (f : Inst → Inst) : PassState :=
  { st with arena := st.arena.set i (f (getInst st i)) }

/-- `Pass::WriteVariable` (lines 236-239):
`current_def[variable].insert_or_assign(block, value)`. -/
def writeVar (var : SsaVar) (b : Nat) (v : Value) (st : PassState) : PassState :=
  { st with currentDef :=
      assocInsert var (assocInsert b v ((assocFind var st.currentDef).getD [])) st.currentDef }

/-- `current_def[variable].find(block)` as used by `ReadVariable`. -/
def lookupDef (st : PassState) (var : SsaVar) (b : Nat) : Option Value :=
  assocFind b ((assocFind var st.currentDef).getD [])

/-- `Block::PrependNewInst(begin(), Opcode::Phi)`: modelled from the spec
(§4.1 `prepend_phi`): a fresh operand-less φ is placed at the head of the
block; the handle is the next arena index. -/
def prependPhi (st : PassState) (b : Nat) : Nat × PassState :=
  let id := st.arena.length
  let st := { st with arena := st.arena ++ [{ opcode := .Phi }] }
  (id, modifyBlock st b fun blk => { blk with insts := id :: blk.insts })

/-- `Inst::AddPhiOperand(pred, value)`: modelled from the spec (§ data model:
"φ-operand insertion as an ordered append keyed by predecessor identity"). -/
def addPhiOperand (st : PassState) (phi : Nat) (pred : Nat) (v : Value) : PassState :=
  modifyInst st phi fun inst => { inst with phiArgs := inst.phiArgs ++ [(pred, v)] }

/-- Substitute `instRef target` by `v` in one value. -/
def substValue (target : Nat) (v : Value) (x : Value) : Value :=
  if x = .instRef target then v else x

/-- `Inst::ReplaceUsesWith(value)`: modelled from the spec (§4.1
`replace_uses_with`): every instruction holding `target` as operand gets the
replacement substituted; afterwards `target.uses == 0`. -/
def replaceUses (st : PassState) (target : Nat) (v : Value) : PassState :=
  { st with arena := st.arena.map fun inst =>
      { inst with
        args := inst.args.map (substValue target v)
        phiArgs := inst.phiArgs.map fun pv => (pv.1, substValue target v pv.2) } }

/-- Number of live references to instruction `i` across the arena
(the spec's `uses` bookkeeping: count of operands equal to `instRef i`). -/
def usesOf (st : PassState) (i : Nat) : Nat :=
  (st.arena.map fun inst =>
      (inst.args.filter (· = Value.instRef i)).length +
      (inst.phiArgs.filter (fun pv => pv.2 = Value.instRef i)).length).sum

/-! ### Trivial-φ elimination (ssa_rewrite_pass.cpp lines 332-364) -/

/-- The `same`-scanning loop of `Pass::TryRemoveTrivialPhi` over the φ
operands (lines 333-346).  `Value::Resolve` is the identity here: the pass
never creates `Identity` instructions, and `replace_uses_with` is modelled
from the spec as a direct substitution, so there are no identity chains to
follow.  Returns `none` when the φ merges at least two values
(the early `return IR::Value{&phi}`), otherwise the final `same`. -/
def findSame (phi : Nat) : List Value → Value → Option Value
  | [], same => some same
  | op :: rest, same =>
    if op = same ∨ op = .instRef phi then findSame phi rest same
    else if ¬ same.isEmpty then none
    else findSame phi rest op

/-- Whether an arena instruction is a φ (`IsPhi`, lines 210-212). -/
def isPhiInst (st : PassState) (i : Nat) : Bool :=
  (getInst st i).opcode = .Phi

/-- `Pass::TryRemoveTrivialPhi(phi, block, undef_opcode)` (lines 332-364).
When the scan finds two merged values the φ is returned unchanged.  When
`same` stays empty, the φ is erased from the block's list, a fresh undef
instruction is inserted before the first non-φ instruction, and the φ is
reinserted right after the undef.  Finally all uses of the φ are rerouted to
`same`. -/
def TryRemoveTrivialPhi (st : PassState) (phi : Nat) (b : Nat) (undef_opcode : Opcode) :
    Value × PassState :=
  match findSame phi ((getInst st phi).phiArgs.map Prod.snd) .empty with
  | none => (.instRef phi, st)
  | some same =>
    let (same, st) :=
      if same.isEmpty then
        let list := (getBlock st b).insts.erase phi
        let phis := list.takeWhile (isPhiInst st)
        let rest := list.dropWhile (isPhiInst st)
        let u := st.arena.length
        let st := { st with arena := st.arena ++ [{ opcode := undef_opcode }] }
        let st := modifyBlock st b fun blk => { blk with insts := phis ++ u :: phi :: rest }
        (Value.instRef u, st)
      else (same, st)
    (same, replaceUses st phi same)

/-! ### `Pass::ReadVariable` work-stack machine (lines 214-311)

The source unrolls the recursive `read_variable` into an explicit stack of
`ReadState` frames with program counters
`{Start, SetValue, PreparePhiArgument, PushPhiArgument}`.  The machine below
is that loop, one iteration per step.  The stack is kept reversed (head =
`stack.back()`); the frame's `pred_it/pred_end` pointer pair becomes an
index / length pair into the block's (immutable) predecessor list. -/

inductive Status
  | Start
  | SetValue
  | PreparePhiArgument
  | PushPhiArgument
  deriving DecidableEq, Repr

/-- A `ReadState<Type>` frame.  `block = none` models the `nullptr` sentinel
frame pushed first. -/
structure ReadFrame where
  block : Option Nat := none
  result : Value := .empty
  phi : Nat := 0
  predIt : Nat := 0
  predEnd : Nat := 0
  pc : Status := .Start
  deriving DecidableEq, Repr

/-- The sentinel frame `ReadState(nullptr)`. -/
def sentinelFrame : ReadFrame := {}

/-- A fresh `ReadState(block)` frame. -/
def freshFrame (b : Nat) : ReadFrame := { block := some b }

/-- Write `r` into the `result` field of the new top frame after a pop
(`stack.pop_back(); stack.back().result = result;`). -/
def setResult (r : Value) : List ReadFrame → List ReadFrame
  | [] => []
  | f :: fs => { f with result := r } :: fs

/-- Outcome of one loop iteration on the top frame: push two frames
(the updated current frame plus a fresh one), or pop with a result. -/
inductive StepRes
  | push (top next : ReadFrame) (st : PassState)
  | pop (r : Value) (st : PassState)

/-- The `prepare_phi_operand` lambda (lines 247-260).  When the operand
pointer reached the end: run `TryRemoveTrivialPhi`, pop, store the result in
the frame below and in `current_def` (the pop and both writes happen in the
same iteration).  Otherwise move to `PushPhiArgument` and descend into the
next immediate predecessor. -/
def preparePhiOperand (var : SsaVar) (top : ReadFrame) (st : PassState) : StepRes :=
  let b := top.block.getD 0
  if top.predIt = top.predEnd then
    let rs := TryRemoveTrivialPhi st top.phi b (UndefOpcode var)
    .pop rs.1 (writeVar var b rs.1 rs.2)
  else
    let p := (getBlock st b).preds.getD top.predIt 0
    .push (freshFrame p) { top with pc := .PushPhiArgument } st

/-- One iteration of the `do`-loop body (lines 261-308) on the top frame.
`case Start` falls through to `case SetValue` when a result was produced in
the same iteration; `case PushPhiArgument` falls through to
`case PreparePhiArgument`. -/
def stepTop (var : SsaVar) (top : ReadFrame) (st : PassState) : StepRes :=
  match top.pc with
  | .Start =>
    let b := top.block.getD 0
    match lookupDef st var b with
    | some v =>
      -- found in current_def; fallthrough to SetValue
      .pop v (writeVar var b v st)
    | none =>
      if b ∉ st.sealedBlocks then
        -- Incomplete CFG
        let pp := prependPhi st b
        let inner := sortedInsertVar var pp.1 ((assocFind b pp.2.incompletePhis).getD [])
        let st1 := { pp.2 with incompletePhis := assocInsert b inner pp.2.incompletePhis }
        -- fallthrough to SetValue with the φ as result
        .pop (.instRef pp.1) (writeVar var b (.instRef pp.1) st1)
      else if (getBlock st b).preds.length = 1 then
        -- Optimize the common case of one predecessor: no phi needed
        .push (freshFrame ((getBlock st b).preds.getD 0 0)) { top with pc := .SetValue } st
      else
        -- Break potential cycles with operandless phi
        let pp := prependPhi st b
        let st1 := writeVar var b (.instRef pp.1) pp.2
        preparePhiOperand var
          { top with phi := pp.1, predIt := 0, predEnd := (getBlock st1 b).preds.length } st1
  | .SetValue =>
    .pop top.result (writeVar var (top.block.getD 0) top.result st)
  | .PushPhiArgument =>
    let p := (getBlock st (top.block.getD 0)).preds.getD top.predIt 0
    let st := addPhiOperand st top.phi p top.result
    preparePhiOperand var { top with predIt := top.predIt + 1 } st
  | .PreparePhiArgument =>
    preparePhiOperand var top st

/-- One machine step on a configuration (reversed stack, state). -/
def step (var : SsaVar) : List ReadFrame × PassState → List ReadFrame × PassState
  | ([], st) => ([], st)
  | (top :: rest, st) =>
    match stepTop var top st with
    | .push next top' st' => (next :: top' :: rest, st')
    | .pop r st' => (setResult r rest, st')

/-- Iterate the loop while `stack.size() > 1`, up to `n` iterations. -/
def steps (var : SsaVar) : Nat → List ReadFrame × PassState → List ReadFrame × PassState
  | 0, c => c
  | n + 1, c => if c.1.length ≤ 1 then c else steps var n (step var c)

/-- Run the machine from a single frame above the sentinel and extract
`stack.back().result` when the loop exits within `fuel` iterations. -/
def runFrame (var : SsaVar) (x : ReadFrame) (st : PassState) (fuel : Nat) :
    Option (Value × PassState) :=
  let c := steps var fuel ([x, sentinelFrame], st)
  if c.1.length ≤ 1 then some ((c.1.headD sentinelFrame).result, c.2) else none

/-- `Pass::ReadVariable(variable, root_block)` (lines 241-311): the stack is
seeded with the sentinel and `ReadState(root_block)`; `fuel` bounds the
number of loop iterations (the C++ loop runs unboundedly). -/
def ReadVariable (var : SsaVar) (root_block : Nat) (st : PassState) (fuel : Nat) :
    Option (Value × PassState) :=
  runFrame var (freshFrame root_block) st fuel

/-! ### `AddPhiOperands`, `SealBlock`, block visits (lines 313-330, 372-448) -/

/-- `Pass::AddPhiOperands(variable, phi, block)` (lines 324-330): read the
variable in every immediate predecessor, append the φ operands in
predecessor order, then run trivial-φ elimination. -/
def AddPhiOperands (var : SsaVar) (phi : Nat) (b : Nat) (st : PassState) (fuel : Nat) :
    Option (Value × PassState) := do
  let preds := (getBlock st b).preds
  let st ← preds.foldlM (fun st p => do
      let (v, st) ← ReadVariable var p st fuel
      pure (addPhiOperand st phi p v)) st
  pure (TryRemoveTrivialPhi st phi b (UndefOpcode var))

/-- `Pass::SealBlock(block)` (lines 313-321): flush the block's incomplete
φ-nodes in variant-key order, then mark the block sealed.  The block's own
incomplete-φ map cannot gain entries while it is being flushed (each listed
variable already has a `current_def` entry for this block), so iterating the
snapshot is faithful. -/
def SealBlock (b : Nat) (st : PassState) (fuel : Nat) : Option PassState := do
  let st ← match assocFind b st.incompletePhis with
    | some pending =>
      pending.foldlM (fun st entry => do
          let (_, st) ← AddPhiOperands entry.1 entry.2 b st fuel
          pure st) st
    | none => pure st
  pure { st with sealedBlocks := b :: st.sealedBlocks }

/-- `VisitInst(pass, block, inst)` (lines 372-433): `Set*` opcodes write
`current_def` (skipping the `RZ` and `PT` sinks); `Get*` opcodes read the
variable and reroute all uses of the `Get` instruction to the value read
(again skipping `RZ`/`PT`). -/
def VisitInst (st : PassState) (b : Nat) (instId : Nat) (fuel : Nat) : Option PassState :=
  let inst := getInst st instId
  match inst.opcode with
  | .SetRegister =>
    let r := (inst.args.getD 0 .empty).regOf
    if r ≠ RZ then pure (writeVar (.reg r) b (inst.args.getD 1 .empty) st) else pure st
  | .SetPred =>
    let p := (inst.args.getD 0 .empty).predOf
    if p ≠ PT then pure (writeVar (.pred p) b (inst.args.getD 1 .empty) st) else pure st
  | .SetGotoVariable =>
    pure (writeVar (.gotoVar (inst.args.getD 0 .empty).u32Of) b (inst.args.getD 1 .empty) st)
  | .SetIndirectBranchVariable =>
    pure (writeVar .indirectBranchVar b (inst.args.getD 0 .empty) st)
  | .SetZFlag => pure (writeVar .zeroFlag b (inst.args.getD 0 .empty) st)
  | .SetSFlag => pure (writeVar .signFlag b (inst.args.getD 0 .empty) st)
  | .SetCFlag => pure (writeVar .carryFlag b (inst.args.getD 0 .empty) st)
  | .SetOFlag => pure (writeVar .overflowFlag b (inst.args.getD 0 .empty) st)
  | .GetRegister =>
    let r := (inst.args.getD 0 .empty).regOf
    if r ≠ RZ then do
      let (v, st) ← ReadVariable (.reg r) b st fuel
      pure (replaceUses st instId v)
    else pure st
  | .GetPred =>
    let p := (inst.args.getD 0 .empty).predOf
    if p ≠ PT then do
      let (v, st) ← ReadVariable (.pred p) b st fuel
      pure (replaceUses st instId v)
    else pure st
  | .GetGotoVariable => do
    let (v, st) ← ReadVariable (.gotoVar (inst.args.getD 0 .empty).u32Of) b st fuel
    pure (replaceUses st instId v)
  | .GetIndirectBranchVariable => do
    let (v, st) ← ReadVariable .indirectBranchVar b st fuel
    pure (replaceUses st instId v)
  | .GetZFlag => do
    let (v, st) ← ReadVariable .zeroFlag b st fuel
    pure (replaceUses st instId v)
  | .GetSFlag => do
    let (v, st) ← ReadVariable .signFlag b st fuel
    pure (replaceUses st instId v)
  | .GetCFlag => do
    let (v, st) ← ReadVariable .carryFlag b st fuel
    pure (replaceUses st instId v)
  | .GetOFlag => do
    let (v, st) ← ReadVariable .overflowFlag b st fuel
    pure (replaceUses st instId v)
  | _ => pure st

/-- `VisitBlock` (lines 435-440): visit the block's instructions in order,
then seal the block.  During the iteration the pass only prepends new
instructions at the φ-prefix of this block (before the cursor) and edits
other blocks, so iterating the snapshot of the instruction list is faithful
to the intrusive-list traversal. -/
def VisitBlock (st : PassState) (b : Nat) (fuel : Nat) : Option PassState := do
  let st ← (getBlock st b).insts.foldlM (fun st i => VisitInst st b i fuel) st
  SealBlock b st fuel

/-- `SsaRewritePass(program)` (lines 443-448): a fresh `Pass` visits the
blocks in reverse post order (`program` is that order).  `fuel` bounds each
`ReadVariable` loop. -/
def SsaRewritePass (program : List Nat) (st : PassState) (fuel : Nat) : Option PassState :=
  let st := { st with currentDef := [], sealedBlocks := [], incompletePhis := [] }
  program.foldlM (fun st b => VisitBlock st b fuel) st

/-! ### IREmitter control-flow emitters (src/unnamed/part_001, lines 47-70)

`Block::AddImmediatePredecessor` (idempotent, insertion order preserved) and
`Block::SetBranch/SetBranches` are modelled from the spec §4.3. -/

/-- `Block::AddImmediatePredecessor(block)`: modelled from the spec (§4.3,
idempotent, insertion order preserved). -/
def addImmediatePredecessor (st : PassState) (target : Nat) (pred : Nat) : PassState :=
  modifyBlock st target fun blk =>
    if pred ∈ blk.preds then blk else { blk with preds := blk.preds ++ [pred] }

/-- `Block::SetBranch(label)`: modelled from the spec (§ data model: one
successor for an unconditional branch). -/
def setBranch (st : PassState) (b : Nat) (label : Nat) : PassState :=
  modifyBlock st b fun blk => { blk with succs := [label] }

/-- `Block::SetBranches(cond, true_label, false_label)`: modelled from the
spec (two successors for a conditional branch). -/
def setBranches (st : PassState) (b : Nat) (t f : Nat) : PassState :=
  modifyBlock st b fun blk => { blk with succs := [t, f] }

/-- `IREmitter::Inst(...)`: append a new instruction at the emitter's
insertion point (the end of the current block). -/
def appendInst (st : PassState) (b : Nat) (inst : Inst) : PassState :=
  let id := st.arena.length
  let st := { st with arena := st.arena ++ [inst] }
  modifyBlock st b fun blk => { blk with insts := blk.insts ++ [id] }

/-- `IREmitter::Branch(label)` (lines 47-51): add the current block as
predecessor of the label, set the branch successor, emit the instruction. -/
def EmitBranch (st : PassState) (block : Nat) (label : Nat) : PassState :=
  let st := addImmediatePredecessor st label block
  let st := setBranch st block label
  appendInst st block { opcode := .Branch, args := [.label label] }

/-- `IREmitter::BranchConditional(condition, true_label, false_label)`
(lines 53-58). -/
def EmitBranchConditional (st : PassState) (block : Nat) (condition : Value)
    (true_label false_label : Nat) : PassState :=
  let st := setBranches st block true_label false_label
  let st := addImmediatePredecessor st true_label block
  let st := addImmediatePredecessor st false_label block
  appendInst st block
    { opcode := .BranchConditional, args := [condition, .label true_label, .label false_label] }

/-- `IREmitter::LoopMerge(merge_block, continue_target)` (lines 60-62): only
emits the instruction. -/
def EmitLoopMerge (st : PassState) (block : Nat) (merge_block continue_target : Nat) : PassState :=
  appendInst st block { opcode := .LoopMerge, args := [.label merge_block, .label continue_target] }

/-- `IREmitter::SelectionMerge(merge_block)` (lines 64-66): only emits the
instruction. -/
def EmitSelectionMerge (st : PassState) (block : Nat) (merge_block : Nat) : PassState :=
  appendInst st block { opcode := .SelectionMerge, args := [.label merge_block] }

/-- `IREmitter::Return()` (lines 68-70): only emits the instruction. -/
def EmitReturn (st : PassState) (block : Nat) : PassState :=
  appendInst st block { opcode := .Ret }

/-! ## Claim C1 — `FPAdd` mixed-width check

The claim says mixed operand widths raise `InvalidArgument`.  The source
guard is `if (a.Type() != a.Type())`, which never fires; the spec itself
records that the check was apparently meant as `a.Type() != b.Type()`
(sibling methods `FPMul`, `IAdd`, … all compare `a` against `b`).  The code
therefore dispatches on `a`'s type alone: `FPAdd(F16, F32)` emits `FPAdd16`
instead of raising. -/

/-- C1: evaluating `FPAdd` at the failing input `a : F16`, `b : F32` — the
mixed-width pair is not rejected; the code emits `FPAdd16` from `a`'s type
where the claim requires an `InvalidArgument` error. -/
theorem fpadd_mixed_width_not_rejected :
    FPAdd .F16 .F32 = .ok .FPAdd16 ∧ FPAdd .F16 .F32 ≠ .error .InvalidArgument := by
  refine ⟨rfl, fun h => ?_⟩
  rw [show FPAdd .F16 .F32 = .ok .FPAdd16 from rfl] at h
  exact Except.noConfusion h

/-! ## Claim C2 — undef opcode by variable kind

`GotoVariable` publicly inherits `FlagTag`, so the call
`UndefOpcode(variable)` for a goto variable resolves to the
`UndefOpcode(const FlagTag&)` overload and yields `UndefU1`, not `UndefU32`
as claimed.  This matches the goto variables' width: `GetGotoVariable`
returns `U1` and `SetGotoVariable` takes a `U1` (ir_emitter.cpp 89-95). -/

/-- C2 counterexample: for the goto variable of index 0 the undef opcode is
not `UndefU32`; the trivial-φ replacement uses `UndefU1` for it. -/
theorem undef_opcode_goto_not_u32 :
    ¬ UndefOpcode (.gotoVar 0) = .UndefU32 := by
  decide

/-- C2 (amended): the undef opcode used by trivial-φ replacement is
`UndefU1` for predicates, the Z/S/C/O flags and goto variables (which
inherit `FlagTag`), and `UndefU32` for general registers and the
indirect-branch variable. -/
theorem undef_opcode_dispatch :
    (∀ r, UndefOpcode (.reg r) = .UndefU32) ∧
    (∀ p, UndefOpcode (.pred p) = .UndefU1) ∧
    UndefOpcode .zeroFlag = .UndefU1 ∧
    UndefOpcode .signFlag = .UndefU1 ∧
    UndefOpcode .carryFlag = .UndefU1 ∧
    UndefOpcode .overflowFlag = .UndefU1 ∧
    (∀ i, UndefOpcode (.gotoVar i) = .UndefU1) ∧
    UndefOpcode .indirectBranchVar = .UndefU32 := by
  refine ⟨fun r => rfl, fun p => rfl, rfl, rfl, rfl, rfl, fun i => rfl, rfl⟩

/-! ## Claim C7 — `CompositeExtract` bounds checking -/

/-- C7: for an N-element composite type, `CompositeExtract` emits the
matching extraction opcode when the index is in bounds and raises
`InvalidArgument` when the index is ≥ N; a non-composite input type raises
`InvalidArgument` as well. -/
theorem composite_extract_bounds (t : IRType) (element : Nat) :
    CompositeExtract t element =
      match vecElems t, vecExtractOpcode t with
      | some n, some op =>
        if element < n then .ok op else .error .InvalidArgument
      | _, _ => .error .InvalidArgument := by
  cases t <;>
    simp only [CompositeExtract, vecElems, vecExtractOpcode, ge_iff_le] <;>
    split_ifs <;> first | rfl | omega

/-! ## Claim C10 — `ConvertU` width dispatch -/

/-- C10: `ConvertU` returns the input value itself (emitting nothing) when
the requested bitsize equals the value's width, emits `ConvertU32U64` or
`ConvertU64U32` in the two cross-width cases, and raises `NotImplemented`
for every other combination of bitsize and input type. -/
theorem convert_u_dispatch (bits : Nat) (t : IRType) :
    ConvertU bits t =
      if bits = 32 ∧ t = .U32 then .ok .same
      else if bits = 32 ∧ t = .U64 then .ok (.emit .ConvertU32U64)
      else if bits = 64 ∧ t = .U32 then .ok (.emit .ConvertU64U32)
      else if bits = 64 ∧ t = .U64 then .ok .same
      else .error .NotImplemented := by
  unfold ConvertU
  by_cases h32 : bits = 32 <;> by_cases h64 : bits = 64 <;> cases t <;> simp_all

/-! ## Claim C8 — control-flow emitters and CFG patching -/

theorem getBlock_modifyBlock_self {st : PassState} {b : Nat} {f : Block → Block}
    (h : b < st.blocks.length) :
    getBlock (modifyBlock st b f) b = f (getBlock st b) := by
  simp [getBlock, modifyBlock, List.getD_eq_getElem?_getD, List.getElem?_set_self, h]

theorem getBlock_modifyBlock_other {st : PassState} {b z : Nat} {f : Block → Block}
    (h : z ≠ b) :
    getBlock (modifyBlock st b f) z = getBlock st z := by
  simp [getBlock, modifyBlock, List.getD_eq_getElem?_getD, List.getElem?_set_ne (Ne.symm h)]

theorem modifyBlock_blocks_length (st : PassState) (b : Nat) (f : Block → Block) :
    (modifyBlock st b f).blocks.length = st.blocks.length := by
  simp [modifyBlock]

theorem modifyBlock_arena (st : PassState) (b : Nat) (f : Block → Block) :
    (modifyBlock st b f).arena = st.arena := rfl

theorem addImmediatePredecessor_blocks_length (st : PassState) (target pred : Nat) :
    (addImmediatePredecessor st target pred).blocks.length = st.blocks.length :=
  modifyBlock_blocks_length ..

theorem addImmediatePredecessor_arena (st : PassState) (target pred : Nat) :
    (addImmediatePredecessor st target pred).arena = st.arena := rfl

theorem getBlock_addImmediatePredecessor_other {st : PassState} {target pred z : Nat}
    (h : z ≠ target) :
    getBlock (addImmediatePredecessor st target pred) z = getBlock st z :=
  getBlock_modifyBlock_other h

theorem getBlock_addImmediatePredecessor_preds {st : PassState} {target pred : Nat}
    (h : target < st.blocks.length) :
    (getBlock (addImmediatePredecessor st target pred) target).preds =
      (if pred ∈ (getBlock st target).preds then (getBlock st target).preds
       else (getBlock st target).preds ++ [pred]) := by
  rw [addImmediatePredecessor, getBlock_modifyBlock_self h]
  split_ifs <;> rfl

theorem getBlock_addImmediatePredecessor_succs {st : PassState} (target pred z : Nat) :
    (getBlock (addImmediatePredecessor st target pred) z).succs = (getBlock st z).succs := by
  by_cases hz : z = target
  · subst hz
    by_cases h : z < st.blocks.length
    · rw [addImmediatePredecessor, getBlock_modifyBlock_self h]
      split_ifs <;> rfl
    · rw [addImmediatePredecessor, modifyBlock, getBlock, getBlock,
        List.set_eq_of_length_le (by omega)]
  · rw [getBlock_addImmediatePredecessor_other hz]

theorem getBlock_addImmediatePredecessor_insts {st : PassState} (target pred z : Nat) :
    (getBlock (addImmediatePredecessor st target pred) z).insts = (getBlock st z).insts := by
  by_cases hz : z = target
  · subst hz
    by_cases h : z < st.blocks.length
    · rw [addImmediatePredecessor, getBlock_modifyBlock_self h]
      split_ifs <;> rfl
    · rw [addImmediatePredecessor, modifyBlock, getBlock, getBlock,
        List.set_eq_of_length_le (by omega)]
  · rw [getBlock_addImmediatePredecessor_other hz]

theorem setBranch_blocks_length (st : PassState) (b label : Nat) :
    (setBranch st b label).blocks.length = st.blocks.length :=
  modifyBlock_blocks_length ..

theorem setBranch_arena (st : PassState) (b label : Nat) :
    (setBranch st b label).arena = st.arena := rfl

theorem getBlock_setBranch_other {st : PassState} {b label z : Nat} (h : z ≠ b) :
    getBlock (setBranch st b label) z = getBlock st z :=
  getBlock_modifyBlock_other h

theorem getBlock_setBranch_self {st : PassState} {b label : Nat} (h : b < st.blocks.length) :
    getBlock (setBranch st b label) b =
      { getBlock st b with succs := [label] } :=
  getBlock_modifyBlock_self h

theorem setBranches_blocks_length (st : PassState) (b t f : Nat) :
    (setBranches st b t f).blocks.length = st.blocks.length :=
  modifyBlock_blocks_length ..

theorem setBranches_arena (st : PassState) (b t f : Nat) :
    (setBranches st b t f).arena = st.arena := rfl

theorem getBlock_setBranches_other {st : PassState} {b t f z : Nat} (h : z ≠ b) :
    getBlock (setBranches st b t f) z = getBlock st z :=
  getBlock_modifyBlock_other h

theorem getBlock_setBranches_self {st : PassState} {b t f : Nat} (h : b < st.blocks.length) :
    getBlock (setBranches st b t f) b = { getBlock st b with succs := [t, f] } :=
  getBlock_modifyBlock_self h

theorem appendInst_blocks_length (st : PassState) (b : Nat) (inst : Inst) :
    (appendInst st b inst).blocks.length = st.blocks.length := by
  simp [appendInst, modifyBlock]

theorem getBlock_appendInst_other {st : PassState} {b z : Nat} {inst : Inst} (h : z ≠ b) :
    getBlock (appendInst st b inst) z = getBlock st z := by
  unfold appendInst
  rw [getBlock_modifyBlock_other h]
  rfl

theorem getBlock_appendInst_self {st : PassState} {b : Nat} {inst : Inst}
    (h : b < st.blocks.length) :
    getBlock (appendInst st b inst) b =
      { getBlock st b with insts := (getBlock st b).insts ++ [st.arena.length] } := by
  unfold appendInst
  rw [getBlock_modifyBlock_self (by simpa using h)]
  rfl

/-- A three-block state used to exhibit what the merge emitters do. -/
def threeBlocks : PassState := { blocks := [{}, {}, {}] }

/-- C8 counterexample: `LoopMerge` emitted from block 0 with merge block 1
and continue target 2 patches nothing — block 0 gains no successor and
neither target block gains block 0 as predecessor, contradicting the claim
that every control-flow emit operation patches the successor and
predecessor lists. -/
theorem loop_merge_patches_nothing :
    (getBlock (EmitLoopMerge threeBlocks 0 1 2) 0).succs = [] ∧
    ¬ 0 ∈ (getBlock (EmitLoopMerge threeBlocks 0 1 2) 1).preds ∧
    ¬ 0 ∈ (getBlock (EmitLoopMerge threeBlocks 0 1 2) 2).preds := by
  decide

/-- C8 (amended): `Branch` and `BranchConditional` patch the CFG — the
target labels gain the current block as immediate predecessor (idempotently,
in insertion order) and the current block's successor list becomes the
branch targets — and every emitter appends its instruction to the current
block; but `LoopMerge`, `SelectionMerge` and `Return` only emit their
instruction, leaving every block's predecessor and successor lists
unchanged. -/
theorem control_flow_emit_patching (st : PassState) (b t f : Nat) (cond : Value)
    (hb : b < st.blocks.length) (ht : t < st.blocks.length) (hf : f < st.blocks.length)
    (hbt : b ≠ t) (hbf : b ≠ f) (htf : t ≠ f) :
    ((getBlock (EmitBranch st b t) t).preds =
        (if b ∈ (getBlock st t).preds then (getBlock st t).preds
         else (getBlock st t).preds ++ [b]) ∧
      (getBlock (EmitBranch st b t) b).succs = [t] ∧
      (getBlock (EmitBranch st b t) b).insts = (getBlock st b).insts ++ [st.arena.length]) ∧
    ((getBlock (EmitBranchConditional st b cond t f) t).preds =
        (if b ∈ (getBlock st t).preds then (getBlock st t).preds
         else (getBlock st t).preds ++ [b]) ∧
      (getBlock (EmitBranchConditional st b cond t f) f).preds =
        (if b ∈ (getBlock st f).preds then (getBlock st f).preds
         else (getBlock st f).preds ++ [b]) ∧
      (getBlock (EmitBranchConditional st b cond t f) b).succs = [t, f] ∧
      (getBlock (EmitBranchConditional st b cond t f) b).insts =
        (getBlock st b).insts ++ [st.arena.length]) ∧
    (∀ z, (getBlock (EmitLoopMerge st b t f) z).preds = (getBlock st z).preds ∧
      (getBlock (EmitLoopMerge st b t f) z).succs = (getBlock st z).succs) ∧
    (getBlock (EmitLoopMerge st b t f) b).insts = (getBlock st b).insts ++ [st.arena.length] ∧
    (∀ z, (getBlock (EmitSelectionMerge st b t) z).preds = (getBlock st z).preds ∧
      (getBlock (EmitSelectionMerge st b t) z).succs = (getBlock st z).succs) ∧
    (getBlock (EmitSelectionMerge st b t) b).insts =
      (getBlock st b).insts ++ [st.arena.length] ∧
    (∀ z, (getBlock (EmitReturn st b) z).preds = (getBlock st z).preds ∧
      (getBlock (EmitReturn st b) z).succs = (getBlock st z).succs) ∧
    (getBlock (EmitReturn st b) b).insts = (getBlock st b).insts ++ [st.arena.length] := by
  have noMerge : ∀ (st' : PassState) (b' : Nat) (inst : Inst) (z : Nat),
      (getBlock (appendInst st' b' inst) z).preds = (getBlock st' z).preds ∧
      (getBlock (appendInst st' b' inst) z).succs = (getBlock st' z).succs := by
    intro st' b' inst z
    by_cases hz : z = b'
    · subst hz
      by_cases h : z < st'.blocks.length
      · rw [getBlock_appendInst_self h]
        exact ⟨rfl, rfl⟩
      · unfold appendInst
        rw [modifyBlock, getBlock, getBlock, List.set_eq_of_length_le (by simp; omega)]
        exact ⟨rfl, rfl⟩
    · rw [getBlock_appendInst_other hz]
      exact ⟨rfl, rfl⟩
  refine ⟨⟨?_, ?_, ?_⟩, ⟨?_, ?_, ?_, ?_⟩, ?_, ?_, ?_, ?_, ?_, ?_⟩
  · -- Branch: target gains predecessor
    unfold EmitBranch
    rw [(noMerge _ _ _ t).1, getBlock_setBranch_other hbt.symm,
      getBlock_addImmediatePredecessor_preds ht]
  · -- Branch: successor list
    unfold EmitBranch
    rw [(noMerge _ _ _ b).2,
      getBlock_setBranch_self (by rw [addImmediatePredecessor_blocks_length]; exact hb)]
  · -- Branch: instruction appended
    unfold EmitBranch
    rw [getBlock_appendInst_self
        (by rw [setBranch_blocks_length, addImmediatePredecessor_blocks_length]; exact hb),
      setBranch_arena, addImmediatePredecessor_arena,
      getBlock_setBranch_self (by rw [addImmediatePredecessor_blocks_length]; exact hb)]
    simp [getBlock_addImmediatePredecessor_insts]
  · -- BranchConditional: true label gains predecessor
    unfold EmitBranchConditional
    rw [(noMerge _ _ _ t).1, getBlock_addImmediatePredecessor_other htf,
      getBlock_addImmediatePredecessor_preds (by rw [setBranches_blocks_length]; exact ht),
      getBlock_setBranches_other hbt.symm]
  · -- BranchConditional: false label gains predecessor
    unfold EmitBranchConditional
    rw [(noMerge _ _ _ f).1,
      getBlock_addImmediatePredecessor_preds
        (by rw [addImmediatePredecessor_blocks_length, setBranches_blocks_length]; exact hf),
      getBlock_addImmediatePredecessor_other htf.symm, getBlock_setBranches_other hbf.symm]
  · -- BranchConditional: successor list
    unfold EmitBranchConditional
    rw [(noMerge _ _ _ b).2, getBlock_addImmediatePredecessor_succs,
      getBlock_addImmediatePredecessor_succs, getBlock_setBranches_self hb]
  · -- BranchConditional: instruction appended
    unfold EmitBranchConditional
    rw [getBlock_appendInst_self
        (by rw [addImmediatePredecessor_blocks_length, addImmediatePredecessor_blocks_length,
          setBranches_blocks_length]; exact hb),
      addImmediatePredecessor_arena, addImmediatePredecessor_arena, setBranches_arena]
    show (getBlock (addImmediatePredecessor (addImmediatePredecessor
      (setBranches st b t f) t b) f b) b).insts ++ [st.arena.length] =
      (getBlock st b).insts ++ [st.arena.length]
    rw [getBlock_addImmediatePredecessor_insts, getBlock_addImmediatePredecessor_insts,
      getBlock_setBranches_self hb]
  · -- LoopMerge preserves preds/succs
    intro z
    exact noMerge _ _ _ z
  · -- LoopMerge appends its instruction
    unfold EmitLoopMerge
    rw [getBlock_appendInst_self hb]
  · -- SelectionMerge preserves preds/succs
    intro z
    exact noMerge _ _ _ z
  · -- SelectionMerge appends its instruction
    unfold EmitSelectionMerge
    rw [getBlock_appendInst_self hb]
  · -- Return preserves preds/succs
    intro z
    exact noMerge _ _ _ z
  · -- Return appends its instruction
    unfold EmitReturn
    rw [getBlock_appendInst_self hb]

/-- C8 witness: the amended patching theorem applied to the concrete
three-block state, branching from block 0 to blocks 1 and 2. -/
theorem control_flow_emit_patching_witness :
    0 < threeBlocks.blocks.length ∧ 1 < threeBlocks.blocks.length ∧
      2 < threeBlocks.blocks.length ∧
      (getBlock (EmitBranch threeBlocks 0 1) 1).preds = [0] := by
  refine ⟨by decide, by decide, by decide, ?_⟩
  have h := control_flow_emit_patching threeBlocks 0 1 2 (.u1 true)
    (by decide) (by decide) (by decide) (by decide) (by decide) (by decide)
  rw [h.1.1]
  decide

/-! ## Claim C6 — `RZ` and `PT` are sinks for the SSA pass -/

/-- C6: visiting a `SetRegister` destined for `RZ` or a `SetPred` destined
for `PT` leaves the pass state unchanged (no `WriteVariable`), and visiting
a `GetRegister` of `RZ` or a `GetPred` of `PT` also leaves it unchanged
(no `ReadVariable`, and the instruction's uses are not replaced). -/
theorem visit_inst_sink_registers (st : PassState) (b i fuel : Nat) :
    ((getInst st i).opcode = .SetRegister → (getInst st i).args.getD 0 .empty = .reg RZ →
      VisitInst st b i fuel = some st) ∧
    ((getInst st i).opcode = .SetPred → (getInst st i).args.getD 0 .empty = .pred PT →
      VisitInst st b i fuel = some st) ∧
    ((getInst st i).opcode = .GetRegister → (getInst st i).args.getD 0 .empty = .reg RZ →
      VisitInst st b i fuel = some st) ∧
    ((getInst st i).opcode = .GetPred → (getInst st i).args.getD 0 .empty = .pred PT →
      VisitInst st b i fuel = some st) := by
  refine ⟨fun hop harg => ?_, fun hop harg => ?_, fun hop harg => ?_, fun hop harg => ?_⟩ <;>
    · simp only [VisitInst, hop]
      rw [harg]
      simp [Value.regOf, Value.predOf]

/-! ## Claim C4 — `TryRemoveTrivialPhi` case analysis -/

theorem findSame_nonempty_eq (phi : Nat) (ops : List Value) (v : Value)
    (hv : v.isEmpty = false) :
    findSame phi ops v =
      if ops.all (fun op => op = v ∨ op = Value.instRef phi) then some v else none := by
  induction ops with
  | nil => rfl
  | cons op rest ih =>
    by_cases hop : op = v ∨ op = Value.instRef phi
    · simp [findSame, hop, ih]
    · simp [findSame, hop, hv]

theorem findSame_all_self (phi : Nat) (ops : List Value)
    (hself : ∀ op ∈ ops, op = Value.instRef phi) :
    findSame phi ops .empty = some .empty := by
  induction ops with
  | nil => rfl
  | cons op rest ih =>
    have hop : op = Value.empty ∨ op = Value.instRef phi := .inr (hself op (by simp))
    show (if op = Value.empty ∨ op = Value.instRef phi then findSame phi rest .empty
      else if ¬ Value.isEmpty .empty then none else findSame phi rest op) = some .empty
    rw [if_pos hop]
    exact ih (fun x hx => hself x (by simp [hx]))

theorem findSame_single (phi : Nat) (ops : List Value) (v : Value)
    (hne : ∀ op ∈ ops, op ≠ Value.empty)
    (hv : v ∈ ops) (hvs : v ≠ Value.instRef phi)
    (hall : ∀ op ∈ ops, op = v ∨ op = Value.instRef phi) :
    findSame phi ops .empty = some v := by
  induction ops with
  | nil => cases hv
  | cons op rest ih =>
    show (if op = Value.empty ∨ op = Value.instRef phi then findSame phi rest .empty
      else if ¬ Value.isEmpty .empty then none else findSame phi rest op) = some v
    by_cases hop : op = Value.instRef phi
    · rw [if_pos (.inr hop)]
      refine ih (fun x hx => hne x (by simp [hx])) ?_ (fun x hx => hall x (by simp [hx]))
      rcases List.mem_cons.mp hv with h | h
      · exact absurd (h ▸ hop) hvs
      · exact h
    · have hopv : op = v := (hall op (by simp)).resolve_right hop
      have hopne : ¬ (op = Value.empty ∨ op = Value.instRef phi) := by
        rintro (h | h)
        · exact hne op (by simp) h
        · exact hop h
      rw [if_neg hopne, if_neg (by simp [Value.isEmpty])]
      have hvne : v.isEmpty = false := by
        cases v <;> first | exact absurd rfl (hne _ hv) | rfl
      rw [hopv, findSame_nonempty_eq phi rest v hvne, if_pos]
      rw [List.all_eq_true]
      intro x hx
      have := hall x (by simp [hx])
      simpa using this

theorem findSame_distinct (phi : Nat) (ops : List Value) (x y : Value)
    (hne : ∀ op ∈ ops, op ≠ Value.empty)
    (hx : x ∈ ops) (hy : y ∈ ops)
    (hxs : x ≠ Value.instRef phi) (hys : y ≠ Value.instRef phi) (hxy : x ≠ y) :
    findSame phi ops .empty = none := by
  induction ops with
  | nil => cases hx
  | cons op rest ih =>
    show (if op = Value.empty ∨ op = Value.instRef phi then findSame phi rest .empty
      else if ¬ Value.isEmpty .empty then none else findSame phi rest op) = none
    by_cases hop : op = Value.instRef phi
    · rw [if_pos (.inr hop)]
      refine ih (fun z hz => hne z (by simp [hz])) ?_ ?_
      · rcases List.mem_cons.mp hx with h | h
        · exact absurd (h ▸ hop) hxs
        · exact h
      · rcases List.mem_cons.mp hy with h | h
        · exact absurd (h ▸ hop) hys
        · exact h
    · have hopne : ¬ (op = Value.empty ∨ op = Value.instRef phi) := by
        rintro (h | h)
        · exact hne op (by simp) h
        · exact hop h
      rw [if_neg hopne, if_neg (by simp [Value.isEmpty])]
      have hopiv : op.isEmpty = false := by
        cases hcase : op
        · exact absurd hcase (hne op (by simp))
        all_goals rfl
      rw [findSame_nonempty_eq phi rest op hopiv]
      obtain ⟨z, hzmem, hzop, hzs⟩ : ∃ z, z ∈ op :: rest ∧ z ≠ op ∧ z ≠ Value.instRef phi := by
        by_cases hxo : x = op
        · exact ⟨y, hy, fun h => hxy (by rw [hxo, h]), hys⟩
        · exact ⟨x, hx, hxo, hxs⟩
      have hzrest : z ∈ rest := by
        rcases List.mem_cons.mp hzmem with h | h
        · exact absurd h hzop
        · exact h
      rw [if_neg]
      intro hallt
      have := List.all_eq_true.mp hallt z hzrest
      simp only [decide_eq_true_eq] at this
      rcases this with h | h
      · exact hzop h
      · exact hzs h

theorem head?_dropWhile_false {α : Type} (p : α → Bool) (l : List α) :
    ∀ x, (l.dropWhile p).head? = some x → p x = false := by
  induction l with
  | nil => intro x h; cases h
  | cons a t ih =>
    intro x h
    rw [List.dropWhile_cons] at h
    by_cases hp : p a
    · rw [if_pos hp] at h
      exact ih x h
    · rw [if_neg hp] at h
      cases h
      simpa using hp

/-- The values merged by a φ instruction (`phi.Arg(i)` over all operands). -/
def phiOperands (st : PassState) (phi : Nat) : List Value :=
  (getInst st phi).phiArgs.map Prod.snd

/-- C4: case analysis of `TryRemoveTrivialPhi`.  With no `empty` operands:
(i) when the operands contain two distinct values that are neither
self-references nor repeats of each other, the φ is returned unchanged;
(ii) when exactly one distinct non-self operand value `v` exists, every use
of the φ is replaced by `v` and `v` is returned; (iii) when every operand is
a self-reference, the φ is removed from the instruction list, a fresh undef
instruction is inserted after all φ-nodes and before any non-φ instruction,
the φ is reinserted right after that undef, all uses of the φ are replaced
by the undef, and the undef is returned. -/
theorem try_remove_trivial_phi_cases (st : PassState) (phi b : Nat) (undef_opcode : Opcode)
    (hne : ∀ op ∈ phiOperands st phi, op ≠ Value.empty) :
    (∀ x y, x ∈ phiOperands st phi → y ∈ phiOperands st phi →
      x ≠ Value.instRef phi → y ≠ Value.instRef phi → x ≠ y →
      TryRemoveTrivialPhi st phi b undef_opcode = (.instRef phi, st)) ∧
    (∀ v, v ∈ phiOperands st phi → v ≠ Value.instRef phi →
      (∀ x ∈ phiOperands st phi, x = v ∨ x = Value.instRef phi) →
      TryRemoveTrivialPhi st phi b undef_opcode = (v, replaceUses st phi v)) ∧
    ((∀ x ∈ phiOperands st phi, x = Value.instRef phi) → b < st.blocks.length →
      ∃ u st1,
        u = st.arena.length ∧
        TryRemoveTrivialPhi st phi b undef_opcode = (.instRef u, replaceUses st1 phi (.instRef u)) ∧
        st1.arena = st.arena ++ [{ opcode := undef_opcode }] ∧
        getInst st1 u = { opcode := undef_opcode } ∧
        (∃ phis rest,
          phis ++ rest = (getBlock st b).insts.erase phi ∧
          (∀ i ∈ phis, isPhiInst st i = true) ∧
          (∀ i, rest.head? = some i → isPhiInst st i = false) ∧
          (getBlock st1 b).insts = phis ++ u :: phi :: rest) ∧
        st1.currentDef = st.currentDef ∧
        st1.sealedBlocks = st.sealedBlocks ∧
        st1.incompletePhis = st.incompletePhis) := by
  refine ⟨?_, ?_, ?_⟩
  · intro x y hx hy hxs hys hxy
    have hfind := findSame_distinct phi (phiOperands st phi) x y hne hx hy hxs hys hxy
    unfold TryRemoveTrivialPhi
    rw [show (getInst st phi).phiArgs.map Prod.snd = phiOperands st phi from rfl, hfind]
  · intro v hv hvs hall
    have hfind := findSame_single phi (phiOperands st phi) v hne hv hvs hall
    have hvne : v.isEmpty = false := by
      cases v <;> first | exact absurd rfl (hne _ hv) | rfl
    unfold TryRemoveTrivialPhi
    rw [show (getInst st phi).phiArgs.map Prod.snd = phiOperands st phi from rfl, hfind]
    simp [hvne]
  · intro hall hb
    have hfind := findSame_all_self phi (phiOperands st phi) hall
    refine ⟨st.arena.length,
      modifyBlock { st with arena := st.arena ++ [{ opcode := undef_opcode }] } b
        (fun blk => { blk with insts :=
          ((getBlock st b).insts.erase phi).takeWhile (isPhiInst st) ++
            st.arena.length :: phi :: ((getBlock st b).insts.erase phi).dropWhile (isPhiInst st) }),
      rfl, ?_, ?_, ?_, ?_, ?_, ?_, ?_⟩
    · unfold TryRemoveTrivialPhi
      rw [show (getInst st phi).phiArgs.map Prod.snd = phiOperands st phi from rfl, hfind]
      rfl
    · rfl
    · show ({ st with arena := st.arena ++ [{ opcode := undef_opcode }] } : PassState).arena.getD
        st.arena.length emptyInst = { opcode := undef_opcode }
      simp [List.getD_eq_getElem?_getD]
    · refine ⟨((getBlock st b).insts.erase phi).takeWhile (isPhiInst st),
        ((getBlock st b).insts.erase phi).dropWhile (isPhiInst st),
        List.takeWhile_append_dropWhile _ _, fun i hi => List.mem_takeWhile_imp hi,
        head?_dropWhile_false (isPhiInst st) _, ?_⟩
      rw [getBlock_modifyBlock_self (by simpa using hb)]
    · rfl
    · rfl
    · rfl

/-- Two-operand φ state for the C4 witness: the φ (instruction 2) in block 0
merges the same value `u32 5` from both predecessors. -/
def phiWitnessState : PassState :=
  { arena := [
      { opcode := .IAdd32, args := [.instRef 2, .u32 1] },
      { opcode := .Void },
      { opcode := .Phi, phiArgs := [(0, .u32 5), (1, .u32 5)] }],
    blocks := [{ insts := [2, 0] }] }

/-- C4 witness: on the concrete φ merging `u32 5` twice, the theorem's
single-value case replaces all uses of the φ by `u32 5`. -/
theorem try_remove_trivial_phi_cases_witness :
    (∀ op ∈ phiOperands phiWitnessState 2, op ≠ Value.empty) ∧
      TryRemoveTrivialPhi phiWitnessState 2 0 .UndefU32 =
        (.u32 5, replaceUses phiWitnessState 2 (.u32 5)) :=
  ⟨by decide,
    (try_remove_trivial_phi_cases phiWitnessState 2 0 .UndefU32 (by decide)).2.1
      (.u32 5) (by decide) (by decide) (by decide)⟩

/-! ## Claim C5 — all non-sink `Get*` reads lose their uses

Definitions used to state and prove that `SsaRewritePass` leaves every
visited non-sink `Get*` instruction without live uses. -/

/-- All operand values an instruction holds (ordinary operands and φ-operand
values); the references counted by the use-lists. -/
def InstValues (inst : Inst) : List Value :=
  inst.args ++ inst.phiArgs.map Prod.snd

/-- `v` holds no reference to any instruction in `G`. -/
def CleanVal (G : List Nat) (v : Value) : Prop :=
  ∀ g ∈ G, v ≠ Value.instRef g

/-- Whether an instruction is a `Get*` the pass replaces: any of the eight
`Get` opcodes except reads of the `RZ` and `PT` sinks. -/
def isNonSinkGet (inst : Inst) : Bool :=
  match inst.opcode with
  | .GetRegister => decide ((inst.args.getD 0 .empty).regOf ≠ RZ)
  | .GetPred => decide ((inst.args.getD 0 .empty).predOf ≠ PT)
  | .GetGotoVariable => true
  | .GetIndirectBranchVariable => true
  | .GetZFlag => true
  | .GetSFlag => true
  | .GetCFlag => true
  | .GetOFlag => true
  | _ => false

/-- The instructions the pass visits, in visit order: the blocks in reverse
post order, each block's instruction list top to bottom. -/
def visitOrder (st0 : PassState) (program : List Nat) : List Nat :=
  program.flatMap fun b => (getBlock st0 b).insts

/-- The non-sink `Get*` instructions of the visit order. -/
def nonSinkGets (st0 : PassState) (order : List Nat) : List Nat :=
  order.filter fun i => isNonSinkGet (getInst st0 i)

/-- Invariant carried through the whole pass.  `G` is the fixed set of
non-sink get instructions of the input, `V ⊆ G` those already visited,
`st0` the input state. -/
structure Inv (G V : List Nat) (st0 st : PassState) : Prop where
  noVisitedRefs : ∀ i v, v ∈ InstValues (getInst st i) → ∀ g ∈ V, v ≠ .instRef g
  refsFromInitial : ∀ i v g, v ∈ InstValues (getInst st i) → g ∈ G → v = .instRef g →
    v ∈ InstValues (getInst st0 i)
  defsClean : ∀ var b v, lookupDef st var b = some v → CleanVal G v
  pendingPhisNew : ∀ b l, assocFind b st.incompletePhis = some l →
    ∀ e ∈ l, st0.arena.length ≤ e.2
  arenaGrows : st0.arena.length ≤ st.arena.length
  opcodesStable : ∀ i, (getInst st i).opcode = (getInst st0 i).opcode ∨
    (st0.arena.length ≤ i ∧ ((getInst st i).opcode = .Phi ∨
      (getInst st i).opcode = .UndefU1 ∨ (getInst st i).opcode = .UndefU32))
  arg0Stable : ∀ i, (∀ t, (getInst st0 i).args.getD 0 .empty ≠ .instRef t) →
    (getInst st i).args.getD 0 .empty = (getInst st0 i).args.getD 0 .empty
  instsStable : ∀ z, (getBlock st z).insts.filter (fun i => decide (i < st0.arena.length)) =
    (getBlock st0 z).insts.filter (fun i => decide (i < st0.arena.length))

theorem Inv.base (G V : List Nat) (st0 : PassState)
    (hdefs : ∀ var b v, lookupDef st0 var b = some v → CleanVal G v)
    (hpend : ∀ b l, assocFind b st0.incompletePhis = some l →
      ∀ e ∈ l, st0.arena.length ≤ e.2)
    (hvis : ∀ i v, v ∈ InstValues (getInst st0 i) → ∀ g ∈ V, v ≠ .instRef g) :
    Inv G V st0 st0 :=
  ⟨hvis, fun _ _ _ hv _ _ => hv, hdefs, hpend, le_rfl, fun _ => .inl rfl, fun _ _ => rfl,
    fun _ => rfl⟩

/-- A one-instruction state reading `RZ`, for the C6 witness. -/
def rzReadState : PassState :=
  { arena := [{ opcode := .GetRegister, args := [.reg RZ] }], blocks := [{ insts := [0] }] }

/-- C6 witness: the sink theorem applied to the concrete `GetRegister RZ`
instruction — the visit changes nothing. -/
theorem visit_inst_sink_registers_witness :
    (getInst rzReadState 0).opcode = .GetRegister ∧
      VisitInst rzReadState 0 0 5 = some rzReadState :=
  ⟨by decide,
    (visit_inst_sink_registers rzReadState 0 0 5).2.2.1 (by decide) (by decide)⟩

/-! ## `ReadVariable` machine lemmas

Algebra of `steps` (the iterated loop) and invariants preserved by every
loop iteration, used below to settle the claims about `ReadVariable` and
the whole pass. -/

theorem steps_stable (var : SsaVar) (n : Nat) (c : List ReadFrame × PassState)
    (h : c.1.length ≤ 1) : steps var n c = c := by
  induction n with
  | zero => rfl
  | succ m ih =>
    show (if c.1.length ≤ 1 then c else steps var m (step var c)) = c
    rw [if_pos h]

theorem steps_succ_of_big (var : SsaVar) (n : Nat) (c : List ReadFrame × PassState)
    (h : ¬ c.1.length ≤ 1) : steps var (n + 1) c = steps var n (step var c) := by
  show (if c.1.length ≤ 1 then c else steps var n (step var c)) = _
  rw [if_neg h]

theorem steps_add (var : SsaVar) (a b : Nat) (c : List ReadFrame × PassState) :
    steps var (a + b) c = steps var b (steps var a c) := by
  induction a generalizing c with
  | zero => rw [Nat.zero_add]; rfl
  | succ m ih =>
    rw [show m + 1 + b = (m + b) + 1 from by omega]
    by_cases h : c.1.length ≤ 1
    · rw [steps_stable var _ c h, steps_stable var _ c h, steps_stable var _ c h]
    · rw [steps_succ_of_big var (m + b) c h, steps_succ_of_big var m c h, ih]

theorem step_cons (var : SsaVar) (x : ReadFrame) (rest : List ReadFrame) (st : PassState) :
    step var (x :: rest, st) =
      match stepTop var x st with
      | .push next top' st' => (next :: top' :: rest, st')
      | .pop r st' => (setResult r rest, st') := rfl

/-- Composition lemma for the work-stack machine: the run above a base
portion of the stack neither reads nor writes the base until the final pop,
which stores the sub-result in the base's top frame; hence the sub-run's
step count, result and final pass state are independent of the base. -/
theorem steps_lift (var : SsaVar) :
    ∀ (n : Nat) (x : ReadFrame) (st : PassState) (B1 B2 : List ReadFrame),
      B1 ≠ [] → B2 ≠ [] →
      (steps var n (x :: B1, st)).1.length ≤ B1.length →
      ∃ k ≤ n, ∃ r st',
        steps var k (x :: B1, st) = (setResult r B1, st') ∧
        steps var k (x :: B2, st) = (setResult r B2, st') := by
  intro n
  induction n using Nat.strong_induction_on with
  | _ n ih =>
    intro x st B1 B2 hB1 hB2 hterm
    match n with
    | 0 =>
      exfalso
      have : (x :: B1).length ≤ B1.length := hterm
      simp at this
    | Nat.succ m =>
      have hbig1 : ¬ ((x :: B1, st) : List ReadFrame × PassState).1.length ≤ 1 := by
        have : B1.length ≥ 1 := List.length_pos.mpr hB1
        simp only [List.length_cons]
        omega
      have hbig2 : ¬ ((x :: B2, st) : List ReadFrame × PassState).1.length ≤ 1 := by
        have : B2.length ≥ 1 := List.length_pos.mpr hB2
        simp only [List.length_cons]
        omega
      rw [steps_succ_of_big var m _ hbig1] at hterm
      match hstep : stepTop var x st with
      | .pop r st' =>
        refine ⟨1, by omega, r, st', ?_, ?_⟩
        · rw [steps_succ_of_big var 0 _ hbig1, step_cons, hstep]
          rfl
        · rw [steps_succ_of_big var 0 _ hbig2, step_cons, hstep]
          rfl
      | .push y x' st' =>
        rw [step_cons, hstep] at hterm
        have hterm1 : (steps var m (y :: (x' :: B1), st')).1.length ≤ (x' :: B1).length := by
          refine le_trans hterm ?_
          simp
        obtain ⟨k1, hk1, r1, st1, hrun1, hrun1'⟩ :=
          ih m (by omega) y st' (x' :: B1) (x' :: B2) (by simp) (by simp) hterm1
        have hsplit : steps var m (y :: (x' :: B1), st') =
            steps var (m - k1) ({ x' with result := r1 } :: B1, st1) := by
          conv_lhs => rw [show m = k1 + (m - k1) by omega]
          rw [steps_add, hrun1]
          rfl
        rw [hsplit] at hterm
        obtain ⟨k2, hk2, r, st2, hrun2, hrun2'⟩ :=
          ih (m - k1) (by omega) { x' with result := r1 } st1 B1 B2 hB1 hB2 hterm
        refine ⟨1 + k1 + k2, by omega, r, st2, ?_, ?_⟩
        · rw [show 1 + k1 + k2 = 1 + (k1 + k2) by omega, steps_add,
            steps_succ_of_big var 0 _ hbig1, step_cons, hstep, steps_add]
          show steps var k2 (steps var k1 (y :: x' :: B1, st')) = _
          rw [hrun1]
          exact hrun2
        · rw [show 1 + k1 + k2 = 1 + (k1 + k2) by omega, steps_add,
            steps_succ_of_big var 0 _ hbig2, step_cons, hstep, steps_add]
          show steps var k2 (steps var k1 (y :: x' :: B2, st')) = _
          rw [hrun1']
          exact hrun2'

/-- Exact characterization of a successful `runFrame`: the machine reaches
the one-frame stack holding the result after some `k ≤ fuel` iterations. -/
theorem runFrame_eq_some_iff (var : SsaVar) (x : ReadFrame) (st : PassState) (fuel : Nat)
    (r : Value) (st' : PassState) :
    runFrame var x st fuel = some (r, st') ↔
      ∃ k ≤ fuel, steps var k ([x, sentinelFrame], st) =
        ([{ sentinelFrame with result := r }], st') := by
  constructor
  · intro h
    unfold runFrame at h
    by_cases hlen : (steps var fuel ([x, sentinelFrame], st)).1.length ≤ 1
    · rw [if_pos hlen] at h
      obtain ⟨k, hk, r0, st0, hrun, -⟩ :=
        steps_lift var fuel x st [sentinelFrame] [sentinelFrame] (by simp) (by simp) hlen
      have hfull : steps var fuel ([x, sentinelFrame], st) =
          ([{ sentinelFrame with result := r0 }], st0) := by
        conv_lhs => rw [show fuel = k + (fuel - k) by omega]
        rw [steps_add, hrun]
        exact steps_stable var _ _ (by simp [setResult])
      rw [hfull] at h
      simp only [List.headD_cons, Option.some.injEq, Prod.mk.injEq] at h
      obtain ⟨h1, h2⟩ := h
      exact ⟨k, hk, by rw [hrun, ← h1, ← h2]; rfl⟩
    · rw [if_neg hlen] at h
      cases h
  · rintro ⟨k, hk, hrun⟩
    unfold runFrame
    have hfull : steps var fuel ([x, sentinelFrame], st) =
        ([{ sentinelFrame with result := r }], st') := by
      conv_lhs => rw [show fuel = k + (fuel - k) by omega]
      rw [steps_add, hrun]
      exact steps_stable var _ _ (by simp)
    rw [hfull]
    rfl

/-! ### State facts preserved by every loop iteration

`ReadVariable` never seals a block, never changes a predecessor list, and
inserts instructions only into blocks that are unsealed or have a
predecessor count different from one (the two φ-creating branches of
`Start` and the undef insertion of `TryRemoveTrivialPhi`, which happens in
the block of a φ frame). -/

/-- Relation between the pass state at the start of a `ReadVariable` run and
any later state of the same run. -/
def StInv (st st' : PassState) : Prop :=
  st'.blocks.length = st.blocks.length ∧
  (∀ z, (getBlock st' z).preds = (getBlock st z).preds) ∧
  st'.sealedBlocks = st.sealedBlocks ∧
  (∀ z, z ∈ st.sealedBlocks → (getBlock st z).preds.length = 1 →
    (getBlock st' z).insts = (getBlock st z).insts)

theorem StInv.refl (st : PassState) : StInv st st :=
  ⟨rfl, fun _ => rfl, rfl, fun _ _ _ => rfl⟩

theorem StInv.trans {s1 s2 s3 : PassState} (h12 : StInv s1 s2) (h23 : StInv s2 s3) :
    StInv s1 s3 := by
  obtain ⟨hl12, hp12, hs12, hi12⟩ := h12
  obtain ⟨hl23, hp23, hs23, hi23⟩ := h23
  refine ⟨hl23.trans hl12, fun z => (hp23 z).trans (hp12 z), hs23.trans hs12, ?_⟩
  intro z hz hz1
  rw [hi23 z (hs12 ▸ hz) (by rw [hp12 z]; exact hz1), hi12 z hz hz1]

theorem StInv.of_blocks_eq {st st' : PassState} (hb : st'.blocks = st.blocks)
    (hs : st'.sealedBlocks = st.sealedBlocks) : StInv st st' := by
  refine ⟨by rw [hb], fun z => ?_, hs, fun z _ _ => ?_⟩ <;> rw [getBlock, getBlock, hb]

/-- A frame in the φ-operand states belongs to a block where the machine
took the operandless-φ branch: such a block is not a sealed single-predecessor
block. -/
def FrameOK (st : PassState) (f : ReadFrame) : Prop :=
  (f.pc = .PushPhiArgument ∨ f.pc = .PreparePhiArgument) →
    ¬ (f.block.getD 0 ∈ st.sealedBlocks ∧ (getBlock st (f.block.getD 0)).preds.length = 1)

theorem FrameOK.transfer {st st' : PassState} {f : ReadFrame} (hinv : StInv st st')
    (h : FrameOK st f) : FrameOK st' f := by
  intro hpc hbad
  obtain ⟨-, hp, hs, -⟩ := hinv
  exact h hpc ⟨hs ▸ hbad.1, by rw [← hp (f.block.getD 0)]; exact hbad.2⟩

theorem getBlock_out_of_range {st : PassState} {z : Nat} (h : ¬ z < st.blocks.length) :
    getBlock st z = emptyBlock := by
  rw [getBlock, List.getD_eq_getElem?_getD, List.getElem?_eq_none (by omega)]
  rfl

theorem preds_after_modify (st1 st : PassState) (b z : Nat) (f : Block → Block)
    (hblocks : st1.blocks = st.blocks)
    (hf : ∀ blk, (f blk).preds = blk.preds) :
    (getBlock (modifyBlock st1 b f) z).preds = (getBlock st z).preds := by
  have hst : ∀ w, getBlock st1 w = getBlock st w := by
    intro w
    rw [getBlock, getBlock, hblocks]
  by_cases hz : z = b
  · subst hz
    by_cases h : z < st1.blocks.length
    · rw [getBlock_modifyBlock_self h, hf, hst]
    · rw [getBlock, modifyBlock, List.set_eq_of_length_le (by omega)]
      rw [← getBlock, hst]
  · rw [getBlock_modifyBlock_other hz, hst]

theorem insts_after_modify_ne (st1 st : PassState) (b z : Nat) (f : Block → Block)
    (hblocks : st1.blocks = st.blocks) (hz : z ≠ b) :
    (getBlock (modifyBlock st1 b f) z).insts = (getBlock st z).insts := by
  rw [getBlock_modifyBlock_other hz, getBlock, getBlock, hblocks]

theorem getBlock_modifyBlock_oob {st : PassState} {b : Nat} {f : Block → Block}
    (h : ¬ b < st.blocks.length) (z : Nat) :
    getBlock (modifyBlock st b f) z = getBlock st z := by
  by_cases hz : z = b
  · subst hz
    rw [getBlock_out_of_range h, getBlock_out_of_range]
    rw [modifyBlock_blocks_length]
    exact h
  · exact getBlock_modifyBlock_other hz

theorem getBlock_set_arena (st : PassState) (a : List Inst) (z : Nat) :
    getBlock { st with arena := a } z = getBlock st z := rfl

theorem getBlock_writeVar (var : SsaVar) (b : Nat) (v : Value) (st : PassState) (z : Nat) :
    getBlock (writeVar var b v st) z = getBlock st z := rfl

theorem getBlock_replaceUses (st : PassState) (t : Nat) (v : Value) (z : Nat) :
    getBlock (replaceUses st t v) z = getBlock st z := rfl

theorem getBlock_addPhiOperand (st : PassState) (phi p : Nat) (v : Value) (z : Nat) :
    getBlock (addPhiOperand st phi p v) z = getBlock st z := rfl

/-- `TryRemoveTrivialPhi` only rewrites the arena and the instruction list
of its own block. -/
theorem tryRemoveTrivialPhi_state (st : PassState) (phi b : Nat) (u : Opcode) :
    (TryRemoveTrivialPhi st phi b u).2.blocks.length = st.blocks.length ∧
    (∀ z, (getBlock (TryRemoveTrivialPhi st phi b u).2 z).preds = (getBlock st z).preds) ∧
    (TryRemoveTrivialPhi st phi b u).2.sealedBlocks = st.sealedBlocks ∧
    (TryRemoveTrivialPhi st phi b u).2.currentDef = st.currentDef ∧
    (TryRemoveTrivialPhi st phi b u).2.incompletePhis = st.incompletePhis ∧
    (∀ z, z ≠ b → (getBlock (TryRemoveTrivialPhi st phi b u).2 z).insts =
      (getBlock st z).insts) := by
  unfold TryRemoveTrivialPhi
  cases hf : findSame phi ((getInst st phi).phiArgs.map Prod.snd) .empty with
  | none => exact ⟨rfl, fun _ => rfl, rfl, rfl, rfl, fun _ _ => rfl⟩
  | some same =>
    by_cases hie : same.isEmpty
    · simp only [hie, if_true]
      refine ⟨by simp [replaceUses, modifyBlock], fun z => ?_, rfl, rfl, rfl, fun z hz => ?_⟩
      · rw [getBlock_replaceUses]
        refine preds_after_modify _ _ _ _ _ ?_ ?_
        · rfl
        · intro blk
          rfl
      · rw [getBlock_replaceUses]
        refine insts_after_modify_ne _ _ _ _ _ ?_ hz
        rfl
    · simp only [hie, if_false]
      exact ⟨rfl, fun _ => rfl, rfl, rfl, rfl, fun _ _ => rfl⟩

/-- The state part of `StInv` for a φ prepended to a block that is unsealed
or has a predecessor count different from one. -/
theorem StInv_prependPhi (st : PassState) (b : Nat)
    (hb : b ∉ st.sealedBlocks ∨ (getBlock st b).preds.length ≠ 1) :
    StInv st (prependPhi st b).2 := by
  refine ⟨by simp [prependPhi, modifyBlock], fun z => ?_, rfl, fun z hz hz1 => ?_⟩
  · refine preds_after_modify _ _ _ _ _ ?_ ?_
    · rfl
    · intro blk
      rfl
  · have hzb : z ≠ b := by
      rintro rfl
      rcases hb with h | h
      · exact h hz
      · exact h hz1
    refine insts_after_modify_ne _ _ _ _ _ ?_ hzb
    rfl

/-- The `TryRemoveTrivialPhi` step inside `prepare_phi_operand`, seen as a
state transition from a block that is not sealed-single-predecessor. -/
theorem StInv_tryRemoveTrivialPhi (st : PassState) (phi b : Nat) (u : Opcode)
    (hb : ¬ (b ∈ st.sealedBlocks ∧ (getBlock st b).preds.length = 1)) :
    StInv st (TryRemoveTrivialPhi st phi b u).2 := by
  obtain ⟨hl, hp, hs, -, -, hi⟩ := tryRemoveTrivialPhi_state st phi b u
  refine ⟨hl, hp, hs, fun z hz hz1 => ?_⟩
  exact hi z (by rintro rfl; exact hb ⟨hz, hz1⟩)

/-- What one loop iteration guarantees: the new state is `StInv`-related to
the old one, and any frames it pushes satisfy `FrameOK`. -/
def StepResInv (st : PassState) : StepRes → Prop
  | .push next top' st' => StInv st st' ∧ FrameOK st' next ∧ FrameOK st' top'
  | .pop _ st' => StInv st st'

theorem StepResInv.compose {st st1 : PassState} {x : StepRes} (hinv : StInv st st1)
    (h : StepResInv st1 x) : StepResInv st x := by
  cases x with
  | push next top' st' => exact ⟨hinv.trans h.1, h.2.1, h.2.2⟩
  | pop r st' => exact hinv.trans h

theorem preparePhiOperand_inv (var : SsaVar) (top : ReadFrame) (st : PassState)
    (hblk : ¬ (top.block.getD 0 ∈ st.sealedBlocks ∧
      (getBlock st (top.block.getD 0)).preds.length = 1)) :
    StepResInv st (preparePhiOperand var top st) := by
  unfold preparePhiOperand
  by_cases hpe : top.predIt = top.predEnd
  · rw [if_pos hpe]
    exact (StInv_tryRemoveTrivialPhi st top.phi (top.block.getD 0) (UndefOpcode var) hblk).trans
      (StInv.of_blocks_eq rfl rfl)
  · rw [if_neg hpe]
    refine ⟨StInv.refl st, ?_, ?_⟩
    · rintro (h | h) <;> exact Status.noConfusion h
    · intro _ hbad
      exact hblk hbad

theorem stepTop_inv (var : SsaVar) (top : ReadFrame) (st : PassState) (hOK : FrameOK st top) :
    StepResInv st (stepTop var top st) := by
  obtain ⟨blk, res, phi0, pit, pend, pc⟩ := top
  cases pc with
  | Start =>
    show StepResInv st
      (match lookupDef st var (blk.getD 0) with
      | some v => StepRes.pop v (writeVar var (blk.getD 0) v st)
      | none =>
        if blk.getD 0 ∉ st.sealedBlocks then
          StepRes.pop (.instRef (prependPhi st (blk.getD 0)).1)
            (writeVar var (blk.getD 0) (.instRef (prependPhi st (blk.getD 0)).1)
              { (prependPhi st (blk.getD 0)).2 with incompletePhis := (assocInsert (blk.getD 0)
                  (sortedInsertVar var (prependPhi st (blk.getD 0)).1
                    ((assocFind (blk.getD 0) (prependPhi st (blk.getD 0)).2.incompletePhis).getD []))
                  (prependPhi st (blk.getD 0)).2.incompletePhis) })
        else if (getBlock st (blk.getD 0)).preds.length = 1 then
          StepRes.push (freshFrame ((getBlock st (blk.getD 0)).preds.getD 0 0))
            { block := blk, result := res, phi := phi0, predIt := pit, predEnd := pend,
              pc := .SetValue } st
        else
          preparePhiOperand var
            { block := blk, result := res, phi := (prependPhi st (blk.getD 0)).1, predIt := 0,
              predEnd := (getBlock (writeVar var (blk.getD 0)
                  (.instRef (prependPhi st (blk.getD 0)).1) (prependPhi st (blk.getD 0)).2)
                (blk.getD 0)).preds.length,
              pc := .Start }
            (writeVar var (blk.getD 0) (.instRef (prependPhi st (blk.getD 0)).1)
              (prependPhi st (blk.getD 0)).2))
    cases hdef : lookupDef st var (blk.getD 0) with
    | some v => exact StInv.of_blocks_eq rfl rfl
    | none =>
      by_cases hseal : blk.getD 0 ∈ st.sealedBlocks
      · rw [if_neg (not_not_intro hseal)]
        by_cases hlen : (getBlock st (blk.getD 0)).preds.length = 1
        · rw [if_pos hlen]
          refine ⟨StInv.refl st, ?_, ?_⟩
          · rintro (h | h) <;> exact Status.noConfusion h
          · rintro (h | h) <;> exact Status.noConfusion h
        · rw [if_neg hlen]
          have hinv : StInv st
              (writeVar var (blk.getD 0) (.instRef (prependPhi st (blk.getD 0)).1)
                (prependPhi st (blk.getD 0)).2) :=
            (StInv_prependPhi st (blk.getD 0) (.inr hlen)).trans (StInv.of_blocks_eq rfl rfl)
          refine StepResInv.compose hinv (preparePhiOperand_inv var _ _ ?_)
          rintro ⟨-, hbad⟩
          obtain ⟨-, hp, -, -⟩ := hinv
          rw [hp] at hbad
          exact hlen hbad
      · rw [if_pos hseal]
        exact ((StInv_prependPhi st (blk.getD 0) (.inl hseal)).trans
          (StInv.of_blocks_eq rfl rfl)).trans (StInv.of_blocks_eq rfl rfl)
  | SetValue => exact StInv.of_blocks_eq rfl rfl
  | PushPhiArgument =>
    show StepResInv st
      (preparePhiOperand var
        { block := blk, result := res, phi := phi0, predIt := pit + 1, predEnd := pend,
          pc := .PushPhiArgument }
        (addPhiOperand st phi0 ((getBlock st (blk.getD 0)).preds.getD pit 0) res))
    refine StepResInv.compose (StInv.of_blocks_eq rfl rfl)
      (preparePhiOperand_inv var _ _ ?_)
    exact hOK (.inl rfl)
  | PreparePhiArgument =>
    exact preparePhiOperand_inv var _ st (hOK (.inr rfl))

theorem step_inv (var : SsaVar) (stack : List ReadFrame) (st : PassState)
    (hOK : ∀ f ∈ stack, FrameOK st f) :
    StInv st (step var (stack, st)).2 ∧
      ∀ f ∈ (step var (stack, st)).1, FrameOK (step var (stack, st)).2 f := by
  match stack with
  | [] =>
    refine ⟨StInv.refl st, ?_⟩
    intro f hf
    cases hf
  | top :: rest =>
    rw [step_cons]
    have h := stepTop_inv var top st (hOK top (by simp))
    cases hstep : stepTop var top st with
    | push next top' st' =>
      rw [hstep] at h
      obtain ⟨hinv, hnext, htop'⟩ := h
      refine ⟨hinv, ?_⟩
      intro f hf
      rcases List.mem_cons.mp hf with rfl | hf
      · exact hnext
      rcases List.mem_cons.mp hf with rfl | hf
      · exact htop'
      · exact (hOK f (by simp [hf])).transfer hinv
    | pop r st' =>
      rw [hstep] at h
      refine ⟨h, ?_⟩
      intro f hf
      cases rest with
      | nil => cases hf
      | cons g gs =>
        rcases List.mem_cons.mp hf with rfl | hf
        · intro hpc hbad
          exact (hOK g (by simp)).transfer h hpc hbad
        · exact (hOK f (by simp [hf])).transfer h

theorem steps_inv (var : SsaVar) (n : Nat) (stack : List ReadFrame) (st : PassState)
    (hOK : ∀ f ∈ stack, FrameOK st f) :
    StInv st (steps var n (stack, st)).2 ∧
      ∀ f ∈ (steps var n (stack, st)).1, FrameOK (steps var n (stack, st)).2 f := by
  induction n generalizing stack st with
  | zero => exact ⟨StInv.refl st, hOK⟩
  | succ m ih =>
    by_cases hlen : ((stack, st) : List ReadFrame × PassState).1.length ≤ 1
    · rw [steps_stable var _ _ hlen]
      exact ⟨StInv.refl st, hOK⟩
    · rw [steps_succ_of_big var m _ hlen]
      obtain ⟨hinv1, hOK1⟩ := step_inv var stack st hOK
      rcases hc : step var (stack, st) with ⟨stack', st'⟩
      rw [hc] at hinv1 hOK1
      obtain ⟨hinv2, hOK2⟩ := ih stack' st' hOK1
      exact ⟨hinv1.trans hinv2, hOK2⟩

/-- Fuel monotonicity: a successful run stays successful with more fuel. -/
theorem runFrame_mono (var : SsaVar) (x : ReadFrame) (st : PassState) (fuel fuel' : Nat)
    (out : Value × PassState) (h : runFrame var x st fuel = some out) (hle : fuel ≤ fuel') :
    runFrame var x st fuel' = some out := by
  obtain ⟨r, st'⟩ := out
  rw [runFrame_eq_some_iff] at h ⊢
  obtain ⟨k, hk, hrun⟩ := h
  exact ⟨k, le_trans hk hle, hrun⟩

theorem assocFind_assocInsert_self {α β : Type} [DecidableEq α] (k : α) (v : β)
    (l : List (α × β)) : assocFind k (assocInsert k v l) = some v := by
  induction l with
  | nil => simp [assocInsert, assocFind]
  | cons h t ih =>
    obtain ⟨k', v'⟩ := h
    by_cases hk : k' = k
    · simp [assocInsert, hk, assocFind]
    · simp [assocInsert, hk, assocFind, ih]

/-- `WriteVariable` makes the written value the current definition. -/
theorem lookupDef_writeVar_self (var : SsaVar) (b : Nat) (v : Value) (st : PassState) :
    lookupDef (writeVar var b v st) var b = some v := by
  unfold lookupDef writeVar
  rw [show (({ st with currentDef := (assocInsert var
      (assocInsert b v ((assocFind var st.currentDef).getD [])) st.currentDef) } :
      PassState)).currentDef = assocInsert var
      (assocInsert b v ((assocFind var st.currentDef).getD [])) st.currentDef from rfl,
    assocFind_assocInsert_self]
  rw [Option.getD_some, assocFind_assocInsert_self]

/-! ## Claim C3 — `ReadVariable` on a sealed block with one predecessor -/

/-- C3: for a variable with no `current_def` entry for a sealed block `b`
with exactly one immediate predecessor `p`, `ReadVariable(var, b)` returns
the value of `ReadVariable(var, p)` and caches it: afterwards
`current_def[var][b]` is that value, and no φ (indeed no instruction at all)
has been inserted into `b` — neither by this call nor by the recursive read,
which only ever inserts φs into unsealed or multi-predecessor blocks. -/
theorem read_variable_single_pred (var : SsaVar) (b p : Nat) (st : PassState)
    (fuel : Nat) (r : Value) (st1 : PassState)
    (hdef : lookupDef st var b = none)
    (hseal : b ∈ st.sealedBlocks)
    (hpred : (getBlock st b).preds = [p])
    (hsub : ReadVariable var p st fuel = some (r, st1)) :
    ∃ fuel2, ReadVariable var b st fuel2 = some (r, writeVar var b r st1) ∧
      lookupDef (writeVar var b r st1) var b = some r ∧
      (getBlock (writeVar var b r st1) b).insts = (getBlock st b).insts := by
  obtain ⟨k, hk, hrun⟩ := (runFrame_eq_some_iff var (freshFrame p) st fuel r st1).mp hsub
  -- lift the sub-run onto the base [SetValue frame for b, sentinel]
  obtain ⟨k2, hk2, r2, st2, hrunA, hrunB⟩ :=
    steps_lift var k (freshFrame p) st [sentinelFrame]
      [{ freshFrame b with pc := .SetValue }, sentinelFrame]
      (by simp) (by simp) (by rw [hrun]; simp)
  -- the lifted run computes the same result and state as the original
  have hsame : r2 = r ∧ st2 = st1 := by
    have hA : steps var k ([freshFrame p, sentinelFrame], st) =
        ([{ sentinelFrame with result := r2 }], st2) := by
      conv_lhs => rw [show k = k2 + (k - k2) from by omega]
      rw [steps_add, hrunA]
      exact steps_stable var _ _ (by simp [setResult])
    rw [hrun] at hA
    obtain ⟨h1, h2⟩ := Prod.mk.injEq .. ▸ hA
    constructor
    · have := List.cons.injEq .. ▸ h1
      have hr := congrArg ReadFrame.result this.1
      simpa using hr.symm
    · exact h2.symm
  rw [hsame.1, hsame.2] at hrunA hrunB
  -- first iteration: the Start case pushes the predecessor frame
  have hfirst : stepTop var (freshFrame b) st =
      .push (freshFrame p) { freshFrame b with pc := .SetValue } st := by
    unfold stepTop
    show (match lookupDef st var ((freshFrame b).block.getD 0) with
      | some v => StepRes.pop v (writeVar var ((freshFrame b).block.getD 0) v st)
      | none => _) = _
    rw [show (freshFrame b).block.getD 0 = b from rfl, hdef]
    rw [if_neg (not_not_intro hseal), if_pos (by rw [hpred]; rfl)]
    rw [hpred]
    rfl
  -- final iteration: the SetValue case writes the cache and pops
  have hlast : stepTop var { freshFrame b with pc := .SetValue, result := r } st1 =
      .pop r (writeVar var b r st1) := rfl
  refine ⟨1 + k2 + 1, ?_, lookupDef_writeVar_self var b r st1, ?_⟩
  · unfold ReadVariable
    rw [runFrame_eq_some_iff]
    refine ⟨1 + k2 + 1, le_rfl, ?_⟩
    rw [show 1 + k2 + 1 = 1 + (k2 + 1) from by omega, steps_add,
      steps_succ_of_big var 0 _ (by simp), step_cons, hfirst]
    show steps var (k2 + 1) (([freshFrame p,
      { freshFrame b with pc := .SetValue }, sentinelFrame], st)) = _
    rw [steps_add, hrunB]
    show steps var 1 ([{ freshFrame b with pc := .SetValue, result := r }, sentinelFrame], st1) = _
    rw [steps_succ_of_big var 0 _ (by simp), step_cons, hlast]
    rfl
  · -- the recursive read leaves the sealed single-predecessor block intact
    have hOK : ∀ f ∈ ([freshFrame p, sentinelFrame] : List ReadFrame), FrameOK st f := by
      intro f hf
      rcases List.mem_cons.mp hf with rfl | hf
      · rintro (h | h) <;> exact Status.noConfusion h
      rcases List.mem_cons.mp hf with rfl | hf
      · rintro (h | h) <;> exact Status.noConfusion h
      · cases hf
    have hinv := (steps_inv var k2 [freshFrame p, sentinelFrame] st hOK).1
    rw [hrunA] at hinv
    obtain ⟨-, -, -, hinsts⟩ := hinv
    show (getBlock st1 b).insts = (getBlock st b).insts
    exact hinsts b hseal (by rw [hpred]; rfl)

/-- Two sealed blocks, block 1 with single predecessor block 0, and a
definition of `R3` in block 0, for the C3 witness. -/
def singlePredState : PassState :=
  { blocks := [{}, { preds := [0] }],
    sealedBlocks := [0, 1],
    currentDef := [(SsaVar.reg 3, [(0, Value.u32 42)])] }

/-- C3 witness: reading `R3` in sealed single-predecessor block 1 returns the
value read in block 0 and caches it for block 1. -/
theorem read_variable_single_pred_witness :
    lookupDef singlePredState (.reg 3) 1 = none ∧
      1 ∈ singlePredState.sealedBlocks ∧
      (getBlock singlePredState 1).preds = [0] ∧
      ∃ fuel2, ReadVariable (.reg 3) 1 singlePredState fuel2 =
        some (.u32 42, writeVar (.reg 3) 1 (.u32 42)
          (writeVar (.reg 3) 0 (.u32 42) singlePredState)) := by
  refine ⟨by decide, by decide, by decide, ?_⟩
  obtain ⟨fuel2, h1, -, -⟩ := read_variable_single_pred (.reg 3) 1 0 singlePredState 10
    (.u32 42) (writeVar (.reg 3) 0 (.u32 42) singlePredState)
    (by decide) (by decide) (by decide) (by decide)
  exact ⟨fuel2, h1⟩

/-! ### Primitive lemmas for the cleanliness invariant -/

theorem getInst_append (st : PassState) (x : Inst) (i : Nat) :
    getInst { st with arena := st.arena ++ [x] } i =
      if i < st.arena.length then getInst st i
      else if i = st.arena.length then x else emptyInst := by
  unfold getInst
  by_cases h : i < st.arena.length
  · rw [if_pos h]
    show (st.arena ++ [x]).getD i emptyInst = _
    rw [List.getD_eq_getElem?_getD, List.getD_eq_getElem?_getD,
      List.getElem?_append_left h]
  · rw [if_neg h]
    by_cases he : i = st.arena.length
    · subst he
      rw [if_pos rfl]
      show (st.arena ++ [x]).getD st.arena.length emptyInst = x
      rw [List.getD_eq_getElem?_getD, List.getElem?_append_right le_rfl]
      simp
    · rw [if_neg he]
      show (st.arena ++ [x]).getD i emptyInst = emptyInst
      rw [List.getD_eq_getElem?_getD, List.getElem?_eq_none (by simp; omega)]
      rfl

theorem getInst_modifyInst_self {st : PassState} {j : Nat} {f : Inst → Inst}
    (h : j < st.arena.length) :
    getInst (modifyInst st j f) j = f (getInst st j) := by
  have hg : getInst st j = st.arena[j] := by
    rw [getInst, List.getD_eq_getElem?_getD, List.getElem?_eq_getElem h]
    rfl
  unfold getInst modifyInst
  show (st.arena.set j (f (getInst st j))).getD j emptyInst = _
  rw [List.getD_eq_getElem?_getD, List.getElem?_set_self (by omega)]
  simp [h, hg]

theorem getInst_modifyInst_other {st : PassState} {j i : Nat} {f : Inst → Inst}
    (h : i ≠ j) :
    getInst (modifyInst st j f) i = getInst st i := by
  unfold getInst modifyInst
  show (st.arena.set j (f (getInst st j))).getD i emptyInst = _
  rw [List.getD_eq_getElem?_getD, List.getElem?_set_ne (Ne.symm h), ← List.getD_eq_getElem?_getD]

theorem getInst_modifyInst_oob {st : PassState} {j i : Nat} {f : Inst → Inst}
    (h : ¬ j < st.arena.length) :
    getInst (modifyInst st j f) i = getInst st i := by
  unfold getInst modifyInst
  show (st.arena.set j (f (getInst st j))).getD i emptyInst = _
  rw [List.set_eq_of_length_le (by omega)]

theorem assocFind_assocInsert {α β : Type} [DecidableEq α] (k k' : α) (v : β)
    (l : List (α × β)) :
    assocFind k (assocInsert k' v l) = if k' = k then some v else assocFind k l := by
  induction l with
  | nil =>
    by_cases h : k' = k <;> simp [assocInsert, assocFind, h]
  | cons hd t ih =>
    obtain ⟨k0, v0⟩ := hd
    show assocFind k (if k0 = k' then (k', v) :: t else (k0, v0) :: assocInsert k' v t) = _
    by_cases h0 : k0 = k'
    · rw [if_pos h0]
      show (if k' = k then some v else assocFind k t) = _
      by_cases h : k' = k
      · rw [if_pos h, if_pos h]
      · rw [if_neg h, if_neg h]
        show assocFind k t = if k0 = k then some v0 else assocFind k t
        rw [if_neg (by rw [h0]; exact h)]
    · rw [if_neg h0]
      show (if k0 = k then some v0 else assocFind k (assocInsert k' v t)) = _
      by_cases h1 : k0 = k
      · rw [if_pos h1]
        rw [if_neg (by rw [← h1]; intro hc; exact h0 hc.symm)]
        show some v0 = if k0 = k then some v0 else assocFind k t
        rw [if_pos h1]
      · rw [if_neg h1, ih]
        by_cases h : k' = k
        · rw [if_pos h, if_pos h]
        · rw [if_neg h, if_neg h]
          show assocFind k t = if k0 = k then some v0 else assocFind k t
          rw [if_neg h1]

/-- `WriteVariable` changes only the one definition it writes. -/
theorem lookupDef_writeVar (var var2 : SsaVar) (b b2 : Nat) (v : Value) (st : PassState) :
    lookupDef (writeVar var b v st) var2 b2 =
      if var = var2 ∧ b = b2 then some v else lookupDef st var2 b2 := by
  unfold lookupDef writeVar
  rw [show (({ st with currentDef := (assocInsert var
      (assocInsert b v ((assocFind var st.currentDef).getD [])) st.currentDef) } :
      PassState)).currentDef = assocInsert var
      (assocInsert b v ((assocFind var st.currentDef).getD [])) st.currentDef from rfl,
    assocFind_assocInsert]
  by_cases hv : var = var2
  · subst hv
    rw [if_pos rfl, Option.getD_some, assocFind_assocInsert]
    by_cases hb : b = b2
    · simp [hb]
    · simp [hb]
  · rw [if_neg hv]
    simp [hv]

theorem InstValues_replaceUses (st : PassState) (t : Nat) (v : Value) (i : Nat) :
    InstValues (getInst (replaceUses st t v) i) =
      (InstValues (getInst st i)).map (substValue t v) := by
  unfold InstValues replaceUses getInst
  by_cases h : i < st.arena.length
  · show ((st.arena.map _).getD i emptyInst).args ++ _ = _
    rw [List.getD_eq_getElem?_getD, List.getElem?_map, List.getD_eq_getElem?_getD,
      List.getElem?_eq_getElem h]
    simp [List.map_map, Function.comp]
  · rw [List.getD_eq_getElem?_getD, List.getD_eq_getElem?_getD,
      List.getElem?_eq_none (by simp; omega), List.getElem?_eq_none (by omega)]
    rfl

theorem InstValues_addPhiOperand (st : PassState) (phi p : Nat) (v : Value) (i : Nat) :
    InstValues (getInst (addPhiOperand st phi p v) i) = InstValues (getInst st i) ∨
    (i = phi ∧ InstValues (getInst (addPhiOperand st phi p v) i) =
      InstValues (getInst st i) ++ [v]) := by
  by_cases hij : i = phi
  · subst hij
    by_cases h : i < st.arena.length
    · refine .inr ⟨rfl, ?_⟩
      rw [show addPhiOperand st i p v = modifyInst st i
        (fun inst => { inst with phiArgs := inst.phiArgs ++ [(p, v)] }) from rfl,
        getInst_modifyInst_self h]
      unfold InstValues
      simp
    · exact .inl (by rw [show addPhiOperand st i p v = modifyInst st i
        (fun inst => { inst with phiArgs := inst.phiArgs ++ [(p, v)] }) from rfl,
        getInst_modifyInst_oob h])
  · exact .inl (by rw [show addPhiOperand st phi p v = modifyInst st phi
      (fun inst => { inst with phiArgs := inst.phiArgs ++ [(p, v)] }) from rfl,
      getInst_modifyInst_other hij])

theorem substValue_mem_cases {t : Nat} {v x y : Value} (h : y = substValue t v x) :
    y = v ∨ (y = x ∧ x ≠ .instRef t) := by
  unfold substValue at h
  by_cases hx : x = Value.instRef t
  · rw [if_pos hx] at h
    exact .inl h
  · rw [if_neg hx] at h
    exact .inr ⟨h, hx⟩

theorem filter_erase_not {l : List Nat} {a : Nat} {p : Nat → Bool} (hp : p a = false) :
    (l.erase a).filter p = l.filter p := by
  induction l with
  | nil => rfl
  | cons b t ih =>
    by_cases hb : b = a
    · subst hb
      rw [List.erase_cons_head, List.filter_cons, hp]
      simp
    · rw [List.erase_cons_tail (by simp [hb]), List.filter_cons, List.filter_cons]
      by_cases hpb : p b <;> simp [hpb, ih]

theorem getInst_oob (st : PassState) (i : Nat) (h : ¬ i < st.arena.length) :
    getInst st i = emptyInst := by
  rw [getInst, List.getD_eq_getElem?_getD, List.getElem?_eq_none (by omega)]
  rfl

theorem InstValues_emptyInst : InstValues emptyInst = [] := rfl

theorem mem_sortedInsertVar {var : SsaVar} {phi : Nat} {l : List (SsaVar × Nat)}
    {e : SsaVar × Nat} (h : e ∈ sortedInsertVar var phi l) : e = (var, phi) ∨ e ∈ l := by
  induction l with
  | nil => simpa [sortedInsertVar] using h
  | cons hd t ih =>
    unfold sortedInsertVar at h
    by_cases h1 : SsaVar.lt var hd.1
    · rw [if_pos h1] at h
      rcases List.mem_cons.mp h with rfl | h
      · exact .inl rfl
      · exact .inr h
    · rw [if_neg h1] at h
      by_cases h2 : hd.1 = var
      · rw [if_pos h2] at h
        rcases List.mem_cons.mp h with rfl | h
        · exact .inl rfl
        · exact .inr (by simp [h])
      · rw [if_neg h2] at h
        rcases List.mem_cons.mp h with rfl | h
        · exact .inr (by simp)
        · rcases ih h with h | h
          · exact .inl h
          · exact .inr (by simp [h])

theorem getBlock_modify_self2 (st1 st : PassState) (b : Nat) (f : Block → Block)
    (hblocks : st1.blocks = st.blocks) (hr : b < st.blocks.length) :
    getBlock (modifyBlock st1 b f) b = f (getBlock st b) := by
  have hr1 : b < st1.blocks.length := by rw [hblocks]; exact hr
  rw [getBlock_modifyBlock_self hr1, getBlock, getBlock, hblocks]

theorem getBlock_modify_oob2 (st1 st : PassState) (b : Nat) (f : Block → Block)
    (hblocks : st1.blocks = st.blocks) (hr : ¬ b < st.blocks.length) (z : Nat) :
    getBlock (modifyBlock st1 b f) z = getBlock st z := by
  have hr1 : ¬ b < st1.blocks.length := by rw [hblocks]; exact hr
  rw [getBlock_modifyBlock_oob hr1, getBlock, getBlock, hblocks]

theorem getBlock_modify_other2 (st1 st : PassState) (b : Nat) (f : Block → Block)
    (hblocks : st1.blocks = st.blocks) (z : Nat) (hz : z ≠ b) :
    getBlock (modifyBlock st1 b f) z = getBlock st z := by
  rw [getBlock_modifyBlock_other hz, getBlock, getBlock, hblocks]

/-! ### Preservation of the cleanliness invariant by each state mutation -/

theorem Inv_writeVar {G V : List Nat} {st0 st : PassState} (h : Inv G V st0 st)
    (var : SsaVar) (b : Nat) (v : Value) (hv : CleanVal G v) :
    Inv G V st0 (writeVar var b v st) := by
  refine ⟨h.noVisitedRefs, h.refsFromInitial, ?_, h.pendingPhisNew, h.arenaGrows,
    h.opcodesStable, h.arg0Stable, h.instsStable⟩
  intro var2 b2 w hw
  rw [lookupDef_writeVar] at hw
  by_cases hc : var = var2 ∧ b = b2
  · rw [if_pos hc] at hw
    cases hw
    exact hv
  · rw [if_neg hc] at hw
    exact h.defsClean var2 b2 w hw

theorem Inv_prependPhi {G V : List Nat} {st0 st : PassState} (h : Inv G V st0 st) (b : Nat) :
    Inv G V st0 (prependPhi st b).2 ∧ st0.arena.length ≤ (prependPhi st b).1 := by
  have harena : ∀ i, getInst (prependPhi st b).2 i =
      getInst { st with arena := st.arena ++ [{ opcode := .Phi }] } i := fun i => rfl
  have hcases : ∀ i v, v ∈ InstValues (getInst (prependPhi st b).2 i) →
      v ∈ InstValues (getInst st i) := by
    intro i v hv
    rw [harena, getInst_append] at hv
    by_cases h1 : i < st.arena.length
    · rwa [if_pos h1] at hv
    · rw [if_neg h1] at hv
      by_cases h2 : i = st.arena.length
      · rw [if_pos h2] at hv
        cases hv
      · rw [if_neg h2] at hv
        cases hv
  refine ⟨⟨?_, ?_, h.defsClean, h.pendingPhisNew, ?_, ?_, ?_, ?_⟩, h.arenaGrows⟩
  · intro i v hv
    exact h.noVisitedRefs i v (hcases i v hv)
  · intro i v g hv hg heq
    exact h.refsFromInitial i v g (hcases i v hv) hg heq
  · show st0.arena.length ≤ ((prependPhi st b).2).arena.length
    have hl : ((prependPhi st b).2).arena.length = st.arena.length + 1 := by
      simp [prependPhi, modifyBlock]
    rw [hl]
    have := h.arenaGrows
    omega
  · intro i
    rw [harena, getInst_append]
    by_cases h1 : i < st.arena.length
    · rw [if_pos h1]
      exact h.opcodesStable i
    · rw [if_neg h1]
      by_cases h2 : i = st.arena.length
      · rw [if_pos h2]
        refine .inr ⟨by have := h.arenaGrows; omega, .inl rfl⟩
      · rw [if_neg h2]
        rw [getInst_oob st0 i (by have := h.arenaGrows; omega)]
        exact .inl rfl
  · intro i hi
    rw [harena, getInst_append]
    by_cases h1 : i < st.arena.length
    · rw [if_pos h1]
      exact h.arg0Stable i hi
    · rw [if_neg h1]
      rw [getInst_oob st0 i (by have := h.arenaGrows; omega)]
      split_ifs <;> rfl
  · intro z
    have hstep : (getBlock (prependPhi st b).2 z).insts = (getBlock st z).insts ∨
        (getBlock (prependPhi st b).2 z).insts = st.arena.length :: (getBlock st z).insts := by
      show (getBlock (modifyBlock { st with arena := st.arena ++ [{ opcode := .Phi }] } b
          (fun blk => { blk with insts := st.arena.length :: blk.insts })) z).insts =
          (getBlock st z).insts ∨
        (getBlock (modifyBlock { st with arena := st.arena ++ [{ opcode := .Phi }] } b
          (fun blk => { blk with insts := st.arena.length :: blk.insts })) z).insts =
          st.arena.length :: (getBlock st z).insts
      by_cases hz : z = b
      · subst hz
        by_cases hr : z < st.blocks.length
        · have he := getBlock_modify_self2 { st with arena := st.arena ++ [{ opcode := .Phi }] }
            st z (fun blk => { blk with insts := st.arena.length :: blk.insts }) rfl hr
          rw [he]
          exact .inr rfl
        · have he := getBlock_modify_oob2 { st with arena := st.arena ++ [{ opcode := .Phi }] }
            st z (fun blk => { blk with insts := st.arena.length :: blk.insts }) rfl hr z
          rw [he]
          exact .inl rfl
      · have he := getBlock_modify_other2 { st with arena := st.arena ++ [{ opcode := .Phi }] }
          st b (fun blk => { blk with insts := st.arena.length :: blk.insts }) rfl z hz
        rw [he]
        exact .inl rfl
    rcases hstep with he | he
    · rw [he]
      exact h.instsStable z
    · rw [he, List.filter_cons]
      have : decide (st.arena.length < st0.arena.length) = false := by
        have := h.arenaGrows
        simp
        omega
      rw [this]
      simp only [Bool.false_eq_true, if_false]
      exact h.instsStable z

theorem Inv_insertIncomplete {G V : List Nat} {st0 st : PassState} (h : Inv G V st0 st)
    (b : Nat) (var : SsaVar) (phiId : Nat) (hphi : st0.arena.length ≤ phiId) :
    Inv G V st0 { st with incompletePhis := (assocInsert b
      (sortedInsertVar var phiId ((assocFind b st.incompletePhis).getD []))
      st.incompletePhis) } := by
  refine ⟨h.noVisitedRefs, h.refsFromInitial, h.defsClean, ?_, h.arenaGrows,
    h.opcodesStable, h.arg0Stable, h.instsStable⟩
  intro b2 l hl e he
  rw [show ({ st with incompletePhis := (assocInsert b
      (sortedInsertVar var phiId ((assocFind b st.incompletePhis).getD []))
      st.incompletePhis) } : PassState).incompletePhis =
      assocInsert b (sortedInsertVar var phiId ((assocFind b st.incompletePhis).getD []))
        st.incompletePhis from rfl, assocFind_assocInsert] at hl
  by_cases hb : b = b2
  · rw [if_pos hb] at hl
    cases hl
    rcases mem_sortedInsertVar he with rfl | he
    · exact hphi
    · cases hfind : assocFind b st.incompletePhis with
      | some old =>
        rw [hfind] at he
        exact h.pendingPhisNew b old hfind e he
      | none =>
        rw [hfind] at he
        cases he
  · rw [if_neg hb] at hl
    exact h.pendingPhisNew b2 l hl e he

theorem opcode_addPhiOperand (st : PassState) (phi p : Nat) (v : Value) (i : Nat) :
    (getInst (addPhiOperand st phi p v) i).opcode = (getInst st i).opcode := by
  by_cases hij : i = phi
  · subst hij
    by_cases hr : i < st.arena.length
    · rw [show addPhiOperand st i p v = modifyInst st i
        (fun inst => { inst with phiArgs := inst.phiArgs ++ [(p, v)] }) from rfl,
        getInst_modifyInst_self hr]
    · rw [show addPhiOperand st i p v = modifyInst st i
        (fun inst => { inst with phiArgs := inst.phiArgs ++ [(p, v)] }) from rfl,
        getInst_modifyInst_oob hr]
  · rw [show addPhiOperand st phi p v = modifyInst st phi
      (fun inst => { inst with phiArgs := inst.phiArgs ++ [(p, v)] }) from rfl,
      getInst_modifyInst_other hij]

theorem args_addPhiOperand (st : PassState) (phi p : Nat) (v : Value) (i : Nat) :
    (getInst (addPhiOperand st phi p v) i).args = (getInst st i).args := by
  by_cases hij : i = phi
  · subst hij
    by_cases hr : i < st.arena.length
    · rw [show addPhiOperand st i p v = modifyInst st i
        (fun inst => { inst with phiArgs := inst.phiArgs ++ [(p, v)] }) from rfl,
        getInst_modifyInst_self hr]
    · rw [show addPhiOperand st i p v = modifyInst st i
        (fun inst => { inst with phiArgs := inst.phiArgs ++ [(p, v)] }) from rfl,
        getInst_modifyInst_oob hr]
  · rw [show addPhiOperand st phi p v = modifyInst st phi
      (fun inst => { inst with phiArgs := inst.phiArgs ++ [(p, v)] }) from rfl,
      getInst_modifyInst_other hij]

theorem Inv_addPhiOperand {G V : List Nat} {st0 st : PassState} (h : Inv G V st0 st)
    (phi p : Nat) (v : Value) (hv : CleanVal G v) (hVG : ∀ g ∈ V, g ∈ G) :
    Inv G V st0 (addPhiOperand st phi p v) := by
  have hcases : ∀ i w, w ∈ InstValues (getInst (addPhiOperand st phi p v) i) →
      w ∈ InstValues (getInst st i) ∨ w = v := by
    intro i w hw
    rcases InstValues_addPhiOperand st phi p v i with he | ⟨-, he⟩
    · rw [he] at hw
      exact .inl hw
    · rw [he] at hw
      rcases List.mem_append.mp hw with hw | hw
      · exact .inl hw
      · exact .inr (by simpa using hw)
  refine ⟨?_, ?_, h.defsClean, h.pendingPhisNew, ?_, ?_, ?_, h.instsStable⟩
  · intro i w hw g hg
    rcases hcases i w hw with hw | rfl
    · exact h.noVisitedRefs i w hw g hg
    · exact hv g (hVG g hg)
  · intro i w g hw hg heq
    rcases hcases i w hw with hw | rfl
    · exact h.refsFromInitial i w g hw hg heq
    · exact absurd heq (hv g hg)
  · show st0.arena.length ≤ (modifyInst st phi _).arena.length
    rw [show ∀ (f : Inst → Inst), (modifyInst st phi f).arena.length = st.arena.length from
      fun f => by simp [modifyInst]]
    exact h.arenaGrows
  · intro i
    rw [opcode_addPhiOperand]
    exact h.opcodesStable i
  · intro i hi
    rw [args_addPhiOperand]
    exact h.arg0Stable i hi

theorem opcode_replaceUses (st : PassState) (t : Nat) (v : Value) (i : Nat) :
    (getInst (replaceUses st t v) i).opcode = (getInst st i).opcode := by
  unfold replaceUses getInst
  by_cases h : i < st.arena.length
  · show ((st.arena.map _).getD i emptyInst).opcode = _
    rw [List.getD_eq_getElem?_getD, List.getElem?_map, List.getD_eq_getElem?_getD,
      List.getElem?_eq_getElem h]
    rfl
  · show ((st.arena.map _).getD i emptyInst).opcode = _
    rw [List.getD_eq_getElem?_getD, List.getD_eq_getElem?_getD,
      List.getElem?_eq_none (by simp; omega), List.getElem?_eq_none (by omega)]

theorem args_replaceUses (st : PassState) (t : Nat) (v : Value) (i : Nat) :
    (getInst (replaceUses st t v) i).args = ((getInst st i).args).map (substValue t v) := by
  unfold replaceUses getInst
  by_cases h : i < st.arena.length
  · show ((st.arena.map _).getD i emptyInst).args = _
    rw [List.getD_eq_getElem?_getD, List.getElem?_map, List.getD_eq_getElem?_getD,
      List.getElem?_eq_getElem h]
    rfl
  · show ((st.arena.map _).getD i emptyInst).args = _
    rw [List.getD_eq_getElem?_getD, List.getD_eq_getElem?_getD,
      List.getElem?_eq_none (by simp; omega), List.getElem?_eq_none (by omega)]
    rfl

theorem getD_zero_map_subst (t : Nat) (v : Value) (l : List Value) :
    (l.map (substValue t v)).getD 0 .empty = substValue t v (l.getD 0 .empty) := by
  cases l with
  | nil => simp [substValue]
  | cons a l => rfl

theorem findSame_mem (phi : Nat) :
    ∀ (ops : List Value) (acc v : Value), findSame phi ops acc = some v →
      v = acc ∨ v ∈ ops := by
  intro ops
  induction ops with
  | nil =>
    intro acc v h
    cases h
    exact .inl rfl
  | cons op rest ih =>
    intro acc v h
    show v = acc ∨ v ∈ op :: rest
    unfold findSame at h
    by_cases h1 : op = acc ∨ op = Value.instRef phi
    · rw [if_pos h1] at h
      rcases ih acc v h with h | h
      · exact .inl h
      · exact .inr (by simp [h])
    · rw [if_neg h1] at h
      by_cases h2 : ¬ acc.isEmpty
      · rw [if_pos h2] at h
        cases h
      · rw [if_neg h2] at h
        rcases ih op v h with rfl | h
        · exact .inr (by simp)
        · exact .inr (by simp [h])

/-- Instructions created by the pass (arena index at or above the input
arena length) hold only values without references into `G`. -/
theorem Inv_clean_of_new {G V : List Nat} {st0 st : PassState} (h : Inv G V st0 st)
    (i : Nat) (hi : st0.arena.length ≤ i) :
    ∀ v ∈ InstValues (getInst st i), CleanVal G v := by
  intro v hv g hg heq
  have hmem := h.refsFromInitial i v g hv hg heq
  rw [getInst_oob st0 i (by omega)] at hmem
  cases hmem

theorem Inv_replaceUses {G V : List Nat} {st0 st : PassState} (h : Inv G V st0 st)
    (t : Nat) (v : Value) (hv : CleanVal G v) (hVG : ∀ g ∈ V, g ∈ G) :
    Inv G V st0 (replaceUses st t v) := by
  refine ⟨?_, ?_, h.defsClean, h.pendingPhisNew, ?_, ?_, ?_, h.instsStable⟩
  · intro i w hw g hg
    rw [InstValues_replaceUses] at hw
    obtain ⟨x, hx, hxw⟩ := List.mem_map.mp hw
    rcases substValue_mem_cases hxw.symm with rfl | ⟨rfl, -⟩
    · exact hv g (hVG g hg)
    · exact h.noVisitedRefs i w hx g hg
  · intro i w g hw hg heq
    rw [InstValues_replaceUses] at hw
    obtain ⟨x, hx, hxw⟩ := List.mem_map.mp hw
    rcases substValue_mem_cases hxw.symm with rfl | ⟨rfl, -⟩
    · exact absurd heq (hv g hg)
    · exact h.refsFromInitial i w g hx hg heq
  · show st0.arena.length ≤ (st.arena.map _).length
    rw [List.length_map]
    exact h.arenaGrows
  · intro i
    rw [opcode_replaceUses]
    exact h.opcodesStable i
  · intro i hi
    rw [args_replaceUses, getD_zero_map_subst, h.arg0Stable i hi]
    unfold substValue
    rw [if_neg (hi t)]

theorem Inv_replaceUses_visit {G V : List Nat} {st0 st : PassState} (h : Inv G V st0 st)
    (g0 : Nat) (v : Value) (hg0 : g0 ∈ G) (hv : CleanVal G v) (hVG : ∀ g ∈ V, g ∈ G) :
    Inv G (g0 :: V) st0 (replaceUses st g0 v) := by
  have hbase := Inv_replaceUses h g0 v hv hVG
  refine ⟨?_, hbase.refsFromInitial, hbase.defsClean, hbase.pendingPhisNew, hbase.arenaGrows,
    hbase.opcodesStable, hbase.arg0Stable, hbase.instsStable⟩
  intro i w hw g hg
  rcases List.mem_cons.mp hg with rfl | hg
  · rw [InstValues_replaceUses] at hw
    obtain ⟨x, hx, hxw⟩ := List.mem_map.mp hw
    rcases substValue_mem_cases hxw.symm with rfl | ⟨rfl, hne⟩
    · exact hv g hg0
    · exact hne
  · exact hbase.noVisitedRefs i w hw g hg

theorem Inv_appendInst {G V : List Nat} {st0 st : PassState} (h : Inv G V st0 st)
    (op : Opcode) (hop : op = .UndefU1 ∨ op = .UndefU32) :
    Inv G V st0 { st with arena := st.arena ++ [{ opcode := op }] } := by
  have hcases : ∀ i v, v ∈ InstValues (getInst { st with
      arena := st.arena ++ [{ opcode := op }] } i) → v ∈ InstValues (getInst st i) := by
    intro i v hv
    rw [getInst_append] at hv
    by_cases h1 : i < st.arena.length
    · rwa [if_pos h1] at hv
    · rw [if_neg h1] at hv
      by_cases h2 : i = st.arena.length
      · rw [if_pos h2] at hv
        cases hv
      · rw [if_neg h2] at hv
        cases hv
  refine ⟨?_, ?_, h.defsClean, h.pendingPhisNew, ?_, ?_, ?_, h.instsStable⟩
  · intro i v hv
    exact h.noVisitedRefs i v (hcases i v hv)
  · intro i v g hv hg heq
    exact h.refsFromInitial i v g (hcases i v hv) hg heq
  · show st0.arena.length ≤ (st.arena ++ _).length
    rw [List.length_append]
    have := h.arenaGrows
    simp
    omega
  · intro i
    rw [getInst_append]
    by_cases h1 : i < st.arena.length
    · rw [if_pos h1]
      exact h.opcodesStable i
    · rw [if_neg h1]
      by_cases h2 : i = st.arena.length
      · rw [if_pos h2]
        rcases hop with rfl | rfl
        · exact .inr ⟨by have := h.arenaGrows; omega, .inr (.inl rfl)⟩
        · exact .inr ⟨by have := h.arenaGrows; omega, .inr (.inr rfl)⟩
      · rw [if_neg h2]
        rw [getInst_oob st0 i (by have := h.arenaGrows; omega)]
        exact .inl rfl
  · intro i hi
    rw [getInst_append]
    by_cases h1 : i < st.arena.length
    · rw [if_pos h1]
      exact h.arg0Stable i hi
    · rw [if_neg h1]
      rw [getInst_oob st0 i (by have := h.arenaGrows; omega)]
      split_ifs <;> rfl

theorem Inv_modifyInsts {G V : List Nat} {st0 st : PassState} (h : Inv G V st0 st)
    (b : Nat) (newInsts : List Nat)
    (hfilter : newInsts.filter (fun i => decide (i < st0.arena.length)) =
      (getBlock st b).insts.filter (fun i => decide (i < st0.arena.length))) :
    Inv G V st0 (modifyBlock st b (fun blk => { blk with insts := newInsts })) := by
  refine ⟨h.noVisitedRefs, h.refsFromInitial, h.defsClean, h.pendingPhisNew, h.arenaGrows,
    h.opcodesStable, h.arg0Stable, ?_⟩
  intro z
  by_cases hz : z = b
  · subst hz
    by_cases hr : z < st.blocks.length
    · have he := getBlock_modify_self2 st st z (fun blk => { blk with insts := newInsts }) rfl hr
      rw [he]
      show newInsts.filter _ = _
      rw [hfilter]
      exact h.instsStable z
    · have he := getBlock_modify_oob2 st st z (fun blk => { blk with insts := newInsts }) rfl hr z
      rw [he]
      exact h.instsStable z
  · have he := getBlock_modify_other2 st st b (fun blk => { blk with insts := newInsts }) rfl z hz
    rw [he]
    exact h.instsStable z

theorem Inv_tryRemoveTrivialPhi {G V : List Nat} {st0 st : PassState} (h : Inv G V st0 st)
    (phi b : Nat) (u : Opcode) (hphi : st0.arena.length ≤ phi)
    (hu : u = .UndefU1 ∨ u = .UndefU32)
    (hVG : ∀ g ∈ V, g ∈ G) (hGN : ∀ g ∈ G, g < st0.arena.length) :
    Inv G V st0 (TryRemoveTrivialPhi st phi b u).2 ∧
      CleanVal G (TryRemoveTrivialPhi st phi b u).1 := by
  have hphiclean : ∀ v ∈ InstValues (getInst st phi), CleanVal G v := Inv_clean_of_new h phi hphi
  unfold TryRemoveTrivialPhi
  cases hf : findSame phi ((getInst st phi).phiArgs.map Prod.snd) .empty with
  | none =>
    refine ⟨h, fun g hg heq => ?_⟩
    have : phi = g := by
      cases heq
      rfl
    have := hGN g hg
    omega
  | some same =>
    have hsameclean : CleanVal G same := by
      rcases findSame_mem phi _ _ same hf with rfl | hm
      · intro g hg heq
        cases heq
      · exact hphiclean same (List.mem_append.mpr (.inr hm))
    by_cases hie : same.isEmpty
    · simp only [hie, if_true]
      have hinv1 : Inv G V st0 { st with arena := st.arena ++ [{ opcode := u }] } :=
        Inv_appendInst h u hu
      have hufresh : CleanVal G (.instRef st.arena.length) := by
        intro g hg heq
        have hlt := hGN g hg
        have := h.arenaGrows
        cases heq
        omega
      have hinv2 : Inv G V st0 (modifyBlock { st with arena := st.arena ++ [{ opcode := u }] } b
          (fun blk => { blk with insts :=
            ((getBlock st b).insts.erase phi).takeWhile (isPhiInst st) ++
              st.arena.length :: phi ::
              ((getBlock st b).insts.erase phi).dropWhile (isPhiInst st) })) := by
        refine Inv_modifyInsts hinv1 b _ ?_
        rw [List.filter_append, List.filter_cons, List.filter_cons]
        have hu' : decide (st.arena.length < st0.arena.length) = false := by
          have := h.arenaGrows
          simp
          omega
        have hphi' : decide (phi < st0.arena.length) = false := by
          simp
          omega
        rw [hu', hphi']
        simp only [Bool.false_eq_true, if_false]
        rw [← List.filter_append, List.takeWhile_append_dropWhile,
          filter_erase_not (by simp; omega)]
        rfl
      exact ⟨Inv_replaceUses hinv2 phi (.instRef st.arena.length) hufresh hVG, hufresh⟩
    · simp only [hie, if_false]
      exact ⟨Inv_replaceUses h phi same hsameclean hVG, hsameclean⟩

theorem UndefOpcode_cases (var : SsaVar) :
    UndefOpcode var = .UndefU1 ∨ UndefOpcode var = .UndefU32 := by
  cases var <;> first | exact .inl rfl | exact .inr rfl

theorem CleanVal_empty (G : List Nat) : CleanVal G .empty :=
  fun _ _ heq => Value.noConfusion heq

/-- Cleanliness of a machine frame: the cached result holds no reference
into `G`, and in the φ-operand states the frame's φ is pass-created. -/
def FrameClean (G : List Nat) (n0 : Nat) (f : ReadFrame) : Prop :=
  CleanVal G f.result ∧
    ((f.pc = .PushPhiArgument ∨ f.pc = .PreparePhiArgument) → n0 ≤ f.phi)

theorem freshFrame_clean (G : List Nat) (n0 b : Nat) : FrameClean G n0 (freshFrame b) :=
  ⟨CleanVal_empty G, fun hpc => by rcases hpc with h | h <;> cases h⟩

theorem sentinelFrame_clean (G : List Nat) (n0 : Nat) : FrameClean G n0 sentinelFrame :=
  ⟨CleanVal_empty G, fun hpc => by rcases hpc with h | h <;> cases h⟩

/-- What one loop iteration guarantees for cleanliness: the new state still
satisfies `Inv`, pushed frames are clean, popped results are clean. -/
def StepResClean (G V : List Nat) (st0 : PassState) : StepRes → Prop
  | .push next top' st' => Inv G V st0 st' ∧
      FrameClean G st0.arena.length next ∧ FrameClean G st0.arena.length top'
  | .pop r st' => Inv G V st0 st' ∧ CleanVal G r

theorem preparePhiOperand_clean {G V : List Nat} {st0 : PassState} (var : SsaVar)
    (top : ReadFrame) (st : PassState) (h : Inv G V st0 st)
    (hres : CleanVal G top.result) (hphi : st0.arena.length ≤ top.phi)
    (hVG : ∀ g ∈ V, g ∈ G) (hGN : ∀ g ∈ G, g < st0.arena.length) :
    StepResClean G V st0 (preparePhiOperand var top st) := by
  unfold preparePhiOperand
  by_cases hpe : top.predIt = top.predEnd
  · rw [if_pos hpe]
    obtain ⟨hinv, hclean⟩ := Inv_tryRemoveTrivialPhi h top.phi (top.block.getD 0)
      (UndefOpcode var) hphi (UndefOpcode_cases var) hVG hGN
    exact ⟨Inv_writeVar hinv var (top.block.getD 0) _ hclean, hclean⟩
  · rw [if_neg hpe]
    refine ⟨h, freshFrame_clean G st0.arena.length _, hres, fun _ => hphi⟩

theorem stepTop_clean {G V : List Nat} {st0 : PassState} (var : SsaVar) (top : ReadFrame)
    (st : PassState) (h : Inv G V st0 st) (htop : FrameClean G st0.arena.length top)
    (hVG : ∀ g ∈ V, g ∈ G) (hGN : ∀ g ∈ G, g < st0.arena.length) :
    StepResClean G V st0 (stepTop var top st) := by
  obtain ⟨blk, res, phi0, pit, pend, pc⟩ := top
  obtain ⟨hres, hphi⟩ := htop
  cases pc with
  | Start =>
    show StepResClean G V st0
      (match lookupDef st var (blk.getD 0) with
      | some v => StepRes.pop v (writeVar var (blk.getD 0) v st)
      | none =>
        if blk.getD 0 ∉ st.sealedBlocks then
          StepRes.pop (.instRef (prependPhi st (blk.getD 0)).1)
            (writeVar var (blk.getD 0) (.instRef (prependPhi st (blk.getD 0)).1)
              { (prependPhi st (blk.getD 0)).2 with incompletePhis := (assocInsert (blk.getD 0)
                  (sortedInsertVar var (prependPhi st (blk.getD 0)).1
                    ((assocFind (blk.getD 0) (prependPhi st (blk.getD 0)).2.incompletePhis).getD []))
                  (prependPhi st (blk.getD 0)).2.incompletePhis) })
        else if (getBlock st (blk.getD 0)).preds.length = 1 then
          StepRes.push (freshFrame ((getBlock st (blk.getD 0)).preds.getD 0 0))
            { block := blk, result := res, phi := phi0, predIt := pit, predEnd := pend,
              pc := .SetValue } st
        else
          preparePhiOperand var
            { block := blk, result := res, phi := (prependPhi st (blk.getD 0)).1, predIt := 0,
              predEnd := (getBlock (writeVar var (blk.getD 0)
                  (.instRef (prependPhi st (blk.getD 0)).1) (prependPhi st (blk.getD 0)).2)
                (blk.getD 0)).preds.length,
              pc := .Start }
            (writeVar var (blk.getD 0) (.instRef (prependPhi st (blk.getD 0)).1)
              (prependPhi st (blk.getD 0)).2))
    cases hdef : lookupDef st var (blk.getD 0) with
    | some v =>
      have hv := h.defsClean var (blk.getD 0) v hdef
      exact ⟨Inv_writeVar h var (blk.getD 0) v hv, hv⟩
    | none =>
      obtain ⟨hppInv, hppId⟩ := Inv_prependPhi h (blk.getD 0)
      have hfresh : CleanVal G (.instRef (prependPhi st (blk.getD 0)).1) := by
        intro g hg heq
        have h1 := hGN g hg
        have h2 : (prependPhi st (blk.getD 0)).1 = g := by injection heq
        omega
      by_cases hseal : blk.getD 0 ∈ st.sealedBlocks
      · rw [if_neg (not_not_intro hseal)]
        by_cases hlen : (getBlock st (blk.getD 0)).preds.length = 1
        · rw [if_pos hlen]
          exact ⟨h, freshFrame_clean G st0.arena.length _,
            hres, fun hpc => by rcases hpc with hh | hh <;> cases hh⟩
        · rw [if_neg hlen]
          exact preparePhiOperand_clean var _ _
            (Inv_writeVar hppInv var (blk.getD 0) _ hfresh) hres hppId hVG hGN
      · rw [if_pos hseal]
        exact ⟨Inv_writeVar (Inv_insertIncomplete hppInv (blk.getD 0) var _ hppId)
          var (blk.getD 0) _ hfresh, hfresh⟩
  | SetValue => exact ⟨Inv_writeVar h var (blk.getD 0) res hres, hres⟩
  | PushPhiArgument =>
    show StepResClean G V st0
      (preparePhiOperand var
        { block := blk, result := res, phi := phi0, predIt := pit + 1, predEnd := pend,
          pc := .PushPhiArgument }
        (addPhiOperand st phi0 ((getBlock st (blk.getD 0)).preds.getD pit 0) res))
    exact preparePhiOperand_clean var _ _ (Inv_addPhiOperand h phi0 _ res hres hVG)
      hres (hphi (.inl rfl)) hVG hGN
  | PreparePhiArgument =>
    exact preparePhiOperand_clean var _ st h hres (hphi (.inr rfl)) hVG hGN

theorem step_clean {G V : List Nat} {st0 : PassState} (var : SsaVar) (stack : List ReadFrame)
    (st : PassState) (h : Inv G V st0 st)
    (hcl : ∀ f ∈ stack, FrameClean G st0.arena.length f)
    (hVG : ∀ g ∈ V, g ∈ G) (hGN : ∀ g ∈ G, g < st0.arena.length) :
    Inv G V st0 (step var (stack, st)).2 ∧
      ∀ f ∈ (step var (stack, st)).1, FrameClean G st0.arena.length f := by
  match stack with
  | [] => exact ⟨h, fun f hf => absurd hf (List.not_mem_nil f)⟩
  | top :: rest =>
    rw [step_cons]
    have hstep0 := stepTop_clean var top st h (hcl top (by simp)) hVG hGN
    cases hstep : stepTop var top st with
    | push next top' st' =>
      rw [hstep] at hstep0
      obtain ⟨hinv, hnext, htop'⟩ := hstep0
      refine ⟨hinv, ?_⟩
      intro f hf
      rcases List.mem_cons.mp hf with rfl | hf
      · exact hnext
      rcases List.mem_cons.mp hf with rfl | hf
      · exact htop'
      · exact hcl f (by simp [hf])
    | pop r st' =>
      rw [hstep] at hstep0
      obtain ⟨hinv, hr⟩ := hstep0
      refine ⟨hinv, ?_⟩
      intro f hf
      cases rest with
      | nil => cases hf
      | cons g gs =>
        rcases List.mem_cons.mp hf with rfl | hf
        · exact ⟨hr, (hcl g (by simp)).2⟩
        · exact hcl f (by simp [hf])

theorem steps_clean {G V : List Nat} {st0 : PassState} (var : SsaVar) (n : Nat)
    (stack : List ReadFrame) (st : PassState) (h : Inv G V st0 st)
    (hcl : ∀ f ∈ stack, FrameClean G st0.arena.length f)
    (hVG : ∀ g ∈ V, g ∈ G) (hGN : ∀ g ∈ G, g < st0.arena.length) :
    Inv G V st0 (steps var n (stack, st)).2 ∧
      ∀ f ∈ (steps var n (stack, st)).1, FrameClean G st0.arena.length f := by
  induction n generalizing stack st with
  | zero => exact ⟨h, hcl⟩
  | succ m ih =>
    by_cases hlen : ((stack, st) : List ReadFrame × PassState).1.length ≤ 1
    · rw [steps_stable var _ _ hlen]
      exact ⟨h, hcl⟩
    · rw [steps_succ_of_big var m _ hlen]
      obtain ⟨hinv1, hcl1⟩ := step_clean var stack st h hcl hVG hGN
      rcases hc : step var (stack, st) with ⟨stack', st'⟩
      rw [hc] at hinv1 hcl1
      exact ih stack' st' hinv1 hcl1

/-- A successful `ReadVariable` preserves the cleanliness invariant and
returns a value holding no reference into `G`. -/
theorem ReadVariable_clean {G V : List Nat} {st0 st : PassState} (h : Inv G V st0 st)
    (var : SsaVar) (b fuel : Nat) (v : Value) (st' : PassState)
    (hrun : ReadVariable var b st fuel = some (v, st'))
    (hVG : ∀ g ∈ V, g ∈ G) (hGN : ∀ g ∈ G, g < st0.arena.length) :
    Inv G V st0 st' ∧ CleanVal G v := by
  unfold ReadVariable at hrun
  rw [runFrame_eq_some_iff] at hrun
  obtain ⟨k, hk, hrun⟩ := hrun
  have hstack : ∀ f ∈ [freshFrame b, sentinelFrame], FrameClean G st0.arena.length f := by
    intro f hf
    rcases List.mem_cons.mp hf with rfl | hf
    · exact freshFrame_clean G st0.arena.length b
    rcases List.mem_cons.mp hf with rfl | hf
    · exact sentinelFrame_clean G st0.arena.length
    · cases hf
  have hcl := steps_clean var k [freshFrame b, sentinelFrame] st h hstack hVG hGN
  rw [hrun] at hcl
  obtain ⟨hinv, hframes⟩ := hcl
  exact ⟨hinv, (hframes { sentinelFrame with result := v } (by simp)).1⟩

theorem Inv_setSealed {G V : List Nat} {st0 st : PassState} (h : Inv G V st0 st)
    (s : List Nat) : Inv G V st0 { st with sealedBlocks := s } :=
  ⟨h.noVisitedRefs, h.refsFromInitial, h.defsClean, h.pendingPhisNew, h.arenaGrows,
    h.opcodesStable, h.arg0Stable, h.instsStable⟩

theorem Inv_mono_V {G V V2 : List Nat} {st0 st : PassState} (h : Inv G V st0 st)
    (hsub : ∀ g, g ∈ V2 → g ∈ V) : Inv G V2 st0 st :=
  ⟨fun i v hv g hg => h.noVisitedRefs i v hv g (hsub g hg), h.refsFromInitial, h.defsClean,
    h.pendingPhisNew, h.arenaGrows, h.opcodesStable, h.arg0Stable, h.instsStable⟩

theorem opcode_stable_lt {G V : List Nat} {st0 st : PassState} (h : Inv G V st0 st)
    (i : Nat) (hlt : i < st0.arena.length) :
    (getInst st i).opcode = (getInst st0 i).opcode := by
  rcases h.opcodesStable i with he | ⟨hge, -⟩
  · exact he
  · omega

/-- At visit time, when every `G`-reference of the instruction's input
version points into the already-visited set, all its current operand values
are clean. -/
theorem values_clean_at_visit {G V : List Nat} {st0 st : PassState} (h : Inv G V st0 st)
    (i : Nat) (hpast : ∀ g ∈ G, Value.instRef g ∈ InstValues (getInst st0 i) → g ∈ V) :
    ∀ v ∈ InstValues (getInst st i), CleanVal G v := by
  intro v hv g hg heq
  subst heq
  exact h.noVisitedRefs i _ hv g (hpast g hg (h.refsFromInitial i _ g hv hg rfl)) rfl

theorem getD_mem_or_default {α : Type} (l : List α) (n : Nat) (d : α) :
    l.getD n d ∈ l ∨ l.getD n d = d := by
  by_cases h : n < l.length
  · left
    rw [List.getD_eq_getElem?_getD, List.getElem?_eq_getElem h]
    exact List.getElem_mem h
  · right
    rw [List.getD_eq_getElem?_getD, List.getElem?_eq_none (by omega)]
    rfl

theorem arg_clean_at_visit {G V : List Nat} {st0 st : PassState} (h : Inv G V st0 st)
    (i n : Nat) (hpast : ∀ g ∈ G, Value.instRef g ∈ InstValues (getInst st0 i) → g ∈ V) :
    CleanVal G ((getInst st i).args.getD n .empty) := by
  rcases getD_mem_or_default (getInst st i).args n .empty with hm | he
  · exact values_clean_at_visit h i hpast _ (List.mem_append.mpr (.inl hm))
  · rw [he]
    exact CleanVal_empty G

/-- Whether a value is an instruction handle (decidable form of the
"register/predicate operand is an immediate" hypotheses). -/
def Value.isInstRef : Value → Bool
  | .instRef _ => true
  | _ => false

theorem not_instRef_of_isInstRef_false {v : Value} (h : v.isInstRef = false) :
    ∀ t, v ≠ .instRef t := by
  intro t heq
  subst heq
  cases h

theorem foldPreds_clean {G V : List Nat} {st0 : PassState} (var : SsaVar) (phi fuel : Nat)
    (hVG : ∀ g ∈ V, g ∈ G) (hGN : ∀ g ∈ G, g < st0.arena.length) :
    ∀ (ps : List Nat) (st st' : PassState), Inv G V st0 st →
      ps.foldlM (fun st p => do
          let (v, st) ← ReadVariable var p st fuel
          pure (addPhiOperand st phi p v)) st = some st' →
      Inv G V st0 st' := by
  intro ps
  induction ps with
  | nil =>
    intro st st' h hfold
    cases hfold
    exact h
  | cons p ps ih =>
    intro st st' h hfold
    rw [List.foldlM_cons] at hfold
    cases hr : ReadVariable var p st fuel with
    | none =>
      rw [hr] at hfold
      simp at hfold
    | some vst =>
      obtain ⟨v1, st1⟩ := vst
      rw [hr] at hfold
      simp only [Option.some_bind, Option.pure_def, Option.bind_some] at hfold
      obtain ⟨hinv1, hv1⟩ := ReadVariable_clean h var p fuel v1 st1 hr hVG hGN
      exact ih _ _ (Inv_addPhiOperand hinv1 phi p v1 hv1 hVG) hfold

theorem AddPhiOperands_clean {G V : List Nat} {st0 st : PassState} (h : Inv G V st0 st)
    (var : SsaVar) (phi b fuel : Nat) (hphi : st0.arena.length ≤ phi)
    (v : Value) (st' : PassState)
    (hrun : AddPhiOperands var phi b st fuel = some (v, st'))
    (hVG : ∀ g ∈ V, g ∈ G) (hGN : ∀ g ∈ G, g < st0.arena.length) :
    Inv G V st0 st' ∧ CleanVal G v := by
  unfold AddPhiOperands at hrun
  dsimp only [] at hrun
  cases hfold : (getBlock st b).preds.foldlM (fun st p => do
      let (v, st) ← ReadVariable var p st fuel
      pure (addPhiOperand st phi p v)) st with
  | none =>
    rw [hfold] at hrun
    simp at hrun
  | some st1 =>
    rw [hfold] at hrun
    simp only [Option.bind_eq_bind, Option.some_bind, Option.pure_def,
      Option.some.injEq] at hrun
    have hinv1 : Inv G V st0 st1 :=
      foldPreds_clean var phi fuel hVG hGN (getBlock st b).preds st st1 h hfold
    obtain ⟨hinv2, hcl⟩ := Inv_tryRemoveTrivialPhi hinv1 phi b (UndefOpcode var) hphi
      (UndefOpcode_cases var) hVG hGN
    rw [hrun] at hinv2 hcl
    exact ⟨hinv2, hcl⟩

theorem foldPending_clean {G V : List Nat} {st0 : PassState} (b fuel : Nat)
    (hVG : ∀ g ∈ V, g ∈ G) (hGN : ∀ g ∈ G, g < st0.arena.length) :
    ∀ (l : List (SsaVar × Nat)) (st st' : PassState), Inv G V st0 st →
      (∀ e ∈ l, st0.arena.length ≤ e.2) →
      l.foldlM (fun st entry => do
          let (_, st) ← AddPhiOperands entry.1 entry.2 b st fuel
          pure st) st = some st' →
      Inv G V st0 st' := by
  intro l
  induction l with
  | nil =>
    intro st st' h _ hfold
    cases hfold
    exact h
  | cons e l ih =>
    intro st st' h hl hfold
    rw [List.foldlM_cons] at hfold
    cases hr : AddPhiOperands e.1 e.2 b st fuel with
    | none =>
      rw [hr] at hfold
      simp at hfold
    | some vst =>
      obtain ⟨v1, st1⟩ := vst
      rw [hr] at hfold
      simp only [Option.some_bind, Option.pure_def, Option.bind_some] at hfold
      obtain ⟨hinv1, -⟩ := AddPhiOperands_clean h e.1 e.2 b fuel
        (hl e (by simp)) v1 st1 hr hVG hGN
      exact ih st1 st' hinv1 (fun e2 he2 => hl e2 (by simp [he2])) hfold

theorem SealBlock_clean {G V : List Nat} {st0 st : PassState} (h : Inv G V st0 st)
    (b fuel : Nat) (st' : PassState) (hrun : SealBlock b st fuel = some st')
    (hVG : ∀ g ∈ V, g ∈ G) (hGN : ∀ g ∈ G, g < st0.arena.length) :
    Inv G V st0 st' := by
  unfold SealBlock at hrun
  cases hfind : assocFind b st.incompletePhis with
  | none =>
    rw [hfind] at hrun
    dsimp only [] at hrun
    simp only [Option.bind_eq_bind, Option.pure_def, Option.some_bind,
      Option.some.injEq] at hrun
    rw [← hrun]
    exact Inv_setSealed h _
  | some pending =>
    rw [hfind] at hrun
    dsimp only [] at hrun
    cases hfold : pending.foldlM (fun st entry => do
        let (_, st) ← AddPhiOperands entry.1 entry.2 b st fuel
        pure st) st with
    | none =>
      rw [hfold] at hrun
      simp at hrun
    | some st1 =>
      rw [hfold] at hrun
      simp only [Option.bind_eq_bind, Option.some_bind, Option.pure_def,
        Option.some.injEq] at hrun
      have hinv1 : Inv G V st0 st1 :=
        foldPending_clean b fuel hVG hGN pending st st1 h
          (h.pendingPhisNew b pending hfind) hfold
      rw [← hrun]
      exact Inv_setSealed hinv1 _

/-- A pass-created instruction id (at or above the input arena length) hits
the catch-all arm of `VisitInst`: its opcode is `Void`, `Phi`, or an undef. -/
theorem VisitInst_untouched {G V : List Nat} {st0 st : PassState} (h : Inv G V st0 st)
    (b i fuel : Nat) (hge : ¬ i < st0.arena.length) :
    VisitInst st b i fuel = some st := by
  rcases h.opcodesStable i with he | ⟨-, hphi⟩
  · rw [getInst_oob st0 i hge] at he
    simp only [VisitInst, he]
    rfl
  · rcases hphi with he | he | he <;> simp only [VisitInst, he] <;> rfl

/-- The read-then-reroute tail shared by all non-sink `Get*` arms of
`VisitInst`. -/
theorem getVisit_clean {G V : List Nat} {st0 st : PassState} (h : Inv G V st0 st)
    (var : SsaVar) (b i fuel : Nat) (st' : PassState)
    (hread_bind : (do
        let (v, st) ← ReadVariable var b st fuel
        pure (replaceUses st i v) : Option PassState) = some st')
    (hiG : i ∈ G) (hVG : ∀ g ∈ V, g ∈ G) (hGN : ∀ g ∈ G, g < st0.arena.length) :
    Inv G (i :: V) st0 st' := by
  cases hread : ReadVariable var b st fuel with
  | none =>
    rw [hread] at hread_bind
    simp at hread_bind
  | some vst =>
    obtain ⟨v, st1⟩ := vst
    rw [hread] at hread_bind
    simp only [Option.bind_eq_bind, Option.some_bind, Option.pure_def,
      Option.some.injEq] at hread_bind
    obtain ⟨hinv1, hv⟩ := ReadVariable_clean h var b fuel v st1 hread hVG hGN
    rw [← hread_bind]
    exact Inv_replaceUses_visit hinv1 i v hiG hv hVG

/-- One `VisitInst` call on an input instruction: it preserves the
cleanliness invariant, extending the visited set exactly when the
instruction is a non-sink `Get*`. -/
theorem VisitInst_clean {G V : List Nat} {st0 st : PassState} (h : Inv G V st0 st)
    (b i fuel : Nat) (st' : PassState) (hrun : VisitInst st b i fuel = some st')
    (hVG : ∀ g ∈ V, g ∈ G) (hGN : ∀ g ∈ G, g < st0.arena.length)
    (hlt : i < st0.arena.length)
    (hpast : ∀ g ∈ G, Value.instRef g ∈ InstValues (getInst st0 i) → g ∈ V)
    (hiG : isNonSinkGet (getInst st0 i) = true → i ∈ G)
    (harg0 : ((getInst st0 i).opcode = .GetRegister ∨ (getInst st0 i).opcode = .GetPred) →
      ((getInst st0 i).args.getD 0 .empty).isInstRef = false) :
    Inv G (if isNonSinkGet (getInst st0 i) then i :: V else V) st0 st' := by
  have hop : (getInst st i).opcode = (getInst st0 i).opcode := opcode_stable_lt h i hlt
  cases hop0 : (getInst st0 i).opcode <;> rw [hop0] at hop
  case SetRegister =>
    rw [if_neg (by simp [isNonSinkGet, hop0])]
    simp only [VisitInst, hop] at hrun
    split_ifs at hrun <;>
      simp only [Option.pure_def, Option.some.injEq] at hrun <;> rw [← hrun]
    · exact Inv_writeVar h _ b _ (arg_clean_at_visit h i 1 hpast)
    · exact h
  case SetPred =>
    rw [if_neg (by simp [isNonSinkGet, hop0])]
    simp only [VisitInst, hop] at hrun
    split_ifs at hrun <;>
      simp only [Option.pure_def, Option.some.injEq] at hrun <;> rw [← hrun]
    · exact Inv_writeVar h _ b _ (arg_clean_at_visit h i 1 hpast)
    · exact h
  case SetGotoVariable =>
    rw [if_neg (by simp [isNonSinkGet, hop0])]
    simp only [VisitInst, hop] at hrun
    simp only [Option.pure_def, Option.some.injEq] at hrun
    rw [← hrun]
    exact Inv_writeVar h _ b _ (arg_clean_at_visit h i 1 hpast)
  case SetIndirectBranchVariable =>
    rw [if_neg (by simp [isNonSinkGet, hop0])]
    simp only [VisitInst, hop] at hrun
    simp only [Option.pure_def, Option.some.injEq] at hrun
    rw [← hrun]
    exact Inv_writeVar h _ b _ (arg_clean_at_visit h i 0 hpast)
  case SetZFlag =>
    rw [if_neg (by simp [isNonSinkGet, hop0])]
    simp only [VisitInst, hop] at hrun
    simp only [Option.pure_def, Option.some.injEq] at hrun
    rw [← hrun]
    exact Inv_writeVar h _ b _ (arg_clean_at_visit h i 0 hpast)
  case SetSFlag =>
    rw [if_neg (by simp [isNonSinkGet, hop0])]
    simp only [VisitInst, hop] at hrun
    simp only [Option.pure_def, Option.some.injEq] at hrun
    rw [← hrun]
    exact Inv_writeVar h _ b _ (arg_clean_at_visit h i 0 hpast)
  case SetCFlag =>
    rw [if_neg (by simp [isNonSinkGet, hop0])]
    simp only [VisitInst, hop] at hrun
    simp only [Option.pure_def, Option.some.injEq] at hrun
    rw [← hrun]
    exact Inv_writeVar h _ b _ (arg_clean_at_visit h i 0 hpast)
  case SetOFlag =>
    rw [if_neg (by simp [isNonSinkGet, hop0])]
    simp only [VisitInst, hop] at hrun
    simp only [Option.pure_def, Option.some.injEq] at hrun
    rw [← hrun]
    exact Inv_writeVar h _ b _ (arg_clean_at_visit h i 0 hpast)
  case GetRegister =>
    simp only [VisitInst, hop] at hrun
    have ha0 : (getInst st i).args.getD 0 .empty = (getInst st0 i).args.getD 0 .empty :=
      h.arg0Stable i (not_instRef_of_isInstRef_false (harg0 (.inl hop0)))
    rw [ha0] at hrun
    by_cases hrz : ((getInst st0 i).args.getD 0 .empty).regOf ≠ RZ
    · rw [if_pos hrz] at hrun
      rw [if_pos (by simp [isNonSinkGet, hop0]; simpa using hrz)]
      exact getVisit_clean h _ b i fuel st' hrun
        (hiG (by simp [isNonSinkGet, hop0]; simpa using hrz)) hVG hGN
    · rw [if_neg hrz] at hrun
      simp only [Option.pure_def, Option.some.injEq] at hrun
      have heq : ((getInst st0 i).args.getD 0 .empty).regOf = RZ := not_not.mp hrz
      rw [if_neg (by simp [isNonSinkGet, hop0]; simpa using heq)]
      rw [← hrun]
      exact h
  case GetPred =>
    simp only [VisitInst, hop] at hrun
    have ha0 : (getInst st i).args.getD 0 .empty = (getInst st0 i).args.getD 0 .empty :=
      h.arg0Stable i (not_instRef_of_isInstRef_false (harg0 (.inr hop0)))
    rw [ha0] at hrun
    by_cases hrz : ((getInst st0 i).args.getD 0 .empty).predOf ≠ PT
    · rw [if_pos hrz] at hrun
      rw [if_pos (by simp [isNonSinkGet, hop0]; simpa using hrz)]
      exact getVisit_clean h _ b i fuel st' hrun
        (hiG (by simp [isNonSinkGet, hop0]; simpa using hrz)) hVG hGN
    · rw [if_neg hrz] at hrun
      simp only [Option.pure_def, Option.some.injEq] at hrun
      have heq : ((getInst st0 i).args.getD 0 .empty).predOf = PT := not_not.mp hrz
      rw [if_neg (by simp [isNonSinkGet, hop0]; simpa using heq)]
      rw [← hrun]
      exact h
  case GetGotoVariable =>
    simp only [VisitInst, hop] at hrun
    rw [if_pos (by simp [isNonSinkGet, hop0])]
    exact getVisit_clean h _ b i fuel st' hrun
      (hiG (by simp [isNonSinkGet, hop0])) hVG hGN
  case GetIndirectBranchVariable =>
    simp only [VisitInst, hop] at hrun
    rw [if_pos (by simp [isNonSinkGet, hop0])]
    exact getVisit_clean h _ b i fuel st' hrun
      (hiG (by simp [isNonSinkGet, hop0])) hVG hGN
  case GetZFlag =>
    simp only [VisitInst, hop] at hrun
    rw [if_pos (by simp [isNonSinkGet, hop0])]
    exact getVisit_clean h _ b i fuel st' hrun
      (hiG (by simp [isNonSinkGet, hop0])) hVG hGN
  case GetSFlag =>
    simp only [VisitInst, hop] at hrun
    rw [if_pos (by simp [isNonSinkGet, hop0])]
    exact getVisit_clean h _ b i fuel st' hrun
      (hiG (by simp [isNonSinkGet, hop0])) hVG hGN
  case GetCFlag =>
    simp only [VisitInst, hop] at hrun
    rw [if_pos (by simp [isNonSinkGet, hop0])]
    exact getVisit_clean h _ b i fuel st' hrun
      (hiG (by simp [isNonSinkGet, hop0])) hVG hGN
  case GetOFlag =>
    simp only [VisitInst, hop] at hrun
    rw [if_pos (by simp [isNonSinkGet, hop0])]
    exact getVisit_clean h _ b i fuel st' hrun
      (hiG (by simp [isNonSinkGet, hop0])) hVG hGN
  all_goals
    rw [if_neg (by simp [isNonSinkGet, hop0])]
  all_goals
    simp only [VisitInst, hop] at hrun
  all_goals
    simp only [Option.pure_def, Option.some.injEq] at hrun
  all_goals
    rw [← hrun]
  all_goals
    exact h

theorem visitOrder_nil (st0 : PassState) : visitOrder st0 [] = [] := rfl

theorem visitOrder_cons (st0 : PassState) (b : Nat) (P : List Nat) :
    visitOrder st0 (b :: P) = (getBlock st0 b).insts ++ visitOrder st0 P := by
  simp [visitOrder]

theorem nonSinkGets_append (st0 : PassState) (l1 l2 : List Nat) :
    nonSinkGets st0 (l1 ++ l2) = nonSinkGets st0 l1 ++ nonSinkGets st0 l2 := by
  simp [nonSinkGets, List.filter_append]

theorem visitList_clean {G : List Nat} {st0 : PassState} {order : List Nat}
    (hG : G = nonSinkGets st0 order)
    (Hlt : ∀ j ∈ order, j < st0.arena.length)
    (Hback : ∀ d j r, order = d ++ j :: r → ∀ g ∈ G,
      Value.instRef g ∈ InstValues (getInst st0 j) → g ∈ d)
    (Harg0 : ∀ j ∈ order, ((getInst st0 j).opcode = .GetRegister ∨
      (getInst st0 j).opcode = .GetPred) →
      ((getInst st0 j).args.getD 0 .empty).isInstRef = false)
    (b fuel : Nat) :
    ∀ (L done tail : List Nat) (st st' : PassState),
      Inv G (nonSinkGets st0 done) st0 st →
      order = done ++ L.filter (fun j => decide (j < st0.arena.length)) ++ tail →
      L.foldlM (fun st i => VisitInst st b i fuel) st = some st' →
      Inv G (nonSinkGets st0 (done ++ L.filter (fun j => decide (j < st0.arena.length))))
        st0 st' := by
  intro L
  induction L with
  | nil =>
    intro done tail st st' h hsplit hfold
    cases hfold
    simpa using h
  | cons i L ih =>
    intro done tail st st' h hsplit hfold
    rw [List.foldlM_cons] at hfold
    cases hvi : VisitInst st b i fuel with
    | none =>
      rw [hvi] at hfold
      simp at hfold
    | some st1 =>
      rw [hvi] at hfold
      simp only [Option.bind_eq_bind, Option.some_bind] at hfold
      by_cases hlt : i < st0.arena.length
      · have hfc : (i :: L).filter (fun j => decide (j < st0.arena.length)) =
            i :: L.filter (fun j => decide (j < st0.arena.length)) := by
          simp [List.filter_cons, hlt]
        rw [hfc] at hsplit ⊢
        have hmem : i ∈ order := by
          rw [hsplit]
          simp
        have hGN : ∀ g ∈ G, g < st0.arena.length := by
          intro g hg
          rw [hG] at hg
          exact Hlt g (List.mem_filter.mp hg).1
        have hVG : ∀ g ∈ nonSinkGets st0 done, g ∈ G := by
          intro g hg
          obtain ⟨hgd, hp⟩ := List.mem_filter.mp hg
          rw [hG]
          refine List.mem_filter.mpr ⟨?_, hp⟩
          rw [hsplit]
          simp [hgd]
        have hpast : ∀ g ∈ G, Value.instRef g ∈ InstValues (getInst st0 i) →
            g ∈ nonSinkGets st0 done := by
          intro g hg hv
          have hgd : g ∈ done := Hback done i
            (L.filter (fun j => decide (j < st0.arena.length)) ++ tail)
            (by rw [hsplit]; simp) g hg hv
          rw [hG] at hg
          exact List.mem_filter.mpr ⟨hgd, (List.mem_filter.mp hg).2⟩
        have hiG : isNonSinkGet (getInst st0 i) = true → i ∈ G := by
          intro hns
          rw [hG]
          exact List.mem_filter.mpr ⟨hmem, hns⟩
        have hvc := VisitInst_clean h b i fuel st1 hvi hVG hGN hlt hpast hiG (Harg0 i hmem)
        have hstep : Inv G (nonSinkGets st0 (done ++ [i])) st0 st1 := by
          refine Inv_mono_V hvc ?_
          intro g hg
          rw [nonSinkGets_append] at hg
          rcases List.mem_append.mp hg with hg | hg
          · by_cases hns : isNonSinkGet (getInst st0 i) = true
            · rw [if_pos hns]
              exact List.mem_cons.mpr (.inr hg)
            · rw [if_neg hns]
              exact hg
          · obtain ⟨hgi, hp⟩ := List.mem_filter.mp hg
            have hgi2 : g = i := List.mem_singleton.mp hgi
            subst hgi2
            rw [if_pos hp]
            exact List.mem_cons.mpr (.inl rfl)
        have hres := ih (done ++ [i]) tail st1 st' hstep (by rw [hsplit]; simp) hfold
        rw [List.append_assoc] at hres
        exact hres
      · have hfc : (i :: L).filter (fun j => decide (j < st0.arena.length)) =
            L.filter (fun j => decide (j < st0.arena.length)) := by
          simp [List.filter_cons, hlt]
        rw [hfc] at hsplit ⊢
        have hst1 : st1 = st := by
          rw [VisitInst_untouched h b i fuel hlt] at hvi
          exact (Option.some.inj hvi).symm
        rw [hst1] at hfold
        exact ih done tail st st' h hsplit hfold

theorem VisitBlock_clean {G : List Nat} {st0 : PassState} {order : List Nat}
    (hG : G = nonSinkGets st0 order)
    (Hlt : ∀ j ∈ order, j < st0.arena.length)
    (Hback : ∀ d j r, order = d ++ j :: r → ∀ g ∈ G,
      Value.instRef g ∈ InstValues (getInst st0 j) → g ∈ d)
    (Harg0 : ∀ j ∈ order, ((getInst st0 j).opcode = .GetRegister ∨
      (getInst st0 j).opcode = .GetPred) →
      ((getInst st0 j).args.getD 0 .empty).isInstRef = false)
    (b fuel : Nat) (done tail : List Nat) (st st' : PassState)
    (h : Inv G (nonSinkGets st0 done) st0 st)
    (hsplit : order = done ++ (getBlock st0 b).insts ++ tail)
    (hrun : VisitBlock st b fuel = some st') :
    Inv G (nonSinkGets st0 (done ++ (getBlock st0 b).insts)) st0 st' := by
  unfold VisitBlock at hrun
  cases hfold : (getBlock st b).insts.foldlM (fun st i => VisitInst st b i fuel) st with
  | none =>
    rw [hfold] at hrun
    simp at hrun
  | some st1 =>
    rw [hfold] at hrun
    simp only [Option.bind_eq_bind, Option.some_bind] at hrun
    have hfeq : (getBlock st b).insts.filter (fun j => decide (j < st0.arena.length)) =
        (getBlock st0 b).insts := by
      rw [h.instsStable b]
      refine List.filter_eq_self.mpr ?_
      intro j hj
      simpa using Hlt j (by rw [hsplit]; simp [hj])
    have hsplit' : order = done ++
        (getBlock st b).insts.filter (fun j => decide (j < st0.arena.length)) ++ tail := by
      rw [hfeq]
      exact hsplit
    have hvl := visitList_clean hG Hlt Hback Harg0 b fuel (getBlock st b).insts done tail
      st st1 h hsplit' hfold
    rw [hfeq] at hvl
    refine SealBlock_clean hvl b fuel st' hrun ?_ ?_
    · intro g hg
      obtain ⟨hgd, hp⟩ := List.mem_filter.mp hg
      rw [hG]
      refine List.mem_filter.mpr ⟨?_, hp⟩
      rw [hsplit]
      rcases List.mem_append.mp hgd with hgd | hgd <;> simp [hgd]
    · intro g hg
      rw [hG] at hg
      exact Hlt g (List.mem_filter.mp hg).1

theorem visitBlocks_clean {G : List Nat} {st0 : PassState} {order : List Nat}
    (hG : G = nonSinkGets st0 order)
    (Hlt : ∀ j ∈ order, j < st0.arena.length)
    (Hback : ∀ d j r, order = d ++ j :: r → ∀ g ∈ G,
      Value.instRef g ∈ InstValues (getInst st0 j) → g ∈ d)
    (Harg0 : ∀ j ∈ order, ((getInst st0 j).opcode = .GetRegister ∨
      (getInst st0 j).opcode = .GetPred) →
      ((getInst st0 j).args.getD 0 .empty).isInstRef = false)
    (fuel : Nat) :
    ∀ (P done : List Nat) (st st' : PassState),
      Inv G (nonSinkGets st0 done) st0 st →
      order = done ++ visitOrder st0 P →
      P.foldlM (fun st b => VisitBlock st b fuel) st = some st' →
      Inv G (nonSinkGets st0 (done ++ visitOrder st0 P)) st0 st' := by
  intro P
  induction P with
  | nil =>
    intro done st st' h _ hfold
    cases hfold
    rw [visitOrder_nil, List.append_nil]
    exact h
  | cons b P ih =>
    intro done st st' h hsplit hfold
    rw [List.foldlM_cons] at hfold
    cases hvb : VisitBlock st b fuel with
    | none =>
      rw [hvb] at hfold
      simp at hfold
    | some st1 =>
      rw [hvb] at hfold
      simp only [Option.bind_eq_bind, Option.some_bind] at hfold
      have h1 := VisitBlock_clean hG Hlt Hback Harg0 b fuel done (visitOrder st0 P) st st1 h
        (by rw [hsplit, visitOrder_cons]; simp) hvb
      have h2 := ih (done ++ (getBlock st0 b).insts) st1 st' h1
        (by rw [hsplit, visitOrder_cons]; simp) hfold
      rw [visitOrder_cons, ← List.append_assoc]
      exact h2

theorem usesOf_eq_zero {st : PassState} {g : Nat}
    (h : ∀ i, ∀ v ∈ InstValues (getInst st i), v ≠ .instRef g) : usesOf st g = 0 := by
  unfold usesOf
  apply List.sum_eq_zero
  intro x hx
  obtain ⟨inst, hmem, hxeq⟩ := List.mem_map.mp hx
  obtain ⟨k, hk, hik⟩ := List.getElem_of_mem hmem
  have hvals : ∀ v ∈ InstValues inst, v ≠ .instRef g := by
    have hgi : getInst st k = inst := by
      rw [getInst, List.getD_eq_getElem?_getD, List.getElem?_eq_getElem hk,
        Option.getD_some, hik]
    rw [← hgi]
    exact h k
  have h1 : ∀ a ∈ inst.args, a ≠ Value.instRef g := fun a ha =>
    hvals a (List.mem_append.mpr (.inl ha))
  have h2 : ∀ pv ∈ inst.phiArgs, pv.2 ≠ Value.instRef g := fun pv hpv =>
    hvals pv.2 (List.mem_append.mpr (.inr (List.mem_map.mpr ⟨pv, hpv, rfl⟩)))
  have ha : (inst.args.filter (· = Value.instRef g)).length = 0 := by
    rw [List.length_eq_zero]
    rw [List.filter_eq_nil_iff]
    intro a haa
    simpa using h1 a haa
  have hp : (inst.phiArgs.filter (fun pv => pv.2 = Value.instRef g)).length = 0 := by
    rw [List.length_eq_zero]
    rw [List.filter_eq_nil_iff]
    intro pv hpp
    simpa using h2 pv hpp
  rw [← hxeq]
  omega

/-- C5 — `SsaRewritePass` leaves every non-sink `Get*` read of the input
program without live uses.  Stated for inputs whose visit order lists valid
arena indices, whose references to non-sink gets point to instructions
visited strictly earlier, and whose register/predicate reads carry an
immediate first operand; the read of the `RZ`/`PT` sinks (excluded here) is
the corrected part of the claim — the pass deliberately skips those, so a
used sink read survives (see the counterexample). -/
theorem ssa_rewrite_pass_gets_unused (program : List Nat) (st0 st' : PassState) (fuel : Nat)
    (Hlt : ∀ j ∈ visitOrder st0 program, j < st0.arena.length)
    (Hback : ∀ d j r, visitOrder st0 program = d ++ j :: r →
      ∀ g ∈ nonSinkGets st0 (visitOrder st0 program),
        Value.instRef g ∈ InstValues (getInst st0 j) → g ∈ d)
    (Harg0 : ∀ j ∈ visitOrder st0 program, ((getInst st0 j).opcode = .GetRegister ∨
      (getInst st0 j).opcode = .GetPred) →
      ((getInst st0 j).args.getD 0 .empty).isInstRef = false)
    (hrun : SsaRewritePass program st0 fuel = some st') :
    ∀ g ∈ nonSinkGets st0 (visitOrder st0 program), usesOf st' g = 0 := by
  unfold SsaRewritePass at hrun
  dsimp only [] at hrun
  have hinit : Inv (nonSinkGets st0 (visitOrder st0 program)) (nonSinkGets st0 [])
      st0 { st0 with currentDef := [], sealedBlocks := [], incompletePhis := [] } := by
    refine ⟨?_, fun _ _ _ hv _ _ => hv, ?_, ?_, le_rfl, fun _ => .inl rfl,
      fun _ _ => rfl, fun _ => rfl⟩
    · intro i v hv g hg
      simp [nonSinkGets] at hg
    · intro var b v hv
      simp [lookupDef, assocFind] at hv
    · intro b l hl
      simp [assocFind] at hl
  have hfin := visitBlocks_clean rfl Hlt Hback Harg0 fuel program [] _ st' hinit rfl hrun
  intro g hg
  apply usesOf_eq_zero
  intro i v hv
  exact hfin.noVisitedRefs i v hv g hg

/-- One block reading the `RZ` sink with a consumer: `%0 = GetRegister RZ`,
`SetZFlag %0`. -/
def c5Sink : PassState :=
  { arena := [{ opcode := .GetRegister, args := [.reg RZ] },
              { opcode := .SetZFlag, args := [.instRef 0] }],
    blocks := [{ insts := [0, 1] }] }

/-- C5 counterexample to the claim as stated: `VisitInst` skips reads of
the `RZ` register sink (`if (reg != IR::Reg::RZ)`), so after the whole pass
a used `GetRegister RZ` instruction survives with one live use — not every
`GetRegister` read is replaced. -/
theorem rz_get_keeps_uses :
    (getInst c5Sink 0).opcode = .GetRegister ∧
      (SsaRewritePass [0] c5Sink 4).map (fun st => usesOf st 0) = some 1 := by
  exact ⟨rfl, rfl⟩

/-- A one-block program for the C5 witness: set `R3`, read it back, consume
the read. -/
def c5w : PassState :=
  { arena := [{ opcode := .SetRegister, args := [.reg 3, .u32 7] },
              { opcode := .GetRegister, args := [.reg 3] },
              { opcode := .SetZFlag, args := [.instRef 1] }],
    blocks := [{ insts := [0, 1, 2] }] }

/-- The pass output on `c5w`: the read `%1` was replaced by the stored
`u32 7` everywhere. -/
def c5wResult : PassState :=
  { arena := [{ opcode := .SetRegister, args := [.reg 3, .u32 7] },
              { opcode := .GetRegister, args := [.reg 3] },
              { opcode := .SetZFlag, args := [.u32 7] }],
    blocks := [{ insts := [0, 1, 2] }],
    currentDef := [(.reg 3, [(0, .u32 7)]), (.zeroFlag, [(0, .u32 7)])],
    sealedBlocks := [0] }

/-- References in `c5w` to its non-sink gets point to instructions visited
strictly earlier. -/
theorem c5w_back : ∀ d j r, visitOrder c5w [0] = d ++ j :: r →
    ∀ g ∈ nonSinkGets c5w (visitOrder c5w [0]),
      Value.instRef g ∈ InstValues (getInst c5w j) → g ∈ d := by
  intro d j r hsplit g hg hv
  have horder : visitOrder c5w [0] = [0, 1, 2] := rfl
  rw [horder] at hsplit
  have hg1 : g = 1 := by
    have hgs : nonSinkGets c5w (visitOrder c5w [0]) = [1] := rfl
    rw [hgs] at hg
    exact List.mem_singleton.mp hg
  subst hg1
  cases d with
  | nil =>
    injection hsplit with h1 h2
    subst h1
    exact absurd hv (by decide)
  | cons d0 d =>
    injection hsplit with h1 hsplit
    subst h1
    cases d with
    | nil =>
      injection hsplit with h1 h2
      subst h1
      exact absurd hv (by decide)
    | cons d1 d =>
      injection hsplit with h1 hsplit
      subst h1
      cases d with
      | nil =>
        injection hsplit with h1 h2
        subst h1
        decide
      | cons d2 d =>
        injection hsplit with h1 hsplit
        simp at hsplit

/-- C5 witness: the amended theorem applied to `c5w` — its one non-sink
get, instruction `1`, ends with zero uses. -/
theorem ssa_rewrite_pass_gets_unused_witness :
    SsaRewritePass [0] c5w 8 = some c5wResult ∧ usesOf c5wResult 1 = 0 :=
  ⟨rfl,
    ssa_rewrite_pass_gets_unused [0] c5w c5wResult 8
      (by decide) c5w_back (by decide) rfl 1 (by decide)⟩

/-! ## Claim C9 — the pass terminates and produces undefs

Termination of the `ReadVariable` loop: the set of `(variable, block)`
definitions only grows during a run, and the number of in-range blocks
without a definition strictly drops when an operandless φ is written, so a
lexicographic measure on (undefined blocks, rank of the current block)
bounds the loop, where `rank` witnesses the acyclicity of the
single-predecessor chains. -/

/-- The definition table only grows: whatever was defined stays defined. -/
def DefsMono (st st' : PassState) : Prop :=
  ∀ v z, (lookupDef st v z).isSome = true → (lookupDef st' v z).isSome = true

theorem DefsMono.reflDefs (st : PassState) : DefsMono st st := fun _ _ h => h

theorem DefsMono.transDefs {s1 s2 s3 : PassState} (h12 : DefsMono s1 s2)
    (h23 : DefsMono s2 s3) : DefsMono s1 s3 := fun v z h => h23 v z (h12 v z h)

theorem DefsMono.of_currentDef_eq {st st' : PassState} (h : st'.currentDef = st.currentDef) :
    DefsMono st st' := by
  intro v z
  unfold lookupDef
  rw [h]
  exact id

theorem defsMono_writeVar (var : SsaVar) (b : Nat) (v : Value) (st : PassState) :
    DefsMono st (writeVar var b v st) := by
  intro v2 z h
  rw [lookupDef_writeVar]
  by_cases hc : var = v2 ∧ b = z
  · rw [if_pos hc]
    rfl
  · rw [if_neg hc]
    exact h

/-- One loop iteration only grows the definition table. -/
def StepResMono (st : PassState) : StepRes → Prop
  | .push _ _ st' => DefsMono st st'
  | .pop _ st' => DefsMono st st'

theorem StepResMono.composeMono {st st1 : PassState} {x : StepRes} (h : DefsMono st st1)
    (hx : StepResMono st1 x) : StepResMono st x := by
  cases x with
  | push next top' st' => exact h.transDefs hx
  | pop r st' => exact h.transDefs hx

theorem preparePhiOperand_mono (var : SsaVar) (top : ReadFrame) (st : PassState) :
    StepResMono st (preparePhiOperand var top st) := by
  unfold preparePhiOperand
  by_cases hpe : top.predIt = top.predEnd
  · rw [if_pos hpe]
    exact (DefsMono.of_currentDef_eq
        (tryRemoveTrivialPhi_state st top.phi (top.block.getD 0)
          (UndefOpcode var)).2.2.2.1).transDefs
      (defsMono_writeVar var (top.block.getD 0) _ _)
  · rw [if_neg hpe]
    exact DefsMono.reflDefs st

theorem stepTop_mono (var : SsaVar) (top : ReadFrame) (st : PassState) :
    StepResMono st (stepTop var top st) := by
  obtain ⟨blk, res, phi0, pit, pend, pc⟩ := top
  cases pc with
  | Start =>
    show StepResMono st
      (match lookupDef st var (blk.getD 0) with
      | some v => StepRes.pop v (writeVar var (blk.getD 0) v st)
      | none =>
        if blk.getD 0 ∉ st.sealedBlocks then
          StepRes.pop (.instRef (prependPhi st (blk.getD 0)).1)
            (writeVar var (blk.getD 0) (.instRef (prependPhi st (blk.getD 0)).1)
              { (prependPhi st (blk.getD 0)).2 with incompletePhis := (assocInsert (blk.getD 0)
                  (sortedInsertVar var (prependPhi st (blk.getD 0)).1
                    ((assocFind (blk.getD 0) (prependPhi st (blk.getD 0)).2.incompletePhis).getD []))
                  (prependPhi st (blk.getD 0)).2.incompletePhis) })
        else if (getBlock st (blk.getD 0)).preds.length = 1 then
          StepRes.push (freshFrame ((getBlock st (blk.getD 0)).preds.getD 0 0))
            { block := blk, result := res, phi := phi0, predIt := pit, predEnd := pend,
              pc := .SetValue } st
        else
          preparePhiOperand var
            { block := blk, result := res, phi := (prependPhi st (blk.getD 0)).1, predIt := 0,
              predEnd := (getBlock (writeVar var (blk.getD 0)
                  (.instRef (prependPhi st (blk.getD 0)).1) (prependPhi st (blk.getD 0)).2)
                (blk.getD 0)).preds.length,
              pc := .Start }
            (writeVar var (blk.getD 0) (.instRef (prependPhi st (blk.getD 0)).1)
              (prependPhi st (blk.getD 0)).2))
    cases hdef : lookupDef st var (blk.getD 0) with
    | some v => exact defsMono_writeVar var (blk.getD 0) v st
    | none =>
      by_cases hseal : blk.getD 0 ∈ st.sealedBlocks
      · rw [if_neg (not_not_intro hseal)]
        by_cases hlen : (getBlock st (blk.getD 0)).preds.length = 1
        · rw [if_pos hlen]
          exact DefsMono.reflDefs st
        · rw [if_neg hlen]
          refine StepResMono.composeMono ?_ (preparePhiOperand_mono var _ _)
          exact (DefsMono.of_currentDef_eq rfl).transDefs
            (defsMono_writeVar var (blk.getD 0) _ _)
      · rw [if_pos hseal]
        exact (DefsMono.of_currentDef_eq rfl).transDefs
          (defsMono_writeVar var (blk.getD 0) _ _)
  | SetValue => exact defsMono_writeVar var (blk.getD 0) res st
  | PushPhiArgument =>
    show StepResMono st
      (preparePhiOperand var
        { block := blk, result := res, phi := phi0, predIt := pit + 1, predEnd := pend,
          pc := .PushPhiArgument }
        (addPhiOperand st phi0 ((getBlock st (blk.getD 0)).preds.getD pit 0) res))
    exact StepResMono.composeMono (DefsMono.of_currentDef_eq rfl) (preparePhiOperand_mono var _ _)
  | PreparePhiArgument => exact preparePhiOperand_mono var _ st

theorem step_mono (var : SsaVar) (stack : List ReadFrame) (st : PassState) :
    DefsMono st (step var (stack, st)).2 := by
  match stack with
  | [] => exact DefsMono.reflDefs st
  | top :: rest =>
    rw [step_cons]
    have h := stepTop_mono var top st
    cases hstep : stepTop var top st with
    | push next top' st' =>
      rw [hstep] at h
      exact h
    | pop r st' =>
      rw [hstep] at h
      exact h

theorem steps_mono (var : SsaVar) (n : Nat) (stack : List ReadFrame) (st : PassState) :
    DefsMono st (steps var n (stack, st)).2 := by
  induction n generalizing stack st with
  | zero => exact DefsMono.reflDefs st
  | succ m ih =>
    by_cases hlen : ((stack, st) : List ReadFrame × PassState).1.length ≤ 1
    · rw [steps_stable var _ _ hlen]
      exact DefsMono.reflDefs st
    · rw [steps_succ_of_big var m _ hlen]
      rcases hc : step var (stack, st) with ⟨stack', st'⟩
      have h1 := step_mono var stack st
      rw [hc] at h1
      exact h1.transDefs (ih stack' st')

/-- A successful `ReadVariable` run leaves the CFG intact and only grows the
definition table. -/
theorem ReadVariable_post (var : SsaVar) (b fuel : Nat) (st : PassState) (v : Value)
    (st' : PassState) (hrun : ReadVariable var b st fuel = some (v, st')) :
    StInv st st' ∧ DefsMono st st' := by
  unfold ReadVariable at hrun
  rw [runFrame_eq_some_iff] at hrun
  obtain ⟨k, hk, hrun⟩ := hrun
  constructor
  · have hOK : ∀ f ∈ ([freshFrame b, sentinelFrame] : List ReadFrame), FrameOK st f := by
      intro f hf
      rcases List.mem_cons.mp hf with rfl | hf
      · rintro (h | h) <;> exact Status.noConfusion h
      rcases List.mem_cons.mp hf with rfl | hf
      · rintro (h | h) <;> exact Status.noConfusion h
      · cases hf
    have h1 := (steps_inv var k [freshFrame b, sentinelFrame] st hOK).1
    rw [hrun] at h1
    exact h1
  · have h1 := steps_mono var k [freshFrame b, sentinelFrame] st
    rw [hrun] at h1
    exact h1

/-- Number of in-range blocks lacking a definition for `var`. -/
def undefCount (var : SsaVar) (st : PassState) : Nat :=
  (List.range st.blocks.length).countP (fun z => !(lookupDef st var z).isSome)

theorem countP_le_countP {α : Type} (p q : α → Bool) :
    ∀ l : List α, (∀ a ∈ l, p a = true → q a = true) → l.countP p ≤ l.countP q := by
  intro l
  induction l with
  | nil => exact fun _ => le_rfl
  | cons a t ih =>
    intro h
    rw [List.countP_cons, List.countP_cons]
    have ht := ih (fun x hx => h x (by simp [hx]))
    by_cases hp : p a = true
    · rw [if_pos hp, if_pos (h a (by simp) hp)]
      omega
    · rw [if_neg hp]
      split_ifs <;> omega

theorem countP_lt_countP {α : Type} (p q : α → Bool) :
    ∀ (l : List α) (a0 : α), a0 ∈ l → (∀ a ∈ l, p a = true → q a = true) →
      p a0 = false → q a0 = true → l.countP p < l.countP q := by
  intro l
  induction l with
  | nil =>
    intro a0 h
    cases h
  | cons a t ih =>
    intro a0 hmem h hp hq
    rw [List.countP_cons, List.countP_cons]
    rcases List.mem_cons.mp hmem with rfl | hmem
    · rw [hp, hq]
      have hle := countP_le_countP p q t (fun x hx => h x (by simp [hx]))
      simp only [Bool.false_eq_true, if_false, if_true]
      omega
    · have hlt := ih a0 hmem (fun x hx => h x (by simp [hx])) hp hq
      by_cases hpa : p a = true
      · rw [if_pos hpa, if_pos (h a (by simp) hpa)]
        omega
      · rw [if_neg hpa]
        split_ifs <;> omega

theorem undefCount_le {var : SsaVar} {st st' : PassState} (hmono : DefsMono st st')
    (hlen : st'.blocks.length = st.blocks.length) :
    undefCount var st' ≤ undefCount var st := by
  unfold undefCount
  rw [hlen]
  apply countP_le_countP
  intro z _ hp
  cases hd : (lookupDef st var z).isSome
  · rfl
  · have h3 := hmono var z hd
    rw [h3] at hp
    simp at hp

theorem undefCount_lt {var : SsaVar} {st st' : PassState} {b : Nat}
    (hmono : DefsMono st st') (hlen : st'.blocks.length = st.blocks.length)
    (hb : b < st.blocks.length) (hnone : lookupDef st var b = none)
    (hsome : (lookupDef st' var b).isSome = true) :
    undefCount var st' < undefCount var st := by
  unfold undefCount
  rw [hlen]
  refine countP_lt_countP _ _ _ b (List.mem_range.mpr hb) ?_ ?_ ?_
  · intro z _ hp
    cases hd : (lookupDef st var z).isSome
    · rfl
    · have h3 := hmono var z hd
      rw [h3] at hp
      simp at hp
  · simp [hsome]
  · simp [hnone]

/-! ### Computation lemmas for the four `Start` branches and the φ loop -/

theorem stepTop_start_hit (var : SsaVar) (b : Nat) (st : PassState) (v : Value)
    (hdef : lookupDef st var b = some v) :
    stepTop var (freshFrame b) st = .pop v (writeVar var b v st) := by
  unfold stepTop
  show (match lookupDef st var ((freshFrame b).block.getD 0) with
    | some v => StepRes.pop v (writeVar var ((freshFrame b).block.getD 0) v st)
    | none => _) = _
  rw [show (freshFrame b).block.getD 0 = b from rfl, hdef]

theorem stepTop_start_unsealed (var : SsaVar) (b : Nat) (st : PassState)
    (hdef : lookupDef st var b = none) (hseal : b ∉ st.sealedBlocks) :
    stepTop var (freshFrame b) st = .pop (.instRef (prependPhi st b).1)
      (writeVar var b (.instRef (prependPhi st b).1)
        { (prependPhi st b).2 with incompletePhis := (assocInsert b
            (sortedInsertVar var (prependPhi st b).1
              ((assocFind b (prependPhi st b).2.incompletePhis).getD []))
            (prependPhi st b).2.incompletePhis) }) := by
  unfold stepTop
  show (match lookupDef st var ((freshFrame b).block.getD 0) with
    | some v => StepRes.pop v (writeVar var ((freshFrame b).block.getD 0) v st)
    | none => _) = _
  rw [show (freshFrame b).block.getD 0 = b from rfl, hdef]
  rw [if_pos hseal]

theorem stepTop_start_single (var : SsaVar) (b : Nat) (st : PassState)
    (hdef : lookupDef st var b = none) (hseal : b ∈ st.sealedBlocks)
    (hlen : (getBlock st b).preds.length = 1) :
    stepTop var (freshFrame b) st =
      .push (freshFrame ((getBlock st b).preds.getD 0 0))
        { freshFrame b with pc := .SetValue } st := by
  unfold stepTop
  show (match lookupDef st var ((freshFrame b).block.getD 0) with
    | some v => StepRes.pop v (writeVar var ((freshFrame b).block.getD 0) v st)
    | none => _) = _
  rw [show (freshFrame b).block.getD 0 = b from rfl, hdef]
  rw [if_neg (not_not_intro hseal), if_pos hlen]

theorem stepTop_start_phi (var : SsaVar) (b : Nat) (st : PassState)
    (hdef : lookupDef st var b = none) (hseal : b ∈ st.sealedBlocks)
    (hlen : (getBlock st b).preds.length ≠ 1) :
    stepTop var (freshFrame b) st =
      preparePhiOperand var
        { freshFrame b with
          phi := (prependPhi st b).1, predIt := 0,
          predEnd := (getBlock (writeVar var b (.instRef (prependPhi st b).1)
            (prependPhi st b).2) b).preds.length }
        (writeVar var b (.instRef (prependPhi st b).1) (prependPhi st b).2) := by
  unfold stepTop
  show (match lookupDef st var ((freshFrame b).block.getD 0) with
    | some v => StepRes.pop v (writeVar var ((freshFrame b).block.getD 0) v st)
    | none => _) = _
  rw [show (freshFrame b).block.getD 0 = b from rfl, hdef]
  rw [if_neg (not_not_intro hseal), if_neg hlen]

theorem stepTop_setValue (var : SsaVar) (top : ReadFrame) (st : PassState)
    (hpc : top.pc = .SetValue) :
    stepTop var top st = .pop top.result (writeVar var (top.block.getD 0) top.result st) := by
  obtain ⟨blk, res, phi0, pit, pend, pc⟩ := top
  cases hpc
  rfl

theorem stepTop_pushArg (var : SsaVar) (top : ReadFrame) (st : PassState)
    (hpc : top.pc = .PushPhiArgument) :
    stepTop var top st =
      preparePhiOperand var { top with predIt := top.predIt + 1 }
        (addPhiOperand st top.phi
          ((getBlock st (top.block.getD 0)).preds.getD top.predIt 0) top.result) := by
  obtain ⟨blk, res, phi0, pit, pend, pc⟩ := top
  cases hpc
  rfl

theorem preparePhiOperand_done (var : SsaVar) (top : ReadFrame) (st : PassState)
    (hpe : top.predIt = top.predEnd) :
    preparePhiOperand var top st =
      .pop (TryRemoveTrivialPhi st top.phi (top.block.getD 0) (UndefOpcode var)).1
        (writeVar var (top.block.getD 0)
          (TryRemoveTrivialPhi st top.phi (top.block.getD 0) (UndefOpcode var)).1
          (TryRemoveTrivialPhi st top.phi (top.block.getD 0) (UndefOpcode var)).2) := by
  unfold preparePhiOperand
  rw [if_pos hpe]

theorem preparePhiOperand_more (var : SsaVar) (top : ReadFrame) (st : PassState)
    (hpe : top.predIt ≠ top.predEnd) :
    preparePhiOperand var top st =
      .push (freshFrame ((getBlock st (top.block.getD 0)).preds.getD top.predIt 0))
        { top with pc := .PushPhiArgument } st := by
  unfold preparePhiOperand
  rw [if_neg hpe]

/-- A completed `runFrame` run lifts onto any deeper stack: its result lands
in the frame below. -/
theorem steps_sub_run (var : SsaVar) (x : ReadFrame) (st : PassState) (fuel : Nat)
    (v : Value) (st1 : PassState) (B : List ReadFrame) (hB : B ≠ [])
    (hrun : runFrame var x st fuel = some (v, st1)) :
    ∃ k, steps var k (x :: B, st) = (setResult v B, st1) := by
  rw [runFrame_eq_some_iff] at hrun
  obtain ⟨k1, hk1, hrun⟩ := hrun
  obtain ⟨k2, hk2, r2, st2, hrunA, hrunB⟩ :=
    steps_lift var k1 x st [sentinelFrame] B (by simp) hB (by rw [hrun]; simp)
  have hsame : r2 = v ∧ st2 = st1 := by
    have hA : steps var k1 ([x, sentinelFrame], st) =
        ([{ sentinelFrame with result := r2 }], st2) := by
      conv_lhs => rw [show k1 = k2 + (k1 - k2) from by omega]
      rw [steps_add, hrunA]
      exact steps_stable var _ _ (by simp [setResult])
    rw [hrun] at hA
    obtain ⟨h1, h2⟩ := Prod.mk.injEq .. ▸ hA
    constructor
    · have h3 := List.cons.injEq .. ▸ h1
      have hr := congrArg ReadFrame.result h3.1
      simpa using hr.symm
    · exact h2.symm
  rw [hsame.1, hsame.2] at hrunB
  exact ⟨k2, hrunB⟩

theorem getInst_modifyBlock (st : PassState) (b : Nat) (f : Block → Block) (i : Nat) :
    getInst (modifyBlock st b f) i = getInst st i := rfl

theorem getInst_writeVar2 (var : SsaVar) (b : Nat) (v : Value) (st : PassState) (i : Nat) :
    getInst (writeVar var b v st) i = getInst st i := rfl

/-- `TryRemoveTrivialPhi` on an operandless φ: `same` stays empty, so the φ
is replaced by a fresh undef instruction. -/
theorem TryRemoveTrivialPhi_no_args (st : PassState) (phi b : Nat) (u0 : Opcode)
    (hargs : (getInst st phi).phiArgs = []) :
    TryRemoveTrivialPhi st phi b u0 =
      (.instRef st.arena.length,
       replaceUses (modifyBlock { st with arena := st.arena ++ [{ opcode := u0 }] } b
         (fun blk => { blk with insts :=
            ((getBlock st b).insts.erase phi).takeWhile (isPhiInst st) ++
              st.arena.length :: phi ::
              ((getBlock st b).insts.erase phi).dropWhile (isPhiInst st) }))
         phi (.instRef st.arena.length)) := by
  unfold TryRemoveTrivialPhi
  rw [hargs]
  rfl

/-- A read that reaches no definition — unreachable-from-any-definition
block: sealed, no predecessors, nothing cached — pops after one iteration
with a reference to a freshly inserted undef instruction. -/
theorem read_no_def_undef (var : SsaVar) (b : Nat) (st : PassState)
    (hdef : lookupDef st var b = none) (hseal : b ∈ st.sealedBlocks)
    (hpred : (getBlock st b).preds = []) :
    ∃ u st', ReadVariable var b st 1 = some (.instRef u, st') ∧
      (getInst st' u).opcode = UndefOpcode var := by
  have hlen : (getBlock st b).preds.length ≠ 1 := by
    rw [hpred]
    simp
  have hpe : (getBlock (writeVar var b (.instRef (prependPhi st b).1) (prependPhi st b).2)
      b).preds.length = 0 := by
    have hp : (getBlock (writeVar var b (.instRef (prependPhi st b).1)
        (prependPhi st b).2) b).preds = (getBlock st b).preds := by
      show (getBlock (prependPhi st b).2 b).preds = _
      exact preds_after_modify { st with arena := st.arena ++ [{ opcode := .Phi }] } st b b
        _ rfl (fun blk => rfl)
    rw [hp, hpred]
    rfl
  have hargs : (getInst (writeVar var b (.instRef (prependPhi st b).1) (prependPhi st b).2)
      (prependPhi st b).1).phiArgs = [] := by
    have hg : getInst (writeVar var b (.instRef (prependPhi st b).1) (prependPhi st b).2)
        (prependPhi st b).1 = { opcode := .Phi } := by
      show getInst { st with arena := st.arena ++ [{ opcode := .Phi }] } st.arena.length = _
      rw [getInst_append, if_neg (by omega), if_pos rfl]
    rw [hg]
  have hstep : stepTop var (freshFrame b) st = .pop
      (TryRemoveTrivialPhi (writeVar var b (.instRef (prependPhi st b).1)
        (prependPhi st b).2) (prependPhi st b).1 b (UndefOpcode var)).1
      (writeVar var b
        (TryRemoveTrivialPhi (writeVar var b (.instRef (prependPhi st b).1)
          (prependPhi st b).2) (prependPhi st b).1 b (UndefOpcode var)).1
        (TryRemoveTrivialPhi (writeVar var b (.instRef (prependPhi st b).1)
          (prependPhi st b).2) (prependPhi st b).1 b (UndefOpcode var)).2) := by
    rw [stepTop_start_phi var b st hdef hseal hlen]
    rw [preparePhiOperand_done var _ _ (by exact hpe.symm)]
    rfl
  have hrun : ReadVariable var b st 1 = some
      ((TryRemoveTrivialPhi (writeVar var b (.instRef (prependPhi st b).1)
          (prependPhi st b).2) (prependPhi st b).1 b (UndefOpcode var)).1,
        writeVar var b
          (TryRemoveTrivialPhi (writeVar var b (.instRef (prependPhi st b).1)
            (prependPhi st b).2) (prependPhi st b).1 b (UndefOpcode var)).1
          (TryRemoveTrivialPhi (writeVar var b (.instRef (prependPhi st b).1)
            (prependPhi st b).2) (prependPhi st b).1 b (UndefOpcode var)).2) := by
    unfold ReadVariable
    rw [runFrame_eq_some_iff]
    refine ⟨1, le_rfl, ?_⟩
    rw [steps_succ_of_big var 0 _ (by simp), step_cons, hstep]
    rfl
  rw [TryRemoveTrivialPhi_no_args _ _ b (UndefOpcode var) hargs] at hrun
  dsimp only [] at hrun
  refine ⟨(writeVar var b (.instRef (prependPhi st b).1) (prependPhi st b).2).arena.length,
    _, hrun, ?_⟩
  rw [getInst_writeVar2, opcode_replaceUses, getInst_modifyBlock, getInst_append,
    if_neg (by omega), if_pos rfl]

/-- Hypothesis transport along a run: the CFG facts survive `StInv`. -/
theorem hyps_transfer {st st' : PassState} (rank : Nat → Nat) (hinv : StInv st st')
    (Hrank : ∀ z, (getBlock st z).preds.length = 1 →
      rank ((getBlock st z).preds.getD 0 0) < rank z)
    (Hsealed : ∀ z ∈ st.sealedBlocks, z < st.blocks.length) :
    (∀ z, (getBlock st' z).preds.length = 1 →
      rank ((getBlock st' z).preds.getD 0 0) < rank z) ∧
    (∀ z ∈ st'.sealedBlocks, z < st'.blocks.length) := by
  obtain ⟨hlen, hp, hs, -⟩ := hinv
  constructor
  · intro z hz
    rw [hp z] at hz ⊢
    exact Hrank z hz
  · intro z hz
    rw [hs] at hz
    rw [hlen]
    exact Hsealed z hz

/-- Termination of `Pass::ReadVariable`: when the single-predecessor chains
are acyclic (witnessed by `rank`) and the sealed blocks are in range, the
loop finishes within some number of iterations; the run leaves the CFG
intact, only grows the definition table, and caches a definition for the
block it read. -/
theorem readVariable_total (var : SsaVar) (rank : Nat → Nat) :
    ∀ (u rk : Nat) (st : PassState) (b : Nat),
      (∀ z, (getBlock st z).preds.length = 1 →
        rank ((getBlock st z).preds.getD 0 0) < rank z) →
      (∀ z ∈ st.sealedBlocks, z < st.blocks.length) →
      undefCount var st ≤ u → rank b ≤ rk →
      ∃ fuel v st', ReadVariable var b st fuel = some (v, st') ∧
        StInv st st' ∧ DefsMono st st' ∧ (lookupDef st' var b).isSome = true := by
  intro u
  induction u using Nat.strong_induction_on with
  | _ u ihu =>
    intro rk
    induction rk using Nat.strong_induction_on with
    | _ rk ihrk =>
      have phiLoop : ∀ (m : Nat) (stc : PassState) (top : ReadFrame) (B : List ReadFrame),
          B ≠ [] →
          (∀ z, (getBlock stc z).preds.length = 1 →
            rank ((getBlock stc z).preds.getD 0 0) < rank z) →
          (∀ z ∈ stc.sealedBlocks, z < stc.blocks.length) →
          undefCount var stc < u →
          top.pc = .PushPhiArgument →
          top.predEnd = (getBlock stc (top.block.getD 0)).preds.length →
          (getBlock stc (top.block.getD 0)).preds.length ≠ 1 →
          top.predIt < top.predEnd →
          top.predEnd - top.predIt ≤ m →
          ∃ k r st', steps var k (top :: B, stc) = (setResult r B, st') ∧
            StInv stc st' ∧ DefsMono stc st' := by
        intro m
        induction m with
        | zero =>
          intro stc top B _ _ _ _ _ _ _ hlt hm
          omega
        | succ m ihm =>
          intro stc top B hB Hrank1 Hsealed1 hu1 hpc hpe hne1 hlt hm
          have hbig : ¬ ((top :: B : List ReadFrame),
              stc).1.length ≤ 1 := by
            have := List.length_pos.mpr hB
            simp only [List.length_cons]
            omega
          by_cases hdone : top.predIt + 1 = top.predEnd
          · -- last operand: append it, run trivial-φ elimination, pop
            have hstep : stepTop var top stc = .pop
                (TryRemoveTrivialPhi (addPhiOperand stc top.phi
                    ((getBlock stc (top.block.getD 0)).preds.getD top.predIt 0) top.result)
                  top.phi (top.block.getD 0) (UndefOpcode var)).1
                (writeVar var (top.block.getD 0)
                  (TryRemoveTrivialPhi (addPhiOperand stc top.phi
                      ((getBlock stc (top.block.getD 0)).preds.getD top.predIt 0) top.result)
                    top.phi (top.block.getD 0) (UndefOpcode var)).1
                  (TryRemoveTrivialPhi (addPhiOperand stc top.phi
                      ((getBlock stc (top.block.getD 0)).preds.getD top.predIt 0) top.result)
                    top.phi (top.block.getD 0) (UndefOpcode var)).2) := by
              rw [stepTop_pushArg var top stc hpc]
              rw [preparePhiOperand_done var _ _ (by exact hdone)]
            refine ⟨1,
              (TryRemoveTrivialPhi (addPhiOperand stc top.phi
                  ((getBlock stc (top.block.getD 0)).preds.getD top.predIt 0) top.result)
                top.phi (top.block.getD 0) (UndefOpcode var)).1,
              writeVar var (top.block.getD 0)
                (TryRemoveTrivialPhi (addPhiOperand stc top.phi
                    ((getBlock stc (top.block.getD 0)).preds.getD top.predIt 0) top.result)
                  top.phi (top.block.getD 0) (UndefOpcode var)).1
                (TryRemoveTrivialPhi (addPhiOperand stc top.phi
                    ((getBlock stc (top.block.getD 0)).preds.getD top.predIt 0) top.result)
                  top.phi (top.block.getD 0) (UndefOpcode var)).2, ?_, ?_, ?_⟩
            · rw [steps_succ_of_big var 0 _ hbig, step_cons, hstep]
              rfl
            · have h_a : StInv stc (addPhiOperand stc top.phi
                  ((getBlock stc (top.block.getD 0)).preds.getD top.predIt 0) top.result) :=
                StInv.of_blocks_eq rfl rfl
              have h_t := StInv_tryRemoveTrivialPhi (addPhiOperand stc top.phi
                  ((getBlock stc (top.block.getD 0)).preds.getD top.predIt 0) top.result)
                top.phi (top.block.getD 0) (UndefOpcode var)
                (by rintro ⟨-, hc⟩; exact hne1 hc)
              exact h_a.trans (h_t.trans (StInv.of_blocks_eq rfl rfl))
            · have h_a : DefsMono stc (addPhiOperand stc top.phi
                  ((getBlock stc (top.block.getD 0)).preds.getD top.predIt 0) top.result) :=
                DefsMono.of_currentDef_eq rfl
              have h_t : DefsMono (addPhiOperand stc top.phi
                  ((getBlock stc (top.block.getD 0)).preds.getD top.predIt 0) top.result)
                  (TryRemoveTrivialPhi (addPhiOperand stc top.phi
                    ((getBlock stc (top.block.getD 0)).preds.getD top.predIt 0) top.result)
                    top.phi (top.block.getD 0) (UndefOpcode var)).2 :=
                DefsMono.of_currentDef_eq
                  (tryRemoveTrivialPhi_state _ top.phi (top.block.getD 0)
                    (UndefOpcode var)).2.2.2.1
              exact h_a.transDefs (h_t.transDefs (defsMono_writeVar var (top.block.getD 0) _ _))
          · -- more operands: push the next predecessor read
            have hlt2 : top.predIt + 1 < top.predEnd := by omega
            have hstep : stepTop var top stc = .push
                (freshFrame ((getBlock stc (top.block.getD 0)).preds.getD (top.predIt + 1) 0))
                { top with predIt := top.predIt + 1, pc := .PushPhiArgument }
                (addPhiOperand stc top.phi
                  ((getBlock stc (top.block.getD 0)).preds.getD top.predIt 0) top.result) := by
              rw [stepTop_pushArg var top stc hpc]
              rw [preparePhiOperand_more var _ _ (by exact hdone)]
              rfl
            obtain ⟨f1, v1, st1, hrun1, hinv1, hmono1, -⟩ :=
              ihu (undefCount var (addPhiOperand stc top.phi
                  ((getBlock stc (top.block.getD 0)).preds.getD top.predIt 0) top.result))
                hu1
                (rank ((getBlock stc (top.block.getD 0)).preds.getD (top.predIt + 1) 0))
                (addPhiOperand stc top.phi
                  ((getBlock stc (top.block.getD 0)).preds.getD top.predIt 0) top.result)
                ((getBlock stc (top.block.getD 0)).preds.getD (top.predIt + 1) 0)
                Hrank1 Hsealed1 le_rfl le_rfl
            obtain ⟨k1, hrunB⟩ := steps_sub_run var _ _ f1 v1 st1
              ({ top with predIt := top.predIt + 1, pc := .PushPhiArgument } :: B)
              (by simp) hrun1
            have hinvA : StInv stc st1 := (StInv.of_blocks_eq rfl rfl).trans hinv1
            obtain ⟨Hrank2, Hsealed2⟩ := hyps_transfer rank hinvA Hrank1 Hsealed1
            have hu2 : undefCount var st1 < u := by
              have hmCA : DefsMono stc st1 :=
                (DefsMono.of_currentDef_eq rfl).transDefs hmono1
              have h1 : undefCount var st1 ≤ undefCount var stc :=
                undefCount_le hmCA hinvA.1
              omega
            obtain ⟨k2, r2, st2, hrun2, hinv2, hmono2⟩ := ihm st1
              { top with predIt := top.predIt + 1, pc := .PushPhiArgument, result := v1 } B hB
              Hrank2 Hsealed2 hu2 rfl
              (by show top.predEnd = _; rw [hinvA.2.1]; exact hpe)
              (by rw [hinvA.2.1]; exact hne1)
              (by show top.predIt + 1 < top.predEnd; omega)
              (by show top.predEnd - (top.predIt + 1) ≤ m; omega)
            refine ⟨1 + (k1 + k2), r2, st2, ?_, hinvA.trans hinv2,
              ((DefsMono.of_currentDef_eq rfl).transDefs hmono1).transDefs hmono2⟩
            rw [steps_add, steps_succ_of_big var 0 _ hbig, step_cons, hstep]
            show steps var (k1 + k2) (freshFrame _ ::
              ({ top with predIt := top.predIt + 1, pc := .PushPhiArgument } :: B), _) = _
            rw [steps_add, hrunB]
            exact hrun2
      intro st b Hrank Hsealed hu hrk
      cases hdef : lookupDef st var b with
      | some v =>
        refine ⟨1, v, writeVar var b v st, ?_, StInv.of_blocks_eq rfl rfl,
          defsMono_writeVar var b v st, ?_⟩
        · unfold ReadVariable
          rw [runFrame_eq_some_iff]
          refine ⟨1, le_rfl, ?_⟩
          rw [steps_succ_of_big var 0 _ (by simp), step_cons, stepTop_start_hit var b st v hdef]
          rfl
        · rw [lookupDef_writeVar_self]
          rfl
      | none =>
        by_cases hseal : b ∈ st.sealedBlocks
        · by_cases hlen1 : (getBlock st b).preds.length = 1
          · -- sealed single-predecessor: recurse into the predecessor
            obtain ⟨f1, v, st1, hrun1, hinv1, hmono1, -⟩ :=
              ihrk (rank ((getBlock st b).preds.getD 0 0))
                (by have := Hrank b hlen1; omega) st
                ((getBlock st b).preds.getD 0 0) Hrank Hsealed hu le_rfl
            obtain ⟨k1, hrunB⟩ := steps_sub_run var _ _ f1 v st1
              ([{ freshFrame b with pc := .SetValue }, sentinelFrame]) (by simp) hrun1
            refine ⟨1 + (k1 + 1), v, writeVar var b v st1, ?_,
              hinv1.trans (StInv.of_blocks_eq rfl rfl),
              hmono1.transDefs (defsMono_writeVar var b v st1), ?_⟩
            · unfold ReadVariable
              rw [runFrame_eq_some_iff]
              refine ⟨1 + (k1 + 1), le_rfl, ?_⟩
              rw [steps_add, steps_succ_of_big var 0 _ (by simp), step_cons,
                stepTop_start_single var b st hdef hseal hlen1]
              show steps var (k1 + 1) ([freshFrame ((getBlock st b).preds.getD 0 0),
                { freshFrame b with pc := .SetValue }, sentinelFrame], st) = _
              rw [steps_add, hrunB]
              show steps var 1
                ([{ freshFrame b with pc := .SetValue, result := v }, sentinelFrame], st1) = _
              rw [steps_succ_of_big var 0 _ (by simp), step_cons,
                stepTop_setValue var _ st1 rfl]
              rfl
            · rw [lookupDef_writeVar_self]
              rfl
          · -- sealed with zero or several predecessors: operandless φ
            have hbrange : b < st.blocks.length := Hsealed b hseal
            have hinv01 : StInv st (writeVar var b (.instRef (prependPhi st b).1)
                (prependPhi st b).2) :=
              (StInv_prependPhi st b (.inr hlen1)).trans (StInv.of_blocks_eq rfl rfl)
            have hmono01 : DefsMono st (writeVar var b (.instRef (prependPhi st b).1)
                (prependPhi st b).2) :=
              (DefsMono.of_currentDef_eq rfl).transDefs (defsMono_writeVar var b _ _)
            have hdef1 : (lookupDef (writeVar var b (.instRef (prependPhi st b).1)
                (prependPhi st b).2) var b).isSome = true := by
              rw [lookupDef_writeVar_self]
              rfl
            have hu1 : undefCount var (writeVar var b (.instRef (prependPhi st b).1)
                (prependPhi st b).2) < u := by
              have h1 : undefCount var (writeVar var b (.instRef (prependPhi st b).1)
                  (prependPhi st b).2) < undefCount var st :=
                undefCount_lt hmono01 hinv01.1 hbrange hdef hdef1
              omega
            obtain ⟨Hrank1, Hsealed1⟩ := hyps_transfer rank hinv01 Hrank Hsealed
            by_cases hz : (0 : Nat) = (getBlock (writeVar var b
                (.instRef (prependPhi st b).1) (prependPhi st b).2) b).preds.length
            · -- no predecessors at all: pop immediately with the trivial φ result
              have hstep : stepTop var (freshFrame b) st = .pop
                  (TryRemoveTrivialPhi (writeVar var b (.instRef (prependPhi st b).1)
                      (prependPhi st b).2) (prependPhi st b).1 b (UndefOpcode var)).1
                  (writeVar var b
                    (TryRemoveTrivialPhi (writeVar var b (.instRef (prependPhi st b).1)
                        (prependPhi st b).2) (prependPhi st b).1 b (UndefOpcode var)).1
                    (TryRemoveTrivialPhi (writeVar var b (.instRef (prependPhi st b).1)
                        (prependPhi st b).2) (prependPhi st b).1 b (UndefOpcode var)).2) := by
                rw [stepTop_start_phi var b st hdef hseal hlen1]
                rw [preparePhiOperand_done var _ _ (by exact hz)]
                rfl
              have hne1' : ¬ (b ∈ (writeVar var b (.instRef (prependPhi st b).1)
                  (prependPhi st b).2).sealedBlocks ∧
                  (getBlock (writeVar var b (.instRef (prependPhi st b).1)
                    (prependPhi st b).2) b).preds.length = 1) := by
                rintro ⟨-, hc⟩
                omega
              refine ⟨1,
                (TryRemoveTrivialPhi (writeVar var b (.instRef (prependPhi st b).1)
                    (prependPhi st b).2) (prependPhi st b).1 b (UndefOpcode var)).1,
                writeVar var b
                  (TryRemoveTrivialPhi (writeVar var b (.instRef (prependPhi st b).1)
                      (prependPhi st b).2) (prependPhi st b).1 b (UndefOpcode var)).1
                  (TryRemoveTrivialPhi (writeVar var b (.instRef (prependPhi st b).1)
                      (prependPhi st b).2) (prependPhi st b).1 b (UndefOpcode var)).2,
                ?_, ?_, ?_, ?_⟩
              · unfold ReadVariable
                rw [runFrame_eq_some_iff]
                refine ⟨1, le_rfl, ?_⟩
                rw [steps_succ_of_big var 0 _ (by simp), step_cons, hstep]
                rfl
              · exact hinv01.trans ((StInv_tryRemoveTrivialPhi _ (prependPhi st b).1 b
                  (UndefOpcode var) hne1').trans (StInv.of_blocks_eq rfl rfl))
              · exact hmono01.transDefs ((DefsMono.of_currentDef_eq
                  (tryRemoveTrivialPhi_state _ (prependPhi st b).1 b
                    (UndefOpcode var)).2.2.2.1).transDefs (defsMono_writeVar var b _ _))
              · rw [lookupDef_writeVar_self]
                rfl
            · -- at least two predecessors: read each one, then eliminate
              have hstep : stepTop var (freshFrame b) st = .push
                  (freshFrame ((getBlock (writeVar var b (.instRef (prependPhi st b).1)
                    (prependPhi st b).2) b).preds.getD 0 0))
                  { block := some b, result := .empty, phi := (prependPhi st b).1,
                    predIt := 0,
                    predEnd := (getBlock (writeVar var b (.instRef (prependPhi st b).1)
                      (prependPhi st b).2) b).preds.length,
                    pc := .PushPhiArgument }
                  (writeVar var b (.instRef (prependPhi st b).1) (prependPhi st b).2) := by
                rw [stepTop_start_phi var b st hdef hseal hlen1]
                rw [preparePhiOperand_more var _ _ (by exact hz)]
                rfl
              obtain ⟨f1, v1, st1, hrun1, hinv1, hmono1, -⟩ :=
                ihu (undefCount var (writeVar var b (.instRef (prependPhi st b).1)
                    (prependPhi st b).2)) hu1
                  (rank ((getBlock (writeVar var b (.instRef (prependPhi st b).1)
                    (prependPhi st b).2) b).preds.getD 0 0))
                  (writeVar var b (.instRef (prependPhi st b).1) (prependPhi st b).2)
                  ((getBlock (writeVar var b (.instRef (prependPhi st b).1)
                    (prependPhi st b).2) b).preds.getD 0 0)
                  Hrank1 Hsealed1 le_rfl le_rfl
              obtain ⟨k1, hrunB⟩ := steps_sub_run var _ _ f1 v1 st1
                ([{ block := some b, result := .empty, phi := (prependPhi st b).1,
                    predIt := 0,
                    predEnd := (getBlock (writeVar var b (.instRef (prependPhi st b).1)
                      (prependPhi st b).2) b).preds.length,
                    pc := .PushPhiArgument }, sentinelFrame]) (by simp) hrun1
              have hinvA : StInv st st1 := hinv01.trans hinv1
              obtain ⟨Hrank2, Hsealed2⟩ := hyps_transfer rank hinvA Hrank Hsealed
              have hu2 : undefCount var st1 < u := by
                have h1 : undefCount var st1 ≤ undefCount var (writeVar var b
                    (.instRef (prependPhi st b).1) (prependPhi st b).2) :=
                  undefCount_le hmono1 hinv1.1
                omega
              obtain ⟨k2, r2, st2, hrun2, hinv2, hmono2⟩ := phiLoop
                ((getBlock (writeVar var b (.instRef (prependPhi st b).1)
                  (prependPhi st b).2) b).preds.length) st1
                { block := some b, result := v1, phi := (prependPhi st b).1, predIt := 0,
                  predEnd := (getBlock (writeVar var b (.instRef (prependPhi st b).1)
                    (prependPhi st b).2) b).preds.length,
                  pc := .PushPhiArgument }
                [sentinelFrame] (by simp) Hrank2 Hsealed2 hu2 rfl
                (by show (getBlock (writeVar var b (.instRef (prependPhi st b).1)
                      (prependPhi st b).2) b).preds.length = _
                    rw [hinv1.2.1]
                    rfl)
                (by rw [hinv1.2.1]
                    rw [hinv01.2.1]
                    exact hlen1)
                (by show (0 : Nat) < (getBlock (writeVar var b (.instRef (prependPhi st b).1)
                      (prependPhi st b).2) b).preds.length
                    omega)
                le_rfl
              refine ⟨1 + (k1 + k2), r2, st2, ?_, hinvA.trans hinv2,
                (hmono01.transDefs hmono1).transDefs hmono2, ?_⟩
              · unfold ReadVariable
                rw [runFrame_eq_some_iff]
                refine ⟨1 + (k1 + k2), le_rfl, ?_⟩
                rw [steps_add, steps_succ_of_big var 0 _ (by simp), step_cons, hstep]
                show steps var (k1 + k2) (freshFrame _ ::
                  ([{ block := some b, result := .empty, phi := (prependPhi st b).1,
                      predIt := 0,
                      predEnd := (getBlock (writeVar var b (.instRef (prependPhi st b).1)
                        (prependPhi st b).2) b).preds.length,
                      pc := .PushPhiArgument }, sentinelFrame]), _) = _
                rw [steps_add, hrunB]
                exact hrun2
              · exact hmono2 var b (hmono1 var b hdef1)
        · -- incomplete CFG: operandless φ recorded as incomplete, pop
          refine ⟨1, .instRef (prependPhi st b).1,
            writeVar var b (.instRef (prependPhi st b).1)
              { (prependPhi st b).2 with incompletePhis := (assocInsert b
                  (sortedInsertVar var (prependPhi st b).1
                    ((assocFind b (prependPhi st b).2.incompletePhis).getD []))
                  (prependPhi st b).2.incompletePhis) }, ?_, ?_, ?_, ?_⟩
          · unfold ReadVariable
            rw [runFrame_eq_some_iff]
            refine ⟨1, le_rfl, ?_⟩
            rw [steps_succ_of_big var 0 _ (by simp), step_cons,
              stepTop_start_unsealed var b st hdef hseal]
            rfl
          · exact (StInv_prependPhi st b (.inl hseal)).trans (StInv.of_blocks_eq rfl rfl)
          · exact (DefsMono.of_currentDef_eq rfl).transDefs (defsMono_writeVar var b _ _)
          · rw [lookupDef_writeVar_self]
            rfl

/-! ### Fuel monotonicity of the pass stages -/

theorem ReadVariable_mono (var : SsaVar) (b : Nat) (st : PassState) (fuel fuel' : Nat)
    (out : Value × PassState) (h : ReadVariable var b st fuel = some out)
    (hle : fuel ≤ fuel') : ReadVariable var b st fuel' = some out := by
  obtain ⟨v, st1⟩ := out
  exact runFrame_mono var (freshFrame b) st fuel fuel' (v, st1) h hle

theorem foldPreds_mono (var : SsaVar) (phi : Nat) (fuel fuel' : Nat) (hle : fuel ≤ fuel') :
    ∀ (ps : List Nat) (st st1 : PassState),
      ps.foldlM (fun st p => do
          let (v, st) ← ReadVariable var p st fuel
          pure (addPhiOperand st phi p v)) st = some st1 →
      ps.foldlM (fun st p => do
          let (v, st) ← ReadVariable var p st fuel'
          pure (addPhiOperand st phi p v)) st = some st1 := by
  intro ps
  induction ps with
  | nil =>
    intro st st1 h
    exact h
  | cons p ps ih =>
    intro st st1 h
    rw [List.foldlM_cons] at h ⊢
    cases hr : ReadVariable var p st fuel with
    | none =>
      rw [hr] at h
      simp at h
    | some vst =>
      obtain ⟨v1, stA⟩ := vst
      rw [hr] at h
      rw [ReadVariable_mono var p st fuel fuel' (v1, stA) hr hle]
      simp only [Option.some_bind, Option.pure_def, Option.bind_some] at h ⊢
      exact ih _ st1 h

theorem AddPhiOperands_mono (var : SsaVar) (phi b : Nat) (st : PassState) (fuel fuel' : Nat)
    (out : Value × PassState) (h : AddPhiOperands var phi b st fuel = some out)
    (hle : fuel ≤ fuel') : AddPhiOperands var phi b st fuel' = some out := by
  unfold AddPhiOperands at h ⊢
  dsimp only [] at h ⊢
  cases hfold : (getBlock st b).preds.foldlM (fun st p => do
      let (v, st) ← ReadVariable var p st fuel
      pure (addPhiOperand st phi p v)) st with
  | none =>
    rw [hfold] at h
    simp at h
  | some st1 =>
    rw [hfold] at h
    rw [foldPreds_mono var phi fuel fuel' hle (getBlock st b).preds st st1 hfold]
    exact h

theorem foldPending_mono (b : Nat) (fuel fuel' : Nat) (hle : fuel ≤ fuel') :
    ∀ (l : List (SsaVar × Nat)) (st st1 : PassState),
      l.foldlM (fun st entry => do
          let (_, st) ← AddPhiOperands entry.1 entry.2 b st fuel
          pure st) st = some st1 →
      l.foldlM (fun st entry => do
          let (_, st) ← AddPhiOperands entry.1 entry.2 b st fuel'
          pure st) st = some st1 := by
  intro l
  induction l with
  | nil =>
    intro st st1 h
    exact h
  | cons e l ih =>
    intro st st1 h
    rw [List.foldlM_cons] at h ⊢
    cases hr : AddPhiOperands e.1 e.2 b st fuel with
    | none =>
      rw [hr] at h
      simp at h
    | some vst =>
      obtain ⟨v1, stA⟩ := vst
      rw [hr] at h
      rw [AddPhiOperands_mono e.1 e.2 b st fuel fuel' (v1, stA) hr hle]
      simp only [Option.some_bind, Option.pure_def, Option.bind_some] at h ⊢
      exact ih stA st1 h

theorem SealBlock_mono (b : Nat) (st : PassState) (fuel fuel' : Nat) (st' : PassState)
    (h : SealBlock b st fuel = some st') (hle : fuel ≤ fuel') :
    SealBlock b st fuel' = some st' := by
  unfold SealBlock at h ⊢
  cases hfind : assocFind b st.incompletePhis with
  | none =>
    rw [hfind] at h
    dsimp only [] at h ⊢
    exact h
  | some pending =>
    rw [hfind] at h
    dsimp only [] at h ⊢
    cases hfold : pending.foldlM (fun st entry => do
        let (_, st) ← AddPhiOperands entry.1 entry.2 b st fuel
        pure st) st with
    | none =>
      rw [hfold] at h
      simp at h
    | some st1 =>
      rw [hfold] at h
      rw [foldPending_mono b fuel fuel' hle pending st st1 hfold]
      exact h

theorem VisitInst_mono (st : PassState) (b i : Nat) (fuel fuel' : Nat) (st' : PassState)
    (h : VisitInst st b i fuel = some st') (hle : fuel ≤ fuel') :
    VisitInst st b i fuel' = some st' := by
  cases hop : (getInst st i).opcode
  case GetRegister =>
    simp only [VisitInst, hop] at h ⊢
    split_ifs at h ⊢ with hrz
    · cases hr : ReadVariable (.reg ((getInst st i).args.getD 0 .empty).regOf) b st fuel with
      | none =>
        rw [hr] at h
        simp at h
      | some vst =>
        rw [hr] at h
        rw [ReadVariable_mono _ _ _ fuel fuel' vst hr hle]
        exact h
    · exact h
  case GetPred =>
    simp only [VisitInst, hop] at h ⊢
    split_ifs at h ⊢ with hrz
    · cases hr : ReadVariable (.pred ((getInst st i).args.getD 0 .empty).predOf) b st fuel with
      | none =>
        rw [hr] at h
        simp at h
      | some vst =>
        rw [hr] at h
        rw [ReadVariable_mono _ _ _ fuel fuel' vst hr hle]
        exact h
    · exact h
  case GetGotoVariable =>
    simp only [VisitInst, hop] at h ⊢
    cases hr : ReadVariable (.gotoVar ((getInst st i).args.getD 0 .empty).u32Of) b st fuel with
    | none =>
      rw [hr] at h
      simp at h
    | some vst =>
      rw [hr] at h
      rw [ReadVariable_mono _ _ _ fuel fuel' vst hr hle]
      exact h
  case GetIndirectBranchVariable =>
    simp only [VisitInst, hop] at h ⊢
    cases hr : ReadVariable .indirectBranchVar b st fuel with
    | none =>
      rw [hr] at h
      simp at h
    | some vst =>
      rw [hr] at h
      rw [ReadVariable_mono _ _ _ fuel fuel' vst hr hle]
      exact h
  case GetZFlag =>
    simp only [VisitInst, hop] at h ⊢
    cases hr : ReadVariable .zeroFlag b st fuel with
    | none =>
      rw [hr] at h
      simp at h
    | some vst =>
      rw [hr] at h
      rw [ReadVariable_mono _ _ _ fuel fuel' vst hr hle]
      exact h
  case GetSFlag =>
    simp only [VisitInst, hop] at h ⊢
    cases hr : ReadVariable .signFlag b st fuel with
    | none =>
      rw [hr] at h
      simp at h
    | some vst =>
      rw [hr] at h
      rw [ReadVariable_mono _ _ _ fuel fuel' vst hr hle]
      exact h
  case GetCFlag =>
    simp only [VisitInst, hop] at h ⊢
    cases hr : ReadVariable .carryFlag b st fuel with
    | none =>
      rw [hr] at h
      simp at h
    | some vst =>
      rw [hr] at h
      rw [ReadVariable_mono _ _ _ fuel fuel' vst hr hle]
      exact h
  case GetOFlag =>
    simp only [VisitInst, hop] at h ⊢
    cases hr : ReadVariable .overflowFlag b st fuel with
    | none =>
      rw [hr] at h
      simp at h
    | some vst =>
      rw [hr] at h
      rw [ReadVariable_mono _ _ _ fuel fuel' vst hr hle]
      exact h
  all_goals
    simp only [VisitInst, hop] at h ⊢
  all_goals
    exact h

theorem foldInsts_mono (b : Nat) (fuel fuel' : Nat) (hle : fuel ≤ fuel') :
    ∀ (L : List Nat) (st st1 : PassState),
      L.foldlM (fun st i => VisitInst st b i fuel) st = some st1 →
      L.foldlM (fun st i => VisitInst st b i fuel') st = some st1 := by
  intro L
  induction L with
  | nil =>
    intro st st1 h
    exact h
  | cons i L ih =>
    intro st st1 h
    rw [List.foldlM_cons] at h ⊢
    cases hr : VisitInst st b i fuel with
    | none =>
      rw [hr] at h
      simp at h
    | some stA =>
      rw [hr] at h
      rw [VisitInst_mono st b i fuel fuel' stA hr hle]
      simp only [Option.bind_eq_bind, Option.some_bind] at h ⊢
      exact ih stA st1 h

theorem VisitBlock_mono (st : PassState) (b : Nat) (fuel fuel' : Nat) (st' : PassState)
    (h : VisitBlock st b fuel = some st') (hle : fuel ≤ fuel') :
    VisitBlock st b fuel' = some st' := by
  unfold VisitBlock at h ⊢
  cases hfold : (getBlock st b).insts.foldlM (fun st i => VisitInst st b i fuel) st with
  | none =>
    rw [hfold] at h
    simp at h
  | some st1 =>
    rw [hfold] at h
    rw [foldInsts_mono b fuel fuel' hle (getBlock st b).insts st st1 hfold]
    simp only [Option.bind_eq_bind, Option.some_bind] at h ⊢
    exact SealBlock_mono b st1 fuel fuel' st' h hle

/-! ### Totality of the pass stages -/

/-- CFG facts preserved by one pass stage: block count, predecessor lists
and the sealed set are untouched. -/
def Keep (st st' : PassState) : Prop :=
  st'.blocks.length = st.blocks.length ∧
  (∀ z, (getBlock st' z).preds = (getBlock st z).preds) ∧
  st'.sealedBlocks = st.sealedBlocks

theorem Keep.reflKeep (st : PassState) : Keep st st := ⟨rfl, fun _ => rfl, rfl⟩

theorem Keep.transKeep {s1 s2 s3 : PassState} (h12 : Keep s1 s2) (h23 : Keep s2 s3) :
    Keep s1 s3 :=
  ⟨h23.1.trans h12.1, fun z => (h23.2.1 z).trans (h12.2.1 z), h23.2.2.trans h12.2.2⟩

theorem Keep.of_stInv {st st' : PassState} (h : StInv st st') : Keep st st' :=
  ⟨h.1, h.2.1, h.2.2.1⟩

theorem keep_transfer {st st' : PassState} (rank : Nat → Nat) (hk : Keep st st')
    (Hrank : ∀ z, (getBlock st z).preds.length = 1 →
      rank ((getBlock st z).preds.getD 0 0) < rank z)
    (Hsealed : ∀ z ∈ st.sealedBlocks, z < st.blocks.length) :
    (∀ z, (getBlock st' z).preds.length = 1 →
      rank ((getBlock st' z).preds.getD 0 0) < rank z) ∧
    (∀ z ∈ st'.sealedBlocks, z < st'.blocks.length) := by
  obtain ⟨hlen, hp, hs⟩ := hk
  constructor
  · intro z hz
    rw [hp z] at hz ⊢
    exact Hrank z hz
  · intro z hz
    rw [hs] at hz
    rw [hlen]
    exact Hsealed z hz

theorem foldPreds_total (var : SsaVar) (rank : Nat → Nat) (phi : Nat) :
    ∀ (ps : List Nat) (st : PassState),
      (∀ z, (getBlock st z).preds.length = 1 →
        rank ((getBlock st z).preds.getD 0 0) < rank z) →
      (∀ z ∈ st.sealedBlocks, z < st.blocks.length) →
      ∃ fuel st1,
        ps.foldlM (fun st p => do
            let (v, st) ← ReadVariable var p st fuel
            pure (addPhiOperand st phi p v)) st = some st1 ∧ Keep st st1 := by
  intro ps
  induction ps with
  | nil =>
    intro st _ _
    exact ⟨0, st, rfl, Keep.reflKeep st⟩
  | cons p ps ih =>
    intro st Hrank Hsealed
    obtain ⟨f1, v, stA, hrun, hinv, -, -⟩ := readVariable_total var rank
      (undefCount var st) (rank p) st p Hrank Hsealed le_rfl le_rfl
    have hkA : Keep st (addPhiOperand stA phi p v) := Keep.of_stInv hinv
    obtain ⟨HrankA, HsealedA⟩ := keep_transfer rank hkA Hrank Hsealed
    obtain ⟨f2, st1, hfold, hk1⟩ := ih (addPhiOperand stA phi p v) HrankA HsealedA
    refine ⟨max f1 f2, st1, ?_, hkA.transKeep hk1⟩
    rw [List.foldlM_cons]
    rw [ReadVariable_mono var p st f1 (max f1 f2) (v, stA) hrun (le_max_left f1 f2)]
    simp only [Option.some_bind, Option.pure_def, Option.bind_some]
    exact foldPreds_mono var phi f2 (max f1 f2) (le_max_right f1 f2) ps _ st1 hfold

theorem AddPhiOperands_total (var : SsaVar) (rank : Nat → Nat) (phi b : Nat)
    (st : PassState)
    (Hrank : ∀ z, (getBlock st z).preds.length = 1 →
      rank ((getBlock st z).preds.getD 0 0) < rank z)
    (Hsealed : ∀ z ∈ st.sealedBlocks, z < st.blocks.length) :
    ∃ fuel out, AddPhiOperands var phi b st fuel = some out ∧ Keep st out.2 := by
  obtain ⟨fuel, st1, hfold, hk1⟩ := foldPreds_total var rank phi (getBlock st b).preds
    st Hrank Hsealed
  refine ⟨fuel, TryRemoveTrivialPhi st1 phi b (UndefOpcode var), ?_, ?_⟩
  · unfold AddPhiOperands
    dsimp only []
    rw [hfold]
    rfl
  · obtain ⟨hl, hp, hs, -, -, -⟩ := tryRemoveTrivialPhi_state st1 phi b (UndefOpcode var)
    exact hk1.transKeep ⟨hl, hp, hs⟩

theorem foldPending_total (rank : Nat → Nat) (b : Nat) :
    ∀ (l : List (SsaVar × Nat)) (st : PassState),
      (∀ z, (getBlock st z).preds.length = 1 →
        rank ((getBlock st z).preds.getD 0 0) < rank z) →
      (∀ z ∈ st.sealedBlocks, z < st.blocks.length) →
      ∃ fuel st1,
        l.foldlM (fun st entry => do
            let (_, st) ← AddPhiOperands entry.1 entry.2 b st fuel
            pure st) st = some st1 ∧ Keep st st1 := by
  intro l
  induction l with
  | nil =>
    intro st _ _
    exact ⟨0, st, rfl, Keep.reflKeep st⟩
  | cons e l ih =>
    intro st Hrank Hsealed
    obtain ⟨f1, out, hrun, hkA⟩ := AddPhiOperands_total e.1 rank e.2 b st Hrank Hsealed
    obtain ⟨HrankA, HsealedA⟩ := keep_transfer rank hkA Hrank Hsealed
    obtain ⟨f2, st1, hfold, hk1⟩ := ih out.2 HrankA HsealedA
    refine ⟨max f1 f2, st1, ?_, hkA.transKeep hk1⟩
    rw [List.foldlM_cons]
    rw [AddPhiOperands_mono e.1 e.2 b st f1 (max f1 f2) out hrun (le_max_left f1 f2)]
    simp only [Option.some_bind, Option.pure_def, Option.bind_some]
    exact foldPending_mono b f2 (max f1 f2) (le_max_right f1 f2) l out.2 st1 hfold

theorem SealBlock_total (rank : Nat → Nat) (b : Nat) (st : PassState)
    (Hrank : ∀ z, (getBlock st z).preds.length = 1 →
      rank ((getBlock st z).preds.getD 0 0) < rank z)
    (Hsealed : ∀ z ∈ st.sealedBlocks, z < st.blocks.length) :
    ∃ fuel st', SealBlock b st fuel = some st' ∧
      st'.blocks.length = st.blocks.length ∧
      (∀ z, (getBlock st' z).preds = (getBlock st z).preds) ∧
      st'.sealedBlocks = b :: st.sealedBlocks := by
  cases hfind : assocFind b st.incompletePhis with
  | none =>
    refine ⟨0, { st with sealedBlocks := b :: st.sealedBlocks }, ?_, rfl, fun _ => rfl, rfl⟩
    unfold SealBlock
    rw [hfind]
    rfl
  | some pending =>
    obtain ⟨fuel, st1, hfold, hk1⟩ := foldPending_total rank b pending st Hrank Hsealed
    refine ⟨fuel, { st1 with sealedBlocks := b :: st1.sealedBlocks }, ?_, ?_, ?_, ?_⟩
    · unfold SealBlock
      rw [hfind]
      dsimp only []
      rw [hfold]
      rfl
    · exact hk1.1
    · exact hk1.2.1
    · rw [hk1.2.2]

theorem VisitInst_total (rank : Nat → Nat) (st : PassState) (b i : Nat)
    (Hrank : ∀ z, (getBlock st z).preds.length = 1 →
      rank ((getBlock st z).preds.getD 0 0) < rank z)
    (Hsealed : ∀ z ∈ st.sealedBlocks, z < st.blocks.length) :
    ∃ fuel st', VisitInst st b i fuel = some st' ∧ Keep st st' := by
  cases hop : (getInst st i).opcode
  case GetRegister =>
    by_cases hrz : ((getInst st i).args.getD 0 .empty).regOf ≠ RZ
    · obtain ⟨f1, v, st1, hrun, hinv, -, -⟩ := readVariable_total
        (.reg ((getInst st i).args.getD 0 .empty).regOf) rank
        (undefCount (.reg ((getInst st i).args.getD 0 .empty).regOf) st) (rank b)
        st b Hrank Hsealed le_rfl le_rfl
      refine ⟨f1, replaceUses st1 i v, ?_, (Keep.of_stInv hinv).transKeep (Keep.reflKeep _)⟩
      simp only [VisitInst, hop]
      rw [if_pos hrz, hrun]
      rfl
    · refine ⟨0, st, ?_, Keep.reflKeep st⟩
      simp only [VisitInst, hop]
      rw [if_neg hrz]
      rfl
  case GetPred =>
    by_cases hrz : ((getInst st i).args.getD 0 .empty).predOf ≠ PT
    · obtain ⟨f1, v, st1, hrun, hinv, -, -⟩ := readVariable_total
        (.pred ((getInst st i).args.getD 0 .empty).predOf) rank
        (undefCount (.pred ((getInst st i).args.getD 0 .empty).predOf) st) (rank b)
        st b Hrank Hsealed le_rfl le_rfl
      refine ⟨f1, replaceUses st1 i v, ?_, (Keep.of_stInv hinv).transKeep (Keep.reflKeep _)⟩
      simp only [VisitInst, hop]
      rw [if_pos hrz, hrun]
      rfl
    · refine ⟨0, st, ?_, Keep.reflKeep st⟩
      simp only [VisitInst, hop]
      rw [if_neg hrz]
      rfl
  case GetGotoVariable =>
    obtain ⟨f1, v, st1, hrun, hinv, -, -⟩ := readVariable_total
      (.gotoVar ((getInst st i).args.getD 0 .empty).u32Of) rank
      (undefCount (.gotoVar ((getInst st i).args.getD 0 .empty).u32Of) st) (rank b)
      st b Hrank Hsealed le_rfl le_rfl
    refine ⟨f1, replaceUses st1 i v, ?_, (Keep.of_stInv hinv).transKeep (Keep.reflKeep _)⟩
    simp only [VisitInst, hop]
    rw [hrun]
    rfl
  case GetIndirectBranchVariable =>
    obtain ⟨f1, v, st1, hrun, hinv, -, -⟩ := readVariable_total .indirectBranchVar rank
      (undefCount .indirectBranchVar st) (rank b) st b Hrank Hsealed le_rfl le_rfl
    refine ⟨f1, replaceUses st1 i v, ?_, (Keep.of_stInv hinv).transKeep (Keep.reflKeep _)⟩
    simp only [VisitInst, hop]
    rw [hrun]
    rfl
  case GetZFlag =>
    obtain ⟨f1, v, st1, hrun, hinv, -, -⟩ := readVariable_total .zeroFlag rank
      (undefCount .zeroFlag st) (rank b) st b Hrank Hsealed le_rfl le_rfl
    refine ⟨f1, replaceUses st1 i v, ?_, (Keep.of_stInv hinv).transKeep (Keep.reflKeep _)⟩
    simp only [VisitInst, hop]
    rw [hrun]
    rfl
  case GetSFlag =>
    obtain ⟨f1, v, st1, hrun, hinv, -, -⟩ := readVariable_total .signFlag rank
      (undefCount .signFlag st) (rank b) st b Hrank Hsealed le_rfl le_rfl
    refine ⟨f1, replaceUses st1 i v, ?_, (Keep.of_stInv hinv).transKeep (Keep.reflKeep _)⟩
    simp only [VisitInst, hop]
    rw [hrun]
    rfl
  case GetCFlag =>
    obtain ⟨f1, v, st1, hrun, hinv, -, -⟩ := readVariable_total .carryFlag rank
      (undefCount .carryFlag st) (rank b) st b Hrank Hsealed le_rfl le_rfl
    refine ⟨f1, replaceUses st1 i v, ?_, (Keep.of_stInv hinv).transKeep (Keep.reflKeep _)⟩
    simp only [VisitInst, hop]
    rw [hrun]
    rfl
  case GetOFlag =>
    obtain ⟨f1, v, st1, hrun, hinv, -, -⟩ := readVariable_total .overflowFlag rank
      (undefCount .overflowFlag st) (rank b) st b Hrank Hsealed le_rfl le_rfl
    refine ⟨f1, replaceUses st1 i v, ?_, (Keep.of_stInv hinv).transKeep (Keep.reflKeep _)⟩
    simp only [VisitInst, hop]
    rw [hrun]
    rfl
  case SetRegister =>
    by_cases hrz : ((getInst st i).args.getD 0 .empty).regOf ≠ RZ
    · refine ⟨0, writeVar (.reg ((getInst st i).args.getD 0 .empty).regOf) b
        ((getInst st i).args.getD 1 .empty) st, ?_, Keep.reflKeep _⟩
      simp only [VisitInst, hop]
      rw [if_pos hrz]
      rfl
    · refine ⟨0, st, ?_, Keep.reflKeep st⟩
      simp only [VisitInst, hop]
      rw [if_neg hrz]
      rfl
  case SetPred =>
    by_cases hrz : ((getInst st i).args.getD 0 .empty).predOf ≠ PT
    · refine ⟨0, writeVar (.pred ((getInst st i).args.getD 0 .empty).predOf) b
        ((getInst st i).args.getD 1 .empty) st, ?_, Keep.reflKeep _⟩
      simp only [VisitInst, hop]
      rw [if_pos hrz]
      rfl
    · refine ⟨0, st, ?_, Keep.reflKeep st⟩
      simp only [VisitInst, hop]
      rw [if_neg hrz]
      rfl
  all_goals
    refine ⟨0, ?_, ?_, ?_⟩
  case SetGotoVariable.refine_1 =>
    exact writeVar (.gotoVar ((getInst st i).args.getD 0 .empty).u32Of) b
      ((getInst st i).args.getD 1 .empty) st
  case SetGotoVariable.refine_2 => simp only [VisitInst, hop]; rfl
  case SetGotoVariable.refine_3 => exact Keep.reflKeep _
  case SetIndirectBranchVariable.refine_1 =>
    exact writeVar .indirectBranchVar b ((getInst st i).args.getD 0 .empty) st
  case SetIndirectBranchVariable.refine_2 => simp only [VisitInst, hop]; rfl
  case SetIndirectBranchVariable.refine_3 => exact Keep.reflKeep _
  case SetZFlag.refine_1 =>
    exact writeVar .zeroFlag b ((getInst st i).args.getD 0 .empty) st
  case SetZFlag.refine_2 => simp only [VisitInst, hop]; rfl
  case SetZFlag.refine_3 => exact Keep.reflKeep _
  case SetSFlag.refine_1 =>
    exact writeVar .signFlag b ((getInst st i).args.getD 0 .empty) st
  case SetSFlag.refine_2 => simp only [VisitInst, hop]; rfl
  case SetSFlag.refine_3 => exact Keep.reflKeep _
  case SetCFlag.refine_1 =>
    exact writeVar .carryFlag b ((getInst st i).args.getD 0 .empty) st
  case SetCFlag.refine_2 => simp only [VisitInst, hop]; rfl
  case SetCFlag.refine_3 => exact Keep.reflKeep _
  case SetOFlag.refine_1 =>
    exact writeVar .overflowFlag b ((getInst st i).args.getD 0 .empty) st
  case SetOFlag.refine_2 => simp only [VisitInst, hop]; rfl
  case SetOFlag.refine_3 => exact Keep.reflKeep _
  all_goals
    first
    | exact st
    | (simp only [VisitInst, hop]; rfl)
    | exact Keep.reflKeep st

theorem foldInsts_total (rank : Nat → Nat) (b : Nat) :
    ∀ (L : List Nat) (st : PassState),
      (∀ z, (getBlock st z).preds.length = 1 →
        rank ((getBlock st z).preds.getD 0 0) < rank z) →
      (∀ z ∈ st.sealedBlocks, z < st.blocks.length) →
      ∃ fuel st1, L.foldlM (fun st i => VisitInst st b i fuel) st = some st1 ∧
        Keep st st1 := by
  intro L
  induction L with
  | nil =>
    intro st _ _
    exact ⟨0, st, rfl, Keep.reflKeep st⟩
  | cons i L ih =>
    intro st Hrank Hsealed
    obtain ⟨f1, stA, hrun, hkA⟩ := VisitInst_total rank st b i Hrank Hsealed
    obtain ⟨HrankA, HsealedA⟩ := keep_transfer rank hkA Hrank Hsealed
    obtain ⟨f2, st1, hfold, hk1⟩ := ih stA HrankA HsealedA
    refine ⟨max f1 f2, st1, ?_, hkA.transKeep hk1⟩
    rw [List.foldlM_cons]
    rw [VisitInst_mono st b i f1 (max f1 f2) stA hrun (le_max_left f1 f2)]
    simp only [Option.bind_eq_bind, Option.some_bind]
    exact foldInsts_mono b f2 (max f1 f2) (le_max_right f1 f2) L stA st1 hfold

theorem VisitBlock_total (rank : Nat → Nat) (st : PassState) (b : Nat)
    (hb : b < st.blocks.length)
    (Hrank : ∀ z, (getBlock st z).preds.length = 1 →
      rank ((getBlock st z).preds.getD 0 0) < rank z)
    (Hsealed : ∀ z ∈ st.sealedBlocks, z < st.blocks.length) :
    ∃ fuel st', VisitBlock st b fuel = some st' ∧
      st'.blocks.length = st.blocks.length ∧
      (∀ z, (getBlock st' z).preds = (getBlock st z).preds) ∧
      (∀ z ∈ st'.sealedBlocks, z < st.blocks.length) := by
  obtain ⟨f1, st1, hfold, hk1⟩ := foldInsts_total rank b (getBlock st b).insts st
    Hrank Hsealed
  obtain ⟨Hrank1, Hsealed1⟩ := keep_transfer rank hk1 Hrank Hsealed
  obtain ⟨f2, st', hseal, hlen2, hp2, hs2⟩ := SealBlock_total rank b st1 Hrank1 Hsealed1
  refine ⟨max f1 f2, st', ?_, ?_, ?_, ?_⟩
  · unfold VisitBlock
    rw [foldInsts_mono b f1 (max f1 f2) (le_max_left f1 f2) _ st st1 hfold]
    simp only [Option.bind_eq_bind, Option.some_bind]
    exact SealBlock_mono b st1 f2 (max f1 f2) st' hseal (le_max_right f1 f2)
  · rw [hlen2, hk1.1]
  · intro z
    rw [hp2 z, hk1.2.1 z]
  · intro z hz
    rw [hs2] at hz
    rcases List.mem_cons.mp hz with rfl | hz
    · exact hb
    · rw [hk1.2.2] at hz
      exact (Hsealed z hz).trans_eq rfl

theorem foldBlocks_mono (fuel fuel' : Nat) (hle : fuel ≤ fuel') :
    ∀ (P : List Nat) (st st1 : PassState),
      P.foldlM (fun st b => VisitBlock st b fuel) st = some st1 →
      P.foldlM (fun st b => VisitBlock st b fuel') st = some st1 := by
  intro P
  induction P with
  | nil =>
    intro st st1 h
    exact h
  | cons b P ih =>
    intro st st1 h
    rw [List.foldlM_cons] at h ⊢
    cases hr : VisitBlock st b fuel with
    | none =>
      rw [hr] at h
      simp at h
    | some stA =>
      rw [hr] at h
      rw [VisitBlock_mono st b fuel fuel' stA hr hle]
      simp only [Option.bind_eq_bind, Option.some_bind] at h ⊢
      exact ih stA st1 h

theorem foldBlocks_total (rank : Nat → Nat) :
    ∀ (P : List Nat) (st : PassState),
      (∀ z, (getBlock st z).preds.length = 1 →
        rank ((getBlock st z).preds.getD 0 0) < rank z) →
      (∀ z ∈ st.sealedBlocks, z < st.blocks.length) →
      (∀ bb ∈ P, bb < st.blocks.length) →
      ∃ fuel st1, P.foldlM (fun st b => VisitBlock st b fuel) st = some st1 := by
  intro P
  induction P with
  | nil =>
    intro st _ _ _
    exact ⟨0, st, rfl⟩
  | cons b P ih =>
    intro st Hrank Hsealed hP
    obtain ⟨f1, stA, hrun, hlenA, hpA, hsA⟩ := VisitBlock_total rank st b
      (hP b (by simp)) Hrank Hsealed
    have HrankA : ∀ z, (getBlock stA z).preds.length = 1 →
        rank ((getBlock stA z).preds.getD 0 0) < rank z := by
      intro z hz
      rw [hpA z] at hz ⊢
      exact Hrank z hz
    have HsealedA : ∀ z ∈ stA.sealedBlocks, z < stA.blocks.length := by
      intro z hz
      rw [hlenA]
      exact hsA z hz
    have hPA : ∀ bb ∈ P, bb < stA.blocks.length := by
      intro bb hbb
      rw [hlenA]
      exact hP bb (by simp [hbb])
    obtain ⟨f2, st1, hfold⟩ := ih stA HrankA HsealedA hPA
    refine ⟨max f1 f2, st1, ?_⟩
    rw [List.foldlM_cons]
    rw [VisitBlock_mono st b f1 (max f1 f2) stA hrun (le_max_left f1 f2)]
    simp only [Option.bind_eq_bind, Option.some_bind]
    exact foldBlocks_mono f2 (max f1 f2) (le_max_right f1 f2) P stA st1 hfold

/-- Totality of the whole pass: with acyclic single-predecessor chains and
in-range program blocks, `SsaRewritePass` finishes within some fuel. -/
theorem SsaRewritePass_total (program : List Nat) (st0 : PassState) (rank : Nat → Nat)
    (Hrank : ∀ z, (getBlock st0 z).preds.length = 1 →
      rank ((getBlock st0 z).preds.getD 0 0) < rank z)
    (Hprog : ∀ b ∈ program, b < st0.blocks.length) :
    ∃ fuel st', SsaRewritePass program st0 fuel = some st' := by
  obtain ⟨fuel, st1, hfold⟩ := foldBlocks_total rank program
    { st0 with currentDef := [], sealedBlocks := [], incompletePhis := [] }
    Hrank (fun z hz => absurd hz (List.not_mem_nil z)) Hprog
  exact ⟨fuel, st1, hfold⟩

/-- C9 — the SSA pass raises no error.  First part: for programs whose
single-predecessor chains are acyclic (witnessed by a `rank` that strictly
decreases along them — true of any CFG reachable from an entry) and whose
reverse post order lists in-range blocks, `SsaRewritePass` completes within
some fuel: the only failure source in the embedding is the `ReadVariable`
loop, which the C++ runs unboundedly, and it terminates; no other
construct of the pass can fail, matching the C++ which throws nothing.
Second part: where a read reaches no definition — nothing cached, block
sealed with no predecessors — the pass manufactures an `Undef` instruction
of the variable's width and returns a reference to it instead of failing. -/
theorem ssa_pass_no_failure :
    (∀ (program : List Nat) (st0 : PassState) (rank : Nat → Nat),
      (∀ z, (getBlock st0 z).preds.length = 1 →
        rank ((getBlock st0 z).preds.getD 0 0) < rank z) →
      (∀ b ∈ program, b < st0.blocks.length) →
      ∃ fuel st', SsaRewritePass program st0 fuel = some st') ∧
    (∀ (var : SsaVar) (b : Nat) (st : PassState),
      lookupDef st var b = none → b ∈ st.sealedBlocks → (getBlock st b).preds = [] →
      ∃ u st', ReadVariable var b st 1 = some (.instRef u, st') ∧
        (getInst st' u).opcode = UndefOpcode var) :=
  ⟨SsaRewritePass_total, read_no_def_undef⟩

/-- A two-block program for the C9 witness: block 1 has single predecessor
block 0; `R2` is set in block 0 and read in block 1. -/
def c9w : PassState :=
  { arena := [{ opcode := .SetRegister, args := [.reg 2, .u32 5] },
              { opcode := .GetRegister, args := [.reg 2] }],
    blocks := [{ insts := [0] }, { insts := [1], preds := [0] }] }

/-- A sealed entry block with no predecessors and no definitions, for the
second half of the C9 witness. -/
def c9Sealed : PassState :=
  { blocks := [{}], sealedBlocks := [0] }

/-- C9 witness: the theorem applied to the concrete two-block program (with
`rank` the block index) and to the empty sealed entry block. -/
theorem ssa_pass_no_failure_witness :
    (∃ fuel st', SsaRewritePass [0, 1] c9w fuel = some st') ∧
    (∃ u st', ReadVariable (.reg 2) 0 c9Sealed 1 = some (.instRef u, st') ∧
      (getInst st' u).opcode = UndefOpcode (.reg 2)) :=
  ⟨ssa_pass_no_failure.1 [0, 1] c9w (fun z => z)
    (by
      intro z hz
      rcases z with _ | _ | z
      · exact absurd hz (by decide)
      · decide
      · rw [getBlock_out_of_range (show ¬ z + 2 < 2 from by omega)] at hz
        exact absurd hz (by decide))
    (by decide),
   ssa_pass_no_failure.2 (.reg 2) 0 c9Sealed (by decide) (by decide) (by decide)⟩

end Yuzu
